import Mathlib

/-!
Verification development for the document ingestion pipeline of the
securedocai application (supabase edge functions `process-document`,
`cleanup-stuck-documents`, `chat`, and the client-side `pdfParser.ts`).

Strings are modelled as `List Char`.  JavaScript string operations
(trim, slice, regex replace and split) are embedded as executable
functions on `List Char`, with regex semantics spelled out where the
source uses regexes.
-/

namespace SecureDocAI

/-- Strings of the embedded program are lists of characters. -/
abbrev Str := List Char

/-! ## Basic data model -/

/-- Lifecycle status of a document (`sources.status`). -/
inductive Status where
  | pending | processing | ready | error
deriving DecidableEq, Repr

/-- File type of an uploaded source (`sources.file_type`). -/
inductive FileType where
  | txt | pdf | docx | doc | other
deriving DecidableEq, Repr

/-- Error messages produced by the pipeline.  Constructors correspond to
the distinct `throw new Error(...)` sites and to the sweeper's timeout
message; the exact display strings (which interpolate numbers) are
abstracted into the constructor arguments. -/
inductive Msg where
  /-- message of the form `Failed to download file: ...` -/
  | downloadFailed
  /-- message `PDF too large for server-side processing (X MB). ...` -/
  | oversizePdf (fileSizeBytes : Nat)
  /-- message `AI rate limit exceeded. Please try again in a few minutes.` -/
  | rateLimit
  /-- message `AI credits exhausted. Please add funds to continue.` -/
  | creditsExhausted
  /-- message `AI extraction failed (status)` -/
  | aiFailed (status : Nat)
  /-- message `Max retries exceeded` -/
  | maxRetriesExceeded
  /-- message of a caught network exception -/
  | network (s : Str)
  /-- sweeper message `Processing timed out after X minutes. Click Reprocess to try again.` -/
  | timeout (minutes : Nat)
  /-- any other message -/
  | custom (s : Str)
deriving DecidableEq, Repr

/-- Human readable phase string written to `sources.processing_info`. -/
inductive PhaseInfo where
  /-- `Starting processing...` -/
  | starting
  /-- `Text extracted, creating chunks...` -/
  | textExtracted
  /-- `Processing pages S-E of ~P...` -/
  | processingPages (startPage endPage estPages : Nat)
deriving DecidableEq, Repr

/-- Relevant columns of a `sources` row.  Timestamps are epoch
milliseconds. -/
structure SourceRow where
  status : Status
  error_message : Option Msg
  processing_started_at : Option Nat
  processing_progress : Option Nat
  processing_info : Option PhaseInfo
  updated_at : Nat
  page_count : Option Nat
  content_preview : Option Str
  chunks : List Str
deriving DecidableEq, Repr

/-! ## Stuck-job sweeper (`cleanup-stuck-documents/index.ts`) -/

/-- Threshold constant `STUCK_THRESHOLD_MINUTES` of the sweeper. -/
def STUCK_THRESHOLD_MINUTES : Nat := 10

/-- Milliseconds form of the stuck threshold
(`STUCK_THRESHOLD_MINUTES * 60 * 1000`). -/
def stuckThresholdMs : Nat := STUCK_THRESHOLD_MINUTES * 60 * 1000

/-- Selection filter of the sweeper: status in (`processing`,`pending`)
and `processing_started_at.lt.thresholdTime` or
`and(processing_started_at.is.null, updated_at.lt.thresholdTime)`.
In SQL a comparison against null is not satisfied, hence the match. -/
def sweeperSelects (now : Nat) (doc : SourceRow) : Bool :=
  (doc.status = Status.processing || doc.status = Status.pending) &&
    (match doc.processing_started_at with
      | some t => decide (t < now - stuckThresholdMs)
      | none => decide (doc.updated_at < now - stuckThresholdMs))

/-- Number of stuck minutes reported by the sweeper:
`Math.round((Date.now() - new Date(startTime).getTime()) / 60000)` with
`startTime = processing_started_at || updated_at`.  Rounding half up on
a nonnegative rational is `(ms + 30000) / 60000` in natural division. -/
def stuckMinutes (now : Nat) (doc : SourceRow) : Nat :=
  let startTime := doc.processing_started_at.getD doc.updated_at
  (now - startTime + 30000) / 60000

/-- Action of one sweeper pass on a single row: selected rows are
force-transitioned to `error` with the timeout message and cleared
progress fields; unselected rows are untouched. -/
def sweepDoc (now : Nat) (doc : SourceRow) : SourceRow :=
  if sweeperSelects now doc then
    { doc with
        status := Status.error
        error_message := some (Msg.timeout (stuckMinutes now doc))
        processing_progress := none
        processing_info := none }
  else doc

/-! ## JavaScript string primitives -/

/-- JavaScript whitespace, restricted to the ASCII white space
characters (the code base only manipulates ASCII text). -/
def isWsJs (c : Char) : Bool :=
  c == ' ' || c == '\t' || c == '\n' || c == '\r' || c == '\x0b' || c == '\x0c'

/-- Character class `[A-Z]` of the sentence-boundary regex. -/
def isUpperAZ (c : Char) : Bool := 'A' ≤ c && c ≤ 'Z'

/-- Character class `\d`. -/
def isDigitC (c : Char) : Bool := '0' ≤ c && c ≤ '9'

/-- Character class `\w` (`[A-Za-z0-9_]`), used by `\b` and by the
keyword tokenizer. -/
def isWordChar (c : Char) : Bool :=
  ('a' ≤ c && c ≤ 'z') || ('A' ≤ c && c ≤ 'Z') || isDigitC c || c == '_'

/-- JavaScript `toLowerCase` on the ASCII range. -/
def toLowerJs (c : Char) : Char :=
  if 'A' ≤ c && c ≤ 'Z' then Char.ofNat (c.toNat + 32) else c

/-- JavaScript `String.prototype.trim`. -/
def jsTrim (l : Str) : Str :=
  ((l.dropWhile isWsJs).reverse.dropWhile isWsJs).reverse

/-- JavaScript `s.slice(-n)` for `n > 0`: the last `min n len` characters. -/
def takeRight (n : Nat) (l : Str) : Str := l.drop (l.length - n)

/-! ## Literal global replace (`String.replace` with a literal-only
regex and flag `g`): left-to-right, non-overlapping. -/

/-- One fueled scan of a literal global replace.  At each position the
scanner either rewrites a match of `pat` into `rep` (consuming
`pat.length ≥ 1 characters`) or emits one character. -/
def litScan (pat rep : Str) : Nat → Str → Str
  | 0, t => t
  | _ + 1, [] => []
  | fuel + 1, c :: cs =>
      if pat.isPrefixOf (c :: cs) then
        rep ++ litScan pat rep fuel (List.drop (pat.length - 1) cs)
      else c :: litScan pat rep fuel cs

/-- JavaScript `t.replace(/pat/g, rep)` for a literal pattern. -/
def replaceAllL (pat rep t : Str) : Str := litScan pat rep t.length t

/-! ## Abbreviation masking

The source builds, for each entry `abbr` of a fixed list, the regex
`new RegExp(`\\b${abbr}\\.`, "gi")` and replaces every match with
`` `${abbr}<<DOT>>` ``.  A `.` inside the abbreviation (as in `e.g`)
is not escaped and therefore acts as the regex wildcard (any character
except a newline); the final `\.` is a literal dot; letters match case
insensitively; `\b` requires the previous character to be a non-word
character (or the start of the string) since every abbreviation starts
with a letter. -/

/-- Matching of the pattern body `abbr` followed by the literal dot
against a prefix of the text. -/
def abbrevPatMatch : Str → Str → Bool
  | [], t => match t with | c :: _ => c == '.' | [] => false
  | p :: ps, t =>
      match t with
      | [] => false
      | c :: cs =>
          (if p == '.' then c != '\n' else toLowerJs c == p) && abbrevPatMatch ps cs

/-- Word-boundary test `\b` before the first (letter) character of the
pattern: satisfied at the start of the string or after a non-word
character. -/
def boundaryOk (prev : Option Char) : Bool :=
  match prev with
  | none => true
  | some p => !(isWordChar p)

/-- Fueled scanner for one abbreviation replace pass.  On a match the
replacement `abbr ++ "<<DOT>>"` is emitted and `abbr.length + 1`
source characters are consumed; the character before the next scan
position is then the matched literal dot. -/
def abbrevScan (abbr : Str) : Nat → Option Char → Str → Str
  | 0, _, t => t
  | _ + 1, _, [] => []
  | fuel + 1, prev, c :: cs =>
      if boundaryOk prev && abbrevPatMatch abbr (c :: cs) then
        abbr ++ ("<<DOT>>").toList ++
          abbrevScan abbr fuel (some '.') (List.drop abbr.length cs)
      else c :: abbrevScan abbr fuel (some c) cs

/-- One abbreviation replace pass over the whole text. -/
def abbrevPass (abbr t : Str) : Str := abbrevScan abbr t.length none t

/-- Abbreviation list of `splitIntoSentences`. -/
def abbreviations : List Str :=
  ["mr", "mrs", "ms", "dr", "prof", "sr", "jr", "vs", "etc", "inc", "ltd",
   "co", "corp", "st", "ave", "blvd", "e.g", "i.e", "fig", "vol", "no",
   "pp"].map String.toList

/-- Sequential application of all abbreviation replace passes. -/
def maskAbbreviations (t : Str) : Str :=
  abbreviations.foldl (fun acc abbr => abbrevPass abbr acc) t

/-! ## Page-marker masking -/

/-- Literal pattern `=== PDF PAGE` of the page-marker masking. -/
def pmPat : Str := ("=== PDF PAGE").toList

/-- Masking token `<<PAGE_MARKER>>`. -/
def pmTok : Str := ("<<PAGE_MARKER>>").toList

/-- Masking token `<<DOT>>`. -/
def dotTok : Str := ("<<DOT>>").toList

/-- `processedText.replace(/=== PDF PAGE/g, "<<PAGE_MARKER>>")`. -/
def maskPageMarkers (t : Str) : Str := replaceAllL pmPat pmTok t

/-- Per-sentence restoration
`s.replace(/<<DOT>>/g, ".").replace(/<<PAGE_MARKER>>/g, "=== PDF PAGE")`. -/
def restoreSentence (s : Str) : Str :=
  replaceAllL pmTok pmPat (replaceAllL dotTok ['.'] s)

/-! ## Sentence splitting

The splitting regex is
`/(?<=[.!?])\s+(?=[A-Z])|(?<=[.!?])\s*\n+/g`.  At a position whose
previous character is `.`, `!` or `?` and whose current character is
white space, with `run` the maximal white-space run starting there:
the first alternative matches the whole run when the character after
the run is `[A-Z]`; otherwise the second alternative matches up to and
including the last newline of the run, if the run contains one;
otherwise there is no separator at this position.  Later positions
inside the run fail the lookbehind, so scanning continues character by
character. -/

/-- Lookbehind `(?<=[.!?])`. -/
def isPunctSB (prev : Option Char) : Bool :=
  match prev with
  | some p => p == '.' || p == '!' || p == '?'
  | none => false

/-- Index of the last `'\n'` in a list, if any. -/
def lastNlIdx (l : Str) : Option Nat :=
  l.reverse.findIdx? (· == '\n') |>.map (fun k => l.length - 1 - k)

/-- Fueled splitting scan.  `acc` holds the current piece reversed. -/
def splitGo : Nat → Str → Option Char → Str → List Str
  | 0, acc, _, t => [acc.reverse ++ t]
  | _ + 1, acc, _, [] => [acc.reverse]
  | fuel + 1, acc, prev, c :: cs =>
      if isPunctSB prev && isWsJs c then
        let run := c :: cs.takeWhile isWsJs
        let rest := cs.dropWhile isWsJs
        if (match rest with | r :: _ => isUpperAZ r | [] => false) then
          acc.reverse :: splitGo fuel [] (some (run.getLastD c)) rest
        else
          match lastNlIdx run with
          | some k => acc.reverse :: splitGo fuel [] (some '\n') (run.drop (k + 1) ++ rest)
          | none => splitGo fuel (c :: acc) (some c) cs
      else splitGo fuel (c :: acc) (some c) cs

/-- `processedText.split(sentenceRegex)`. -/
def splitPieces (t : Str) : List Str := splitGo t.length [] none t

/-- Function `splitIntoSentences` of `process-document/index.ts`. -/
def splitIntoSentences (text : Str) : List Str :=
  (splitPieces (maskPageMarkers (maskAbbreviations text))).map restoreSentence

/-! ## Chunking (`splitIntoSmartChunks`) -/

/-- Constant `CHUNK_SIZE_TOKENS`. -/
def CHUNK_SIZE_TOKENS : Nat := 500

/-- Constant `CHUNK_OVERLAP_TOKENS`. -/
def CHUNK_OVERLAP_TOKENS : Nat := 100

/-- Constant `CHARS_PER_TOKEN`. -/
def CHARS_PER_TOKEN : Nat := 4

/-- `targetChunkSize = CHUNK_SIZE_TOKENS * CHARS_PER_TOKEN` (2000). -/
def targetChunkSize : Nat := CHUNK_SIZE_TOKENS * CHARS_PER_TOKEN

/-- `overlapSize = CHUNK_OVERLAP_TOKENS * CHARS_PER_TOKEN` (400). -/
def overlapSize : Nat := CHUNK_OVERLAP_TOKENS * CHARS_PER_TOKEN

/-- Main accumulation loop of `splitIntoSmartChunks`: arguments are the
remaining sentences, the current chunk, the overlap buffer and the
list of completed chunks. -/
def chunkLoop : List Str → Str → Str → List Str → List Str
  | [], current, _, chunks =>
      chunks ++ (if (jsTrim current).isEmpty then [] else [jsTrim current])
  | s :: rest, current, overlap, chunks =>
      let t := jsTrim s
      if t.isEmpty then chunkLoop rest current overlap chunks
      else
        let close : Bool :=
          decide (targetChunkSize < current.length + t.length) && decide (0 < current.length)
        let chunks' := if close then chunks ++ [jsTrim current] else chunks
        let current' :=
          if close then overlap ++ ' ' :: t
          else if current.isEmpty then t else current ++ ' ' :: t
        let combined := overlap ++ ' ' :: t
        let overlap' :=
          if overlapSize < combined.length then jsTrim (takeRight overlapSize combined)
          else jsTrim combined
        chunkLoop rest current' overlap' chunks'

/-- Chunk sequence before the final minimum-length filter. -/
def preFilterChunks (text : Str) : List Str :=
  chunkLoop (splitIntoSentences text) [] [] []

/-- Function `splitIntoSmartChunks` of `process-document/index.ts`. -/
def splitIntoSmartChunks (text : Str) : List Str :=
  (preFilterChunks text).filter (fun c => decide (50 < c.length))

/-! ## Page-marker scanning

Three regex scans of the source are embedded here:
`/=== PAGE \d+ of (\d+) ===/g` (pre-extracted text),
`/=== PDF PAGE \d+ of (\d+) ===/g` (single-call extraction, global) and
`/=== PDF PAGE \d+ of (\d+) ===/` (first match only, batched
extraction).  `\d+` is a maximal digit run; matches are found left to
right and do not overlap. -/

/-- JavaScript `parseInt(ds, 10)` on a digit string. -/
def digitsToNat (ds : Str) : Nat :=
  ds.foldl (fun a c => 10 * a + (c.toNat - 48)) 0

/-- Match of `PFX \d+ of (\d+) ===` at the head of `t`, where `pfx` is
the literal prefix (`=== PAGE ` or `=== PDF PAGE `).  Returns the page
number, the captured total and the match length. -/
def markerAt (pfx : Str) (t : Str) : Option (Nat × Nat × Nat) :=
  if pfx.isPrefixOf t then
    let t1 := t.drop pfx.length
    let ds := t1.takeWhile isDigitC
    if ds.isEmpty then none
    else
      let t2 := t1.drop ds.length
      if (" of ").toList.isPrefixOf t2 then
        let t3 := t2.drop 4
        let ds2 := t3.takeWhile isDigitC
        if ds2.isEmpty then none
        else
          let t4 := t3.drop ds2.length
          if (" ===").toList.isPrefixOf t4 then
            some (digitsToNat ds, digitsToNat ds2,
              pfx.length + ds.length + 4 + ds2.length + 4)
          else none
      else none
  else none

/-- Fueled global scan for marker matches. -/
def scanMarkers (pfx : Str) : Nat → Str → List (Nat × Nat)
  | 0, _ => []
  | _ + 1, [] => []
  | fuel + 1, c :: cs =>
      match markerAt pfx (c :: cs) with
      | some (n, tot, len) => (n, tot) :: scanMarkers pfx fuel (List.drop (len - 1) cs)
      | none => scanMarkers pfx fuel cs

/-- All matches of `/=== PAGE \d+ of (\d+) ===/g` in `t`. -/
def clientMarkers (t : Str) : List (Nat × Nat) :=
  scanMarkers (("=== PAGE ").toList) t.length t

/-- All matches of `/=== PDF PAGE \d+ of (\d+) ===/g` in `t`. -/
def aiMarkers (t : Str) : List (Nat × Nat) :=
  scanMarkers (("=== PDF PAGE ").toList) t.length t

/-- Ceiling division `Math.ceil(a / b)` on naturals. -/
def ceilDiv (a b : Nat) : Nat := (a + b - 1) / b

/-- Constant `ESTIMATED_CHARS_PER_PAGE`. -/
def ESTIMATED_CHARS_PER_PAGE : Nat := 3000

/-- Page count of the pre-extracted path: the captured total of the
last `=== PAGE n of total ===` match if any, otherwise the initial
`source.page_count || 1`. -/
def preExtractedPageCount (t : Str) (srcPageCount : Option Nat) : Nat :=
  match (clientMarkers t).getLast? with
  | some (_, tot) => tot
  | none =>
      match srcPageCount with
      | some 0 => 1
      | some n => n
      | none => 1

/-- Page count computed by `extractPdfSingleCall`:
`Math.max(...totals)` over all AI marker matches, or
`Math.max(1, Math.ceil(text.length / ESTIMATED_CHARS_PER_PAGE))` when
there is no match. -/
def singleCallPageCount (text : Str) : Nat :=
  match aiMarkers text with
  | [] => max 1 (ceilDiv text.length ESTIMATED_CHARS_PER_PAGE)
  | ms => (ms.map Prod.snd).foldl max 0

/-! ## Retrying transport (`fetchWithRetry`) -/

/-- Outcome of one `fetch` attempt: either a response with an HTTP
status, or a thrown network exception. -/
inductive FetchOutcome where
  | resp (status : Nat)
  | exn (msg : Str)
deriving DecidableEq, Repr

/-- Result of the transport together with the list of waited backoff
delays (milliseconds), in order.  `Except.error none` models
`throw new Error("Max retries exceeded")`; `Except.error (some m)`
models `throw lastError`. -/
abbrev RetryResult := Except (Option Str) Nat × List Nat

/-- Loop of `fetchWithRetry`: first argument is the number of
remaining attempts, second the current attempt index (used by the
backoff `Math.pow(2, attempt) * 1000`), third the recorded
`lastError`. -/
def retryGo (outcomes : Nat → FetchOutcome) : Nat → Nat → Option Str → RetryResult
  | 0, _, lastError => (Except.error lastError, [])
  | n + 1, attempt, lastError =>
      match outcomes attempt with
      | FetchOutcome.resp s =>
          if 400 ≤ s ∧ s < 500 ∧ s ≠ 429 then (Except.ok s, [])
          else if 500 ≤ s ∨ s = 429 then
            let r := retryGo outcomes n (attempt + 1) lastError
            (r.1, 2 ^ attempt * 1000 :: r.2)
          else (Except.ok s, [])
      | FetchOutcome.exn m =>
          let r := retryGo outcomes n (attempt + 1) (some m)
          (r.1, 2 ^ attempt * 1000 :: r.2)

/-- Function `fetchWithRetry(url, options, maxRetries)`, abstracted
over the sequence of attempt outcomes. -/
def fetchWithRetry (outcomes : Nat → FetchOutcome) (maxRetries : Nat) : RetryResult :=
  retryGo outcomes maxRetries 0 none

/-! ## Job lifecycle (`process-document/index.ts`)

The calls of the edge function on the database are modelled as a trace
of operations on the `sources` row (plus chunk-table operations), in
program order.  AI calls are recorded in the trace as `aiCall`
markers; their outcomes (text or a thrown error message, after the
retrying transport and `handleAiError`) are inputs of the model. -/

/-- Database operations performed by the ingestion pipeline on one
document. -/
inductive DbOp where
  /-- serve-handler update: status `processing`, null error, stamp
  `processing_started_at`, progress 0, info `Starting processing...` -/
  | setProcessing
  /-- pre-extracted-path update: progress 50,
  info `Text extracted, creating chunks...` -/
  | setProgress50
  /-- batched-extraction heartbeat: progress, phase info and a fresh
  `updated_at` -/
  | heartbeat (progress startPage endPage estPages : Nat)
  /-- one outbound AI extraction call (no database effect) -/
  | aiCall
  /-- `delete from source_chunks where source_id = ...` -/
  | deleteChunks
  /-- insertion of the freshly computed chunk set -/
  | insertChunks (chunks : List Str)
  /-- success update: status `ready`, preview, page count, null error -/
  | setReady (preview : Str) (pageCount : Nat)
  /-- failure update of the catch handler: status `error` and the
  message of the caught exception -/
  | setError (m : Msg)
deriving DecidableEq, Repr

/-- Effect of one operation on the row; `now` is the clock value used
for timestamp writes. -/
def applyOp (now : Nat) (db : SourceRow) : DbOp → SourceRow
  | DbOp.setProcessing =>
      { db with status := Status.processing, error_message := none,
                processing_started_at := some now,
                processing_progress := some 0,
                processing_info := some PhaseInfo.starting }
  | DbOp.setProgress50 =>
      { db with processing_progress := some 50,
                processing_info := some PhaseInfo.textExtracted }
  | DbOp.heartbeat p s e est =>
      { db with processing_progress := some p,
                processing_info := some (PhaseInfo.processingPages s e est),
                updated_at := now }
  | DbOp.aiCall => db
  | DbOp.deleteChunks => { db with chunks := [] }
  | DbOp.insertChunks cs => { db with chunks := db.chunks ++ cs }
  | DbOp.setReady preview pc =>
      { db with status := Status.ready, content_preview := some preview,
                page_count := some pc, error_message := none }
  | DbOp.setError m =>
      { db with status := Status.error, error_message := some m }

/-- Application of a whole trace. -/
def applyTrace (now : Nat) (db : SourceRow) (ops : List DbOp) : SourceRow :=
  ops.foldl (applyOp now) db

/-- Constant `PAGES_PER_BATCH`. -/
def PAGES_PER_BATCH : Nat := 5

/-- `Math.round((batch / totalBatches) * 80)`, the 0–80 % extraction
band; rounding half up of `80*b/total` is `(160*b + total) / (2*total)`
in natural division. -/
def batchProgress (b total : Nat) : Nat := (160 * b + total) / (2 * total)

/-- Placeholder `[Error extracting pages S-E]` substituted for a
failed batch. -/
def errPlaceholder (est b : Nat) : Str :=
  ("[Error extracting pages ").toList ++
    Nat.toDigits 10 (b * PAGES_PER_BATCH + 1) ++ ['-'] ++
    Nat.toDigits 10 (min ((b + 1) * PAGES_PER_BATCH) est) ++ [']']

/-- Text contributed by batch `b`: the extracted text on success, the
placeholder on failure. -/
def batchSlot (est : Nat) (outcomes : Nat → Except Msg Str) (b : Nat) : Str :=
  match outcomes b with
  | Except.ok t => t
  | Except.error _ => errPlaceholder est b

/-- Loop of `extractPdfInBatches`; the first argument is the number of
remaining batches, the second the current batch index.  Produces the
database-operation trace (heartbeat before each AI call) and the list
of per-batch texts. -/
def batchLoopAux (est total : Nat) (outcomes : Nat → Except Msg Str) :
    Nat → Nat → List DbOp × List Str
  | 0, _ => ([], [])
  | r + 1, b =>
      let startPage := b * PAGES_PER_BATCH + 1
      let endPage := min ((b + 1) * PAGES_PER_BATCH) est
      let rest := batchLoopAux est total outcomes r (b + 1)
      (DbOp.heartbeat (batchProgress b total) startPage endPage est ::
         DbOp.aiCall :: rest.1,
       batchSlot est outcomes b :: rest.2)

/-- Function `extractPdfInBatches`: runs every batch, combines the
texts with `"\n\n"`, and takes the true page count from the first AI
page marker of batch 0 when that batch succeeded and carries one. -/
def extractPdfInBatchesM (est : Nat) (outcomes : Nat → Except Msg Str) :
    List DbOp × Str × Nat :=
  let total := ceilDiv est PAGES_PER_BATCH
  let run := batchLoopAux est total outcomes total 0
  let pageCount :=
    if total = 0 then est
    else
      match outcomes 0 with
      | Except.ok t =>
          match (aiMarkers t).head? with
          | some (_, tot) => tot
          | none => est
      | Except.error _ => est
  (run.1, List.intercalate (("\n\n").toList) run.2, pageCount)

/-- Function `extractPdfContent`: estimates pages from the file size
(50000 bytes per page, rounded up) and chooses the single-call or the
batched strategy; `single` and `batches` are the outcomes of the
corresponding AI extraction calls. -/
def extractPdfContentM (fileSize : Nat) (single : Except Msg Str)
    (batches : Nat → Except Msg Str) : List DbOp × Except Msg (Str × Nat) :=
  let est := ceilDiv fileSize 50000
  if est ≤ 15 then
    ([DbOp.aiCall],
      match single with
      | Except.ok t => Except.ok (t, singleCallPageCount t)
      | Except.error e => Except.error e)
  else
    let r := extractPdfInBatchesM est batches
    (r.1, Except.ok (r.2.1, r.2.2))

/-- Environment of one background job: the storage download outcome
(for TXT files its payload is the decoded text) and the outcomes of
the possible AI extraction calls. -/
structure ExtractEnv where
  download : Except Msg Str
  single : Except Msg Str
  batches : Nat → Except Msg Str
  docx : Except Msg Str

/-- Relevant fields of the looked-up `sources` row at job start. -/
structure SourceInfo where
  file_type : FileType
  file_size : Nat
  page_count : Option Nat
deriving DecidableEq, Repr

/-- JavaScript `x || 1` on a nullable number. -/
def jsOr1 : Option Nat → Nat
  | some 0 => 1
  | some n => n
  | none => 1

/-- Placeholder preview `[<TYPE> document]` used when the extracted
text is empty. -/
def typePlaceholder (ft : FileType) : Str :=
  match ft with
  | FileType.txt => ("[TXT document]").toList
  | FileType.pdf => ("[PDF document]").toList
  | FileType.docx => ("[DOCX document]").toList
  | FileType.doc => ("[DOC document]").toList
  | FileType.other => ("[OTHER document]").toList

/-- `textContent.substring(0, 500).trim() ||` placeholder. -/
def contentPreview (ft : FileType) (text : Str) : Str :=
  let p := jsTrim (text.take 500)
  if p.isEmpty then typePlaceholder ft else p

/-- Success tail of the background job: compute chunks, delete the
previous chunk set, insert the new one (omitted when empty) and mark
the document ready. -/
def successTail (ft : FileType) (text : Str) (pc : Nat) : List DbOp :=
  let chunks := if text.isEmpty then [] else splitIntoSmartChunks text
  DbOp.deleteChunks ::
    (if chunks.isEmpty then [] else [DbOp.insertChunks chunks]) ++
    [DbOp.setReady (contentPreview ft text) pc]

/-- Download-and-extract path of the background job (no pre-extracted
text). -/
def downloadPath (src : SourceInfo) (env : ExtractEnv) : List DbOp :=
  match env.download with
  | Except.error _ => [DbOp.setError Msg.downloadFailed]
  | Except.ok fileText =>
      match src.file_type with
      | FileType.txt =>
          let pc := match ceilDiv fileText.length ESTIMATED_CHARS_PER_PAGE with
            | 0 => 1
            | n => n
          successTail FileType.txt fileText pc
      | FileType.pdf =>
          if 2 * 1024 * 1024 < src.file_size then
            [DbOp.setError (Msg.oversizePdf src.file_size)]
          else
            let r := extractPdfContentM src.file_size env.single env.batches
            r.1 ++
              match r.2 with
              | Except.ok (t, pc) => successTail FileType.pdf t pc
              | Except.error e => [DbOp.setError e]
      | FileType.docx =>
          DbOp.aiCall ::
            match env.docx with
            | Except.ok t =>
                successTail FileType.docx t
                  (max 1 (ceilDiv t.length ESTIMATED_CHARS_PER_PAGE))
            | Except.error e => [DbOp.setError e]
      | FileType.doc =>
          DbOp.aiCall ::
            match env.docx with
            | Except.ok t =>
                successTail FileType.doc t
                  (max 1 (ceilDiv t.length ESTIMATED_CHARS_PER_PAGE))
            | Except.error e => [DbOp.setError e]
      | FileType.other =>
          successTail FileType.other [] (jsOr1 src.page_count)

/-- Function `processDocumentInBackground`: with nonempty
pre-extracted text, AI extraction is skipped and the page count read
from the client page markers; otherwise the file is downloaded and
extracted by type. -/
def backgroundTraceM (src : SourceInfo) (preExtracted : Option Str)
    (env : ExtractEnv) : List DbOp :=
  match preExtracted with
  | some t =>
      if t.isEmpty then downloadPath src env
      else
        DbOp.setProgress50 ::
          successTail src.file_type t (preExtractedPageCount t src.page_count)
  | none => downloadPath src env

/-- Synchronous response of the `process-document` serve handler. -/
inductive ServeResponse where
  /-- 400 `sourceId is required` -/
  | badRequest
  /-- 500 `AI processing not configured` -/
  | noApiKey
  /-- 404 `Source not found` -/
  | notFound
  /-- 200 `Document processing started` -/
  | ack
deriving DecidableEq, Repr

/-- Outcome of one invocation of the ingestion trigger: the
synchronous response, whether a background job was scheduled, and the
full operation trace (the synchronous `setProcessing` update followed
by the detached background trace). -/
structure TriggerOutcome where
  response : ServeResponse
  jobStarted : Bool
  ops : List DbOp
deriving DecidableEq, Repr

/-- Serve handler of `process-document`. -/
def serveProcessDocument (sourceIdPresent keyConfigured : Bool)
    (sourceLookup : Option SourceInfo) (preExtracted : Option Str)
    (env : ExtractEnv) : TriggerOutcome :=
  if !sourceIdPresent then ⟨ServeResponse.badRequest, false, []⟩
  else if !keyConfigured then ⟨ServeResponse.noApiKey, false, []⟩
  else
    match sourceLookup with
    | none => ⟨ServeResponse.notFound, false, []⟩
    | some src =>
        ⟨ServeResponse.ack, true,
          DbOp.setProcessing :: backgroundTraceM src preExtracted env⟩

/-! ## Retrieval scorer (`chat/index.ts`, `searchRelevantChunks`) -/

/-- Constant `MAX_CHUNKS`. -/
def MAX_CHUNKS : Nat := 10

/-- Constant `MAX_CONTEXT_CHARS`. -/
def MAX_CONTEXT_CHARS : Nat := 8000

/-- Row of `source_chunks` joined with the source name. -/
structure ChunkRow where
  content : Str
  chunk_index : Nat
  source_id : Nat
  source_name : Str
deriving DecidableEq, Repr

/-- Chunk row with its keyword score. -/
structure ScoredChunk where
  row : ChunkRow
  score : Nat
deriving DecidableEq, Repr

/-- JavaScript `query.split(/\s+/)`: pieces between maximal
white-space runs (leading and trailing empty pieces included). -/
def wsSplitGo : Nat → Str → Str → List Str
  | 0, acc, t => [acc.reverse ++ t]
  | _ + 1, acc, [] => [acc.reverse]
  | fuel + 1, acc, c :: cs =>
      if isWsJs c then acc.reverse :: wsSplitGo fuel [] (cs.dropWhile isWsJs)
      else wsSplitGo fuel (c :: acc) cs

/-- Split on white-space runs. -/
def wsSplit (t : Str) : List Str := wsSplitGo t.length [] t

/-- Keyword list of the query:
`query.toLowerCase().replace(/[^\w\s]/g, "").split(/\s+/).filter(w => w.length > 2)`. -/
def queryKeywords (query : Str) : List Str :=
  (wsSplit ((query.map toLowerJs).filter (fun c => isWordChar c || isWsJs c))).filter
    (fun w => decide (2 < w.length))

/-- JavaScript `t.includes(p)`: substring containment. -/
def jsIncludes (t p : Str) : Bool :=
  decide (p <:+: t)

/-- Score of one chunk: the number of keywords (with multiplicity in
the keyword list) occurring as substrings of the lower-cased content. -/
def chunkScore (kws : List Str) (content : Str) : Nat :=
  kws.countP (fun kw => jsIncludes (content.map toLowerJs) kw)

/-- Candidate gathering: only the first 5 source ids are consulted, at
most `MAX_CHUNKS` stored chunks per source, and zero-score chunks are
discarded. -/
def gatherScored (kws : List Str) (sources : List (Nat × List ChunkRow)) :
    List ScoredChunk :=
  ((sources.take 5).map (fun p =>
    (p.2.take MAX_CHUNKS).filterMap (fun ch =>
      let s := chunkScore kws ch.content
      if 0 < s then some (ScoredChunk.mk ch s) else none))).flatten

/-- Stable insertion into a list sorted by descending score: the new
element (which comes earlier in the input) is placed before every
element of equal or smaller score. -/
def insertDesc (x : ScoredChunk) : List ScoredChunk → List ScoredChunk
  | [] => [x]
  | y :: ys => if y.score ≤ x.score then x :: y :: ys else y :: insertDesc x ys

/-- Stable sort by descending score, modelling the ES2019-stable
`results.sort((a, b) => (b.score || 0) - (a.score || 0))`. -/
def sortByScoreDesc (l : List ScoredChunk) : List ScoredChunk :=
  l.foldr insertDesc []

/-- Greedy acceptance loop bounded by the context-character budget and
the chunk count. -/
def greedyGo : Nat → List ScoredChunk → List ScoredChunk → List ScoredChunk
  | _, acc, [] => acc.reverse
  | total, acc, c :: rest =>
      if MAX_CONTEXT_CHARS < total + c.row.content.length then acc.reverse
      else
        let acc' := c :: acc
        if MAX_CHUNKS ≤ acc'.length then acc'.reverse
        else greedyGo (total + c.row.content.length) acc' rest

/-- Function `searchRelevantChunks`, abstracted over the stored chunk
lists of the candidate sources (in candidate order). -/
def searchRelevantChunks (query : Str) (sources : List (Nat × List ChunkRow)) :
    List ScoredChunk :=
  if sources.isEmpty then []
  else
    let kws := queryKeywords query
    if kws.isEmpty then []
    else greedyGo 0 [] (sortByScoreDesc (gatherScored kws sources))

/-! ## Theorems -/

/-! ### C1: the heartbeat and the sweeper -/

/-- Row used in the C1 evaluation: a document in status `processing`
that started processing 15 minutes ago and wrote a heartbeat
(`updated_at`) one minute ago. -/
def c1doc : SourceRow :=
  { status := Status.processing, error_message := none,
    processing_started_at := some 0, processing_progress := some 40,
    processing_info := some (PhaseInfo.processingPages 21 25 40),
    updated_at := 840000, page_count := none, content_preview := none,
    chunks := [] }

/-- C1: the batched extractor writes its heartbeat into `updated_at`
(`heartbeat` is the only operation of the job trace that touches
`updated_at`), yet one sweeper pass at time 900000 ms force-transitions
`c1doc` to `error` although its heartbeat (840000) is more recent than
the 10-minute threshold (900000 − 600000 = 300000): the sweeper
selection consults `processing_started_at` whenever it is non-null, so
a fresh `updated_at` does not protect a processing document, contrary
to the claim. -/
theorem C1_sweeper_kills_fresh_heartbeat :
    (applyOp 840000 c1doc (DbOp.heartbeat 42 21 25 40)).updated_at = 840000 ∧
    c1doc.status = Status.processing ∧
    900000 - stuckThresholdMs < c1doc.updated_at ∧
    (sweepDoc 900000 c1doc).status = Status.error := by
  refine ⟨rfl, rfl, by decide, ?_⟩
  decide

/-! ### C4: retry policy of the transport -/

/-- Last network exception thrown among attempts
`attempt, …, attempt + n - 1`, if any (later attempts take
precedence). -/
def lastNetworkExn (outcomes : Nat → FetchOutcome) : Nat → Nat → Option Str
  | _, 0 => none
  | attempt, n + 1 =>
      match lastNetworkExn outcomes (attempt + 1) n with
      | some m => some m
      | none =>
          match outcomes attempt with
          | FetchOutcome.exn m => some m
          | FetchOutcome.resp _ => none

/-- Attempt outcomes on which the loop keeps retrying: a 5xx or 429
response, or a thrown exception. -/
def retriableOutcome : FetchOutcome → Prop
  | FetchOutcome.resp s => 500 ≤ s ∨ s = 429
  | FetchOutcome.exn _ => True

/-- Helper for C4: the wait list of the retry loop is the doubling
backoff sequence over the attempt indices actually retried. -/
theorem retryGo_waits (outcomes : Nat → FetchOutcome) :
    ∀ n attempt le, ∃ k, k ≤ n ∧
      (retryGo outcomes n attempt le).2 =
        (List.range' attempt k).map (fun i => 2 ^ i * 1000) := by
  intro n
  induction n with
  | zero => intro attempt le; exact ⟨0, Nat.le_refl 0, rfl⟩
  | succ n ih =>
      intro attempt le
      cases houtcome : outcomes attempt with
      | resp s =>
          by_cases h4 : 400 ≤ s ∧ s < 500 ∧ s ≠ 429
          · exact ⟨0, Nat.zero_le _, by simp [retryGo, houtcome, h4]⟩
          · by_cases h5 : 500 ≤ s ∨ s = 429
            · obtain ⟨k, hk, hw⟩ := ih (attempt + 1) le
              refine ⟨k + 1, Nat.succ_le_succ hk, ?_⟩
              simp only [retryGo, houtcome, if_neg h4, if_pos h5]
              rw [hw, List.range'_succ, List.map_cons]
            · exact ⟨0, Nat.zero_le _, by simp [retryGo, houtcome, h4, h5]⟩
      | exn m =>
          obtain ⟨k, hk, hw⟩ := ih (attempt + 1) (some m)
          refine ⟨k + 1, Nat.succ_le_succ hk, ?_⟩
          simp only [retryGo, houtcome]
          rw [hw, List.range'_succ, List.map_cons]

/-- Helper for C4: when every attempt in the window is retriable, the
loop ends by throwing the last recorded exception, or the generic
error when no exception was recorded. -/
theorem retryGo_exhaustion (outcomes : Nat → FetchOutcome) :
    ∀ n attempt le,
      (∀ i, attempt ≤ i → i < attempt + n → retriableOutcome (outcomes i)) →
      (retryGo outcomes n attempt le).1 =
        Except.error
          (match lastNetworkExn outcomes attempt n with
            | some m => some m
            | none => le) := by
  intro n
  induction n with
  | zero => intro attempt le _; rfl
  | succ n ih =>
      intro attempt le hall
      have hattempt : retriableOutcome (outcomes attempt) :=
        hall attempt (Nat.le_refl _) (Nat.lt_of_lt_of_le (Nat.lt_succ_self _)
          (by omega))
      have hrest : ∀ i, attempt + 1 ≤ i → i < attempt + 1 + n →
          retriableOutcome (outcomes i) := by
        intro i h1 h2
        exact hall i (Nat.le_of_succ_le h1) (by omega)
      cases houtcome : outcomes attempt with
      | resp s =>
          rw [houtcome] at hattempt
          have h5 : 500 ≤ s ∨ s = 429 := hattempt
          have h4 : ¬(400 ≤ s ∧ s < 500 ∧ s ≠ 429) := by
            rcases h5 with h | h
            · intro hc; omega
            · intro hc; exact hc.2.2 h
          simp only [retryGo, lastNetworkExn, houtcome, if_neg h4, if_pos h5]
          rw [ih (attempt + 1) le hrest]
          cases lastNetworkExn outcomes (attempt + 1) n <;> rfl
      | exn m =>
          simp only [retryGo, lastNetworkExn, houtcome]
          rw [ih (attempt + 1) (some m) hrest]
          cases lastNetworkExn outcomes (attempt + 1) n <;> rfl

/-- C4: the retry policy of `fetchWithRetry` with 3 attempts.
(1) A 4xx response other than 429, at whichever attempt it occurs, is
returned immediately, with no further retry and no wait.
(2) On a 5xx or 429 response the loop waits `2^attempt * 1000` ms and
retries, so the waits double from the 1000 ms base; the overall wait
list is always an initial segment (at most 3 entries) of
`[1000, 2000, 4000]`.
(3) When all 3 attempts are retriable (5xx, 429 or a thrown network
exception), the transport throws the last network exception if one was
caught (`Except.error (some m)`), and otherwise the generic
`Max retries exceeded` error (`Except.error none`). -/
theorem C4_fetchWithRetry_policy (outcomes : Nat → FetchOutcome) :
    (∀ n attempt le s, outcomes attempt = FetchOutcome.resp s →
      400 ≤ s → s < 500 → s ≠ 429 →
      retryGo outcomes (n + 1) attempt le = (Except.ok s, [])) ∧
    (∀ n attempt le s, outcomes attempt = FetchOutcome.resp s →
      (500 ≤ s ∨ s = 429) →
      retryGo outcomes (n + 1) attempt le =
        ((retryGo outcomes n (attempt + 1) le).1,
          2 ^ attempt * 1000 :: (retryGo outcomes n (attempt + 1) le).2)) ∧
    (∃ k, k ≤ 3 ∧ (fetchWithRetry outcomes 3).2 =
      (List.range k).map (fun i => 2 ^ i * 1000)) ∧
    ((∀ i, i < 3 → retriableOutcome (outcomes i)) →
      (fetchWithRetry outcomes 3).1 =
        Except.error (lastNetworkExn outcomes 0 3)) := by
  refine ⟨?_, ?_, ?_, ?_⟩
  · intro n attempt le s hres h1 h2 h3
    rw [retryGo, hres]
    have h4 : 400 ≤ s ∧ s < 500 ∧ s ≠ 429 := ⟨h1, h2, h3⟩
    simp [if_pos h4]
  · intro n attempt le s hres h5
    rw [retryGo, hres]
    have h4 : ¬(400 ≤ s ∧ s < 500 ∧ s ≠ 429) := by
      rcases h5 with h | h
      · intro hc; omega
      · intro hc; exact hc.2.2 h
    simp [if_neg h4, if_pos h5]
  · obtain ⟨k, hk, hw⟩ := retryGo_waits outcomes 3 0 none
    refine ⟨k, hk, ?_⟩
    rw [fetchWithRetry, hw, List.range'_eq_map_range, List.map_map]
    exact List.map_congr_left (fun i _ => by simp)
  · intro hall
    have h := retryGo_exhaustion outcomes 3 0 none
      (by intro i h1 h2; exact hall i (by omega))
    rw [fetchWithRetry, h]
    cases lastNetworkExn outcomes 0 3 <;> rfl

/-- Witness for C4, at three concrete outcome sequences: a constant
404 response is returned at once with no waits; a first-attempt
exception followed by a 200 waits once (1000 ms) and succeeds; a
constant 500 exhausts all attempts with waits 1000, 2000, 4000 and
throws the generic error. -/
theorem C4_fetchWithRetry_policy_witness :
    fetchWithRetry (fun _ => FetchOutcome.resp 404) 3 = (Except.ok 404, []) ∧
    fetchWithRetry
      (fun i => if i = 0 then FetchOutcome.exn (("boom").toList)
        else FetchOutcome.resp 200) 3 =
      (Except.ok 200, [1000]) ∧
    ((fetchWithRetry (fun _ => FetchOutcome.resp 500) 3).1 = Except.error none ∧
      (fetchWithRetry (fun _ => FetchOutcome.resp 500) 3).2 = [1000, 2000, 4000]) := by
  refine ⟨?_, rfl, ?_, rfl⟩
  · exact (C4_fetchWithRetry_policy (fun _ => FetchOutcome.resp 404)).1 2 0 none 404
      rfl (by decide) (by decide) (by decide)
  · exact (C4_fetchWithRetry_policy (fun _ => FetchOutcome.resp 500)).2.2.2
      (by intro i _; exact Or.inl (by decide))

/-! ### Trace lemmas shared by the lifecycle claims -/

/-- Application of a concatenated trace. -/
theorem applyTrace_append (now : Nat) (db : SourceRow) (l₁ l₂ : List DbOp) :
    applyTrace now db (l₁ ++ l₂) = applyTrace now (applyTrace now db l₁) l₂ :=
  List.foldl_append _ _ _ _

/-- Operations that touch neither the status, nor the error message,
nor the chunk set (progress heartbeats and AI-call markers). -/
def benignOp : DbOp → Prop
  | DbOp.heartbeat _ _ _ _ => True
  | DbOp.aiCall => True
  | _ => False

/-- Effect of a benign operation on the tracked fields. -/
theorem applyOp_benign (now : Nat) (db : SourceRow) (op : DbOp) (h : benignOp op) :
    (applyOp now db op).status = db.status ∧
    (applyOp now db op).error_message = db.error_message ∧
    (applyOp now db op).chunks = db.chunks := by
  cases op with
  | heartbeat p s e est => exact ⟨rfl, rfl, rfl⟩
  | aiCall => exact ⟨rfl, rfl, rfl⟩
  | setProcessing => exact absurd h (by simp [benignOp])
  | setProgress50 => exact absurd h (by simp [benignOp])
  | deleteChunks => exact absurd h (by simp [benignOp])
  | insertChunks cs => exact absurd h (by simp [benignOp])
  | setReady p pc => exact absurd h (by simp [benignOp])
  | setError m => exact absurd h (by simp [benignOp])

/-- A trace of benign operations preserves the tracked fields. -/
theorem applyTrace_benign (now : Nat) :
    ∀ (ops : List DbOp), (∀ op ∈ ops, benignOp op) → ∀ db : SourceRow,
      (applyTrace now db ops).status = db.status ∧
      (applyTrace now db ops).error_message = db.error_message ∧
      (applyTrace now db ops).chunks = db.chunks := by
  intro ops
  induction ops with
  | nil => intro _ db; exact ⟨rfl, rfl, rfl⟩
  | cons op rest ih =>
      intro h db
      have hop := applyOp_benign now db op (h op (List.mem_cons_self op rest))
      have hrest := ih (fun o ho => h o (List.mem_cons_of_mem op ho)) (applyOp now db op)
      exact ⟨hrest.1.trans hop.1, hrest.2.1.trans hop.2.1, hrest.2.2.trans hop.2.2⟩

/-- Operations of the batch loop are heartbeats and AI-call markers. -/
theorem batchLoopAux_ops_benign (est total : Nat) (outcomes : Nat → Except Msg Str) :
    ∀ r b, ∀ op ∈ (batchLoopAux est total outcomes r b).1, benignOp op := by
  intro r
  induction r with
  | zero => intro b op hop; exact absurd hop (by simp [batchLoopAux])
  | succ r ih =>
      intro b op hop
      simp only [batchLoopAux, List.mem_cons] at hop
      rcases hop with h | h | h
      · subst h; trivial
      · subst h; trivial
      · exact ih (b + 1) op h

/-- Operations of `extractPdfContent` are benign. -/
theorem extractPdfContentM_ops_benign (fileSize : Nat) (single : Except Msg Str)
    (batches : Nat → Except Msg Str) :
    ∀ op ∈ (extractPdfContentM fileSize single batches).1, benignOp op := by
  intro op hop
  unfold extractPdfContentM at hop
  by_cases h : ceilDiv fileSize 50000 ≤ 15
  · simp only [if_pos h, List.mem_singleton] at hop
    subst hop; trivial
  · simp only [if_neg h] at hop
    exact batchLoopAux_ops_benign _ _ _ _ _ op hop

/-- Effect of the success tail on the row: ready status, cleared error,
stored preview and page count, and the freshly computed chunk set in
place of the previous one. -/
theorem applyTrace_successTail (now : Nat) (db : SourceRow) (ft : FileType)
    (text : Str) (pc : Nat) :
    (applyTrace now db (successTail ft text pc)).status = Status.ready ∧
    (applyTrace now db (successTail ft text pc)).error_message = none ∧
    (applyTrace now db (successTail ft text pc)).page_count = some pc ∧
    (applyTrace now db (successTail ft text pc)).content_preview =
      some (contentPreview ft text) ∧
    (applyTrace now db (successTail ft text pc)).chunks =
      (if text.isEmpty then [] else splitIntoSmartChunks text) := by
  have key : ∀ cs : List Str,
      let tr := DbOp.deleteChunks ::
        ((if cs.isEmpty then [] else [DbOp.insertChunks cs]) ++
          [DbOp.setReady (contentPreview ft text) pc])
      (applyTrace now db tr).status = Status.ready ∧
      (applyTrace now db tr).error_message = none ∧
      (applyTrace now db tr).page_count = some pc ∧
      (applyTrace now db tr).content_preview = some (contentPreview ft text) ∧
      (applyTrace now db tr).chunks = cs := by
    intro cs
    cases cs with
    | nil => exact ⟨rfl, rfl, rfl, rfl, rfl⟩
    | cons c cs' => exact ⟨rfl, rfl, rfl, rfl, rfl⟩
  exact key (if text.isEmpty then [] else splitIntoSmartChunks text)

/-! ### C6: atomicity on terminal extraction failure -/

/-- C6: when the extraction of a PDF below the size ceiling fails
terminally (whatever the message: quota exhaustion, persistent 4xx,
retry exhaustion), the exception is caught at the job boundary and the
job trace ends with the single `setError` update: the document ends in
status `error`, the message of the exception is stored in
`error_message`, and the chunk set of the document is exactly what it
was before the job — the delete-all/insert-all replacement happens
only in the success tail, after extraction has succeeded. -/
theorem C6_terminal_failure_keeps_prior_chunks (now : Nat) (db : SourceRow)
    (src : SourceInfo) (env : ExtractEnv) (e : Msg) (dl : Str)
    (hty : src.file_type = FileType.pdf)
    (hsz : src.file_size ≤ 2 * 1024 * 1024)
    (hdl : env.download = Except.ok dl)
    (hext : (extractPdfContentM src.file_size env.single env.batches).2 =
      Except.error e) :
    (applyTrace now db (backgroundTraceM src none env)).status = Status.error ∧
    (applyTrace now db (backgroundTraceM src none env)).error_message = some e ∧
    (applyTrace now db (backgroundTraceM src none env)).chunks = db.chunks := by
  have hnot : ¬ (2 * 1024 * 1024 < src.file_size) := by omega
  have htrace : backgroundTraceM src none env =
      (extractPdfContentM src.file_size env.single env.batches).1 ++
        [DbOp.setError e] := by
    simp only [backgroundTraceM, downloadPath, hdl, hty, if_neg hnot, hext]
  rw [htrace, applyTrace_append]
  have hb := applyTrace_benign now
    (extractPdfContentM src.file_size env.single env.batches).1
    (extractPdfContentM_ops_benign _ _ _) db
  exact ⟨rfl, rfl, hb.2.2⟩

/-- Witness for C6: a 100 kB PDF (2 estimated pages, single-call
strategy) whose AI call fails with the credits-exhausted error, run
against a row that already holds one chunk. -/
theorem C6_terminal_failure_keeps_prior_chunks_witness :
    (applyTrace 5 c1doc (backgroundTraceM ⟨FileType.pdf, 100000, none⟩ none
        ⟨Except.ok [], Except.error Msg.creditsExhausted,
          fun _ => Except.error Msg.rateLimit, Except.ok []⟩)).status =
      Status.error ∧
    (applyTrace 5 c1doc (backgroundTraceM ⟨FileType.pdf, 100000, none⟩ none
        ⟨Except.ok [], Except.error Msg.creditsExhausted,
          fun _ => Except.error Msg.rateLimit, Except.ok []⟩)).error_message =
      some Msg.creditsExhausted ∧
    (applyTrace 5 c1doc (backgroundTraceM ⟨FileType.pdf, 100000, none⟩ none
        ⟨Except.ok [], Except.error Msg.creditsExhausted,
          fun _ => Except.error Msg.rateLimit, Except.ok []⟩)).chunks =
      c1doc.chunks :=
  C6_terminal_failure_keeps_prior_chunks 5 c1doc
    ⟨FileType.pdf, 100000, none⟩
    ⟨Except.ok [], Except.error Msg.creditsExhausted,
      fun _ => Except.error Msg.rateLimit, Except.ok []⟩
    Msg.creditsExhausted [] rfl (by decide) rfl rfl

/-! ### C7: rejection of oversized files -/

/-- Source row of the C7 evaluation: a 3 MB PDF. -/
def c7src : SourceInfo := ⟨FileType.pdf, 3 * 1024 * 1024, none⟩

/-- Benign environment for the C7 evaluation. -/
def c7env : ExtractEnv :=
  ⟨Except.ok [], Except.ok [], fun _ => Except.ok [], Except.ok []⟩

/-- C7 counterexample: for an oversized PDF (3 MB) with no
pre-extracted text, the ingestion trigger does not report the
rejection synchronously: its response is the success acknowledgement
`Document processing started`, the processing job is created and
started (the row is set to `processing` by the trigger), and the
guidance error appears only later, through the detached job. -/
theorem C7_sync_rejection_counterexample :
    (serveProcessDocument true true (some c7src) none c7env).response =
      ServeResponse.ack ∧
    (serveProcessDocument true true (some c7src) none c7env).jobStarted = true ∧
    (serveProcessDocument true true (some c7src) none c7env).ops.head? =
      some DbOp.setProcessing := by
  exact ⟨rfl, rfl, rfl⟩

/-- C7 amended: an oversized PDF without pre-extracted text is
rejected with the guidance error, but asynchronously: the trigger
acknowledges with success and starts the background job; the job
performs no AI call and terminates at once with status `error` and the
oversize guidance message, leaving the chunk set untouched. -/
theorem C7_oversize_rejected_asynchronously (src : SourceInfo) (env : ExtractEnv)
    (now : Nat) (db : SourceRow) (dl : Str)
    (hty : src.file_type = FileType.pdf)
    (hsz : 2 * 1024 * 1024 < src.file_size)
    (hdl : env.download = Except.ok dl) :
    (serveProcessDocument true true (some src) none env).response =
      ServeResponse.ack ∧
    (serveProcessDocument true true (some src) none env).jobStarted = true ∧
    (serveProcessDocument true true (some src) none env).ops =
      [DbOp.setProcessing, DbOp.setError (Msg.oversizePdf src.file_size)] ∧
    (applyTrace now db (serveProcessDocument true true (some src) none env).ops).status =
      Status.error ∧
    (applyTrace now db (serveProcessDocument true true (some src) none env).ops).error_message =
      some (Msg.oversizePdf src.file_size) ∧
    DbOp.aiCall ∉ (serveProcessDocument true true (some src) none env).ops := by
  have hops : (serveProcessDocument true true (some src) none env).ops =
      [DbOp.setProcessing, DbOp.setError (Msg.oversizePdf src.file_size)] := by
    simp only [serveProcessDocument, backgroundTraceM, downloadPath, hdl, hty,
      if_pos hsz]
    rfl
  refine ⟨rfl, rfl, hops, ?_, ?_, ?_⟩
  · rw [hops]; rfl
  · rw [hops]; rfl
  · rw [hops]; simp

/-- Witness for C7 amended, at the concrete 3 MB PDF. -/
theorem C7_oversize_rejected_asynchronously_witness :
    (serveProcessDocument true true (some c7src) none c7env).ops =
      [DbOp.setProcessing, DbOp.setError (Msg.oversizePdf (3 * 1024 * 1024))] ∧
    (applyTrace 0 c1doc (serveProcessDocument true true (some c7src) none c7env).ops).status =
      Status.error ∧
    DbOp.aiCall ∉ (serveProcessDocument true true (some c7src) none c7env).ops := by
  have h := C7_oversize_rejected_asynchronously c7src c7env 0 c1doc []
    rfl (by decide) rfl
  exact ⟨h.2.2.1, h.2.2.2.1, h.2.2.2.2.2⟩

/-! ### C8: pre-extracted text path -/

/-- Text of the C8 counterexample with two well-formed client page
markers whose totals disagree: the last total is 3 and the highest 5. -/
def c8text1 : Str := ("=== PAGE 1 of 5 ===x=== PAGE 2 of 3 ===").toList

/-- Marker-free text of the C8 counterexample. -/
def c8text2 : Str := List.replicate 100 'a'

/-- C8 counterexample: the pre-extracted page count is not the highest
marker total but the total of the last marker (3 instead of 5), and
with no marker present it is not the page-size estimate
(`max 1 ⌈length / 3000⌉ = 1`) but the stored `page_count || 1`
(here 7). -/
theorem C8_pageCount_counterexample :
    ((clientMarkers c8text1).map Prod.snd = [5, 3] ∧
      preExtractedPageCount c8text1 none = 3) ∧
    (clientMarkers c8text2 = [] ∧
      preExtractedPageCount c8text2 (some 7) = 7 ∧
      max 1 (ceilDiv c8text2.length ESTIMATED_CHARS_PER_PAGE) = 1) := by
  refine ⟨⟨?_, ?_⟩, ?_, ?_, ?_⟩ <;> decide

/-- C8 amended: with nonempty pre-extracted text the job performs no
AI call, reaches `ready`, and stores as page count the captured total
of the last `=== PAGE n of total ===` marker, falling back to the
stored `page_count || 1` (not to a text-length estimate) when no
marker is present. -/
theorem C8_preExtracted_path (src : SourceInfo) (t : Str) (env : ExtractEnv)
    (now : Nat) (db : SourceRow) (hne : ¬ t.isEmpty) :
    DbOp.aiCall ∉ backgroundTraceM src (some t) env ∧
    (applyTrace now db (backgroundTraceM src (some t) env)).status = Status.ready ∧
    (applyTrace now db (backgroundTraceM src (some t) env)).page_count =
      some (match (clientMarkers t).getLast? with
        | some (_, tot) => tot
        | none => jsOr1 src.page_count) := by
  have htrace : backgroundTraceM src (some t) env =
      DbOp.setProgress50 ::
        successTail src.file_type t (preExtractedPageCount t src.page_count) := by
    simp only [backgroundTraceM, if_neg hne]
  have hpc : preExtractedPageCount t src.page_count =
      (match (clientMarkers t).getLast? with
        | some (_, tot) => tot
        | none => jsOr1 src.page_count) := by
    unfold preExtractedPageCount jsOr1
    rcases (clientMarkers t).getLast? with _ | ⟨n, tot⟩
    · rcases src.page_count with _ | _ | k <;> rfl
    · rfl
  have happ : applyTrace now db (backgroundTraceM src (some t) env) =
      applyTrace now (applyOp now db DbOp.setProgress50)
        (successTail src.file_type t (preExtractedPageCount t src.page_count)) := by
    rw [htrace]; rfl
  have hst := applyTrace_successTail now (applyOp now db DbOp.setProgress50)
    src.file_type t (preExtractedPageCount t src.page_count)
  refine ⟨?_, ?_, ?_⟩
  · rw [htrace]
    intro hmem
    rcases List.mem_cons.mp hmem with h | hmem
    · exact absurd h (by simp)
    · unfold successTail at hmem
      rcases List.mem_cons.mp hmem with h | hmem
      · exact absurd h (by simp)
      · rcases List.mem_append.mp hmem with h | h
        · rcases hx : (if t.isEmpty then [] else splitIntoSmartChunks t) with _ | ⟨c, cs⟩ <;>
            rw [hx] at h <;> simp at h
        · simp at h
  · rw [happ]; exact hst.1
  · rw [happ, hst.2.2.1, hpc]

/-- Witness for C8 amended, at a two-page client-extracted text. -/
theorem C8_preExtracted_path_witness :
    DbOp.aiCall ∉ backgroundTraceM ⟨FileType.pdf, 500000, some 9⟩ (some c8text1)
      c7env ∧
    (applyTrace 0 c1doc (backgroundTraceM ⟨FileType.pdf, 500000, some 9⟩
        (some c8text1) c7env)).status = Status.ready ∧
    (applyTrace 0 c1doc (backgroundTraceM ⟨FileType.pdf, 500000, some 9⟩
        (some c8text1) c7env)).page_count = some 3 := by
  have h := C8_preExtracted_path ⟨FileType.pdf, 500000, some 9⟩ c8text1 c7env 0 c1doc
    (by decide)
  refine ⟨h.1, h.2.1, ?_⟩
  rw [h.2.2]
  decide

/-! ### C5: partial batch failure containment -/

/-- Helper for C5: the text list of the batch loop, as a map over the
batch indices. -/
theorem batchLoopAux_texts (est total : Nat) (outcomes : Nat → Except Msg Str) :
    ∀ r b, (batchLoopAux est total outcomes r b).2 =
      (List.range r).map (fun k => batchSlot est outcomes (b + k)) := by
  intro r
  induction r with
  | zero => intro b; rfl
  | succ r ih =>
      intro b
      show batchSlot est outcomes b :: (batchLoopAux est total outcomes r (b + 1)).2 = _
      rw [ih (b + 1), List.range_succ_eq_map, List.map_cons, List.map_map]
      refine congrArg₂ List.cons (by rw [Nat.add_zero]) ?_
      refine List.map_congr_left (fun k _ => ?_)
      show batchSlot est outcomes (b + 1 + k) = batchSlot est outcomes (b + (k + 1))
      rw [Nat.add_assoc, Nat.add_comm 1 k]

/-- C5: in a batched extraction where batch `i` fails after retries
while every other batch succeeds, the combined text is the
double-newline join, in batch order, of the successful texts with the
placeholder `[Error extracting pages S-E]` in position `i`; the job
still completes and the document reaches status `ready` with no error
message. -/
theorem C5_partial_batch_failure (db : SourceRow) (src : SourceInfo)
    (env : ExtractEnv) (now i : Nat) (e : Msg) (texts : Nat → Str) (dl : Str)
    (hty : src.file_type = FileType.pdf)
    (hsz : src.file_size ≤ 2 * 1024 * 1024)
    (hdl : env.download = Except.ok dl)
    (hbig : ¬ (ceilDiv src.file_size 50000 ≤ 15))
    (hi : i < ceilDiv (ceilDiv src.file_size 50000) PAGES_PER_BATCH)
    (hfail : env.batches i = Except.error e)
    (hok : ∀ j, j < ceilDiv (ceilDiv src.file_size 50000) PAGES_PER_BATCH → j ≠ i →
      env.batches j = Except.ok (texts j)) :
    (extractPdfInBatchesM (ceilDiv src.file_size 50000) env.batches).2.1 =
      List.intercalate (("\n\n").toList)
        ((List.range (ceilDiv (ceilDiv src.file_size 50000) PAGES_PER_BATCH)).map
          (fun j => if j = i then errPlaceholder (ceilDiv src.file_size 50000) j
            else texts j)) ∧
    (applyTrace now db (backgroundTraceM src none env)).status = Status.ready ∧
    (applyTrace now db (backgroundTraceM src none env)).error_message = none := by
  set est := ceilDiv src.file_size 50000 with hest
  set total := ceilDiv est PAGES_PER_BATCH with htotal
  have htext : (extractPdfInBatchesM est env.batches).2.1 =
      List.intercalate (("\n\n").toList)
        ((List.range total).map
          (fun j => if j = i then errPlaceholder est j else texts j)) := by
    show List.intercalate _ (batchLoopAux est total env.batches total 0).2 = _
    rw [batchLoopAux_texts]
    refine congrArg _ (List.map_congr_left (fun j hj => ?_))
    have hjlt : j < total := List.mem_range.mp hj
    rw [Nat.zero_add]
    by_cases hji : j = i
    · subst hji
      show batchSlot est env.batches j = _
      rw [if_pos rfl]
      unfold batchSlot
      rw [hfail]
    · show batchSlot est env.batches j = _
      rw [if_neg hji]
      unfold batchSlot
      rw [hok j hjlt hji]
  have hnot : ¬ (2 * 1024 * 1024 < src.file_size) := by omega
  have htrace : backgroundTraceM src none env =
      (extractPdfInBatchesM est env.batches).1 ++
        successTail FileType.pdf (extractPdfInBatchesM est env.batches).2.1
          (extractPdfInBatchesM est env.batches).2.2 := by
    simp only [backgroundTraceM, downloadPath, hdl, hty, if_neg hnot,
      extractPdfContentM, ← hest, if_neg hbig]
  have happ := applyTrace_append now db (extractPdfInBatchesM est env.batches).1
    (successTail FileType.pdf (extractPdfInBatchesM est env.batches).2.1
      (extractPdfInBatchesM est env.batches).2.2)
  have hst := applyTrace_successTail now
    (applyTrace now db (extractPdfInBatchesM est env.batches).1) FileType.pdf
    (extractPdfInBatchesM est env.batches).2.1
    (extractPdfInBatchesM est env.batches).2.2
  refine ⟨htext, ?_, ?_⟩
  · rw [htrace, happ]; exact hst.1
  · rw [htrace, happ]; exact hst.2.1

/-- Concrete batch outcomes of the C5 witness: batch 1 of 4 fails. -/
def c5outcomes : Nat → Except Msg Str :=
  fun j => if j = 1 then Except.error Msg.rateLimit
    else Except.ok ('P' :: Nat.toDigits 10 j)

/-- Environment of the C5 witness. -/
def c5env : ExtractEnv := ⟨Except.ok [], Except.ok [], c5outcomes, Except.ok []⟩

/-- Witness for C5: an 800 kB PDF (16 estimated pages, 4 batches)
whose second batch fails: the combined text interleaves the successful
texts with the placeholder `[Error extracting pages 6-10]`, and the
document reaches `ready`. -/
theorem C5_partial_batch_failure_witness :
    (extractPdfInBatchesM (ceilDiv 800000 50000) c5outcomes).2.1 =
      ("P0\n\n[Error extracting pages 6-10]\n\nP2\n\nP3").toList ∧
    (applyTrace 0 c1doc (backgroundTraceM ⟨FileType.pdf, 800000, none⟩ none
      c5env)).status = Status.ready := by
  have h := C5_partial_batch_failure c1doc ⟨FileType.pdf, 800000, none⟩ c5env 0 1
    Msg.rateLimit (fun j => 'P' :: Nat.toDigits 10 j) []
    rfl (by decide) rfl (by decide) (by decide) rfl
    (by
      intro j hjlt hne
      show (if j = 1 then _ else _) = _
      rw [if_neg hne])
  exact ⟨h.1.trans (by decide), h.2.1⟩

/-! ### Retrieval lemmas (C9, C10) -/

/-- Membership in a stable insertion. -/
theorem mem_insertDesc (x c : ScoredChunk) :
    ∀ l, c ∈ insertDesc x l ↔ c = x ∨ c ∈ l := by
  intro l
  induction l with
  | nil => simp [insertDesc]
  | cons y ys ih =>
      rw [insertDesc]
      by_cases h : y.score ≤ x.score
      · rw [if_pos h]
        simp
      · rw [if_neg h]
        simp only [List.mem_cons, ih]
        tauto

/-- Membership in the stable sort. -/
theorem mem_sortByScoreDesc (c : ScoredChunk) :
    ∀ l, c ∈ sortByScoreDesc l ↔ c ∈ l := by
  intro l
  induction l with
  | nil => simp [sortByScoreDesc]
  | cons y ys ih =>
      show c ∈ insertDesc y (sortByScoreDesc ys) ↔ _
      rw [mem_insertDesc]
      have ih' : c ∈ sortByScoreDesc ys ↔ c ∈ ys := ih
      rw [ih']
      simp

/-- The greedy loop only returns elements of its accumulator or of its
input. -/
theorem greedyGo_subset (c : ScoredChunk) :
    ∀ rest total acc, c ∈ greedyGo total acc rest → c ∈ acc ∨ c ∈ rest := by
  intro rest
  induction rest with
  | nil =>
      intro total acc h
      exact Or.inl (List.mem_reverse.mp h)
  | cons x rest ih =>
      intro total acc h
      unfold greedyGo at h
      by_cases hbudget : MAX_CONTEXT_CHARS < total + x.row.content.length
      · rw [if_pos hbudget] at h
        exact Or.inl (List.mem_reverse.mp h)
      · rw [if_neg hbudget] at h
        by_cases hcount : MAX_CHUNKS ≤ (x :: acc).length
        · rw [if_pos hcount] at h
          rcases List.mem_cons.mp (List.mem_reverse.mp h) with h | h
          · exact Or.inr (List.mem_cons.mpr (Or.inl h))
          · exact Or.inl h
        · rw [if_neg hcount] at h
          rcases ih _ _ h with h | h
          · rcases List.mem_cons.mp h with h | h
            · exact Or.inr (List.mem_cons.mpr (Or.inl h))
            · exact Or.inl h
          · exact Or.inr (List.mem_cons.mpr (Or.inr h))

/-- The greedy loop returns the accumulator followed by an initial
segment of its input. -/
theorem greedyGo_take :
    ∀ rest total acc, ∃ k, greedyGo total acc rest = acc.reverse ++ rest.take k := by
  intro rest
  induction rest with
  | nil => intro total acc; exact ⟨0, by simp [greedyGo]⟩
  | cons x rest ih =>
      intro total acc
      unfold greedyGo
      by_cases hbudget : MAX_CONTEXT_CHARS < total + x.row.content.length
      · exact ⟨0, by rw [if_pos hbudget]; simp⟩
      · rw [if_neg hbudget]
        by_cases hcount : MAX_CHUNKS ≤ (x :: acc).length
        · refine ⟨1, ?_⟩
          rw [if_pos hcount]
          simp
        · obtain ⟨k, hk⟩ := ih (total + x.row.content.length) (x :: acc)
          refine ⟨k + 1, ?_⟩
          rw [if_neg hcount, hk]
          simp

/-- Count bound of the greedy loop. -/
theorem greedyGo_length :
    ∀ rest total acc, acc.length < MAX_CHUNKS →
      (greedyGo total acc rest).length ≤ MAX_CHUNKS := by
  intro rest
  induction rest with
  | nil =>
      intro total acc h
      simpa [greedyGo] using Nat.le_of_lt h
  | cons x rest ih =>
      intro total acc h
      unfold greedyGo
      by_cases hbudget : MAX_CONTEXT_CHARS < total + x.row.content.length
      · rw [if_pos hbudget]
        simpa using Nat.le_of_lt h
      · rw [if_neg hbudget]
        by_cases hcount : MAX_CHUNKS ≤ (x :: acc).length
        · rw [if_pos hcount]
          simpa using Nat.le_of_lt_succ (Nat.lt_succ_of_le (by simpa using h))
        · rw [if_neg hcount]
          exact ih _ _ (Nat.lt_of_not_le hcount)

/-- Character-budget bound of the greedy loop. -/
theorem greedyGo_sum :
    ∀ rest total acc,
      (acc.map (fun c => c.row.content.length)).sum = total →
      total ≤ MAX_CONTEXT_CHARS →
      ((greedyGo total acc rest).map (fun c => c.row.content.length)).sum ≤
        MAX_CONTEXT_CHARS := by
  intro rest
  induction rest with
  | nil =>
      intro total acc hsum hle
      simp only [greedyGo, List.map_reverse, List.sum_reverse]
      omega
  | cons x rest ih =>
      intro total acc hsum hle
      unfold greedyGo
      by_cases hbudget : MAX_CONTEXT_CHARS < total + x.row.content.length
      · rw [if_pos hbudget]
        simp only [List.map_reverse, List.sum_reverse]
        omega
      · rw [if_neg hbudget]
        by_cases hcount : MAX_CHUNKS ≤ (x :: acc).length
        · rw [if_pos hcount]
          simp only [List.map_reverse, List.sum_reverse, List.map_cons, List.sum_cons]
          omega
        · rw [if_neg hcount]
          exact ih _ _ (by simp [hsum]; omega) (by omega)

/-- Every gathered candidate belongs to the first five sources (at
most ten stored chunks each) and carries its genuine positive score. -/
theorem gatherScored_mem (kws : List Str) (sources : List (Nat × List ChunkRow))
    (c : ScoredChunk) (h : c ∈ gatherScored kws sources) :
    (∃ p ∈ sources.take 5, c.row ∈ p.2.take MAX_CHUNKS) ∧
    0 < c.score ∧ c.score = chunkScore kws c.row.content := by
  unfold gatherScored at h
  rw [List.mem_flatten] at h
  obtain ⟨l, hl, hcl⟩ := h
  rw [List.mem_map] at hl
  obtain ⟨p, hp, hpl⟩ := hl
  subst hpl
  rw [List.mem_filterMap] at hcl
  obtain ⟨ch, hch, hche⟩ := hcl
  by_cases hsc : 0 < chunkScore kws ch.content
  · rw [if_pos hsc] at hche
    cases hche
    exact ⟨⟨p, hp, hch⟩, hsc, rfl⟩
  · rw [if_neg hsc] at hche
    cases hche

/-- With an empty keyword list nothing is gathered. -/
theorem gatherScored_nil_kws (sources : List (Nat × List ChunkRow)) :
    gatherScored [] sources = [] := by
  unfold gatherScored
  rw [List.flatten_eq_nil_iff]
  intro l hl
  rw [List.mem_map] at hl
  obtain ⟨p, _, hpl⟩ := hl
  subst hpl
  rw [List.filterMap_eq_nil_iff]
  intro ch _
  simp [chunkScore]

/-- Sortedness of the stable insertion. -/
theorem insertDesc_pairwise (x : ScoredChunk) :
    ∀ l, l.Pairwise (fun a b => b.score ≤ a.score) →
      (insertDesc x l).Pairwise (fun a b => b.score ≤ a.score) := by
  intro l
  induction l with
  | nil => intro _; simp [insertDesc]
  | cons y ys ih =>
      intro hp
      rw [List.pairwise_cons] at hp
      by_cases h : y.score ≤ x.score
      · rw [insertDesc, if_pos h]
        rw [List.pairwise_cons]
        refine ⟨?_, List.pairwise_cons.mpr hp⟩
        intro z hz
        rcases List.mem_cons.mp hz with hz | hz
        · subst hz; exact h
        · exact Nat.le_trans (hp.1 z hz) h
      · rw [insertDesc, if_neg h]
        rw [List.pairwise_cons]
        refine ⟨?_, ih hp.2⟩
        intro z hz
        rcases (mem_insertDesc x z ys).mp hz with hz | hz
        · subst hz; exact Nat.le_of_lt (Nat.lt_of_not_le h)
        · exact hp.1 z hz

/-- The stable sort is sorted by non-increasing score. -/
theorem sortByScoreDesc_pairwise :
    ∀ l : List ScoredChunk,
      (sortByScoreDesc l).Pairwise (fun a b => b.score ≤ a.score) := by
  intro l
  induction l with
  | nil => simp [sortByScoreDesc]
  | cons x xs ih => exact insertDesc_pairwise x (sortByScoreDesc xs) ih

/-- Filtering one score level through a stable insertion. -/
theorem insertDesc_filter (x : ScoredChunk) (sc : Nat) :
    ∀ l, (insertDesc x l).filter (fun c => c.score == sc) =
      (if x.score == sc then [x] else []) ++ l.filter (fun c => c.score == sc) := by
  intro l
  induction l with
  | nil => by_cases h : x.score == sc <;> simp [insertDesc, List.filter, h]
  | cons y ys ih =>
      by_cases h : y.score ≤ x.score
      · rw [insertDesc, if_pos h]
        by_cases hx : x.score == sc <;> simp [List.filter_cons, hx]
      · rw [insertDesc, if_neg h]
        rw [List.filter_cons, ih]
        by_cases hy : y.score == sc
        · have hx : ¬ (x.score == sc) := by
            rw [beq_iff_eq] at hy ⊢
            omega
          simp [hy, hx]
        · simp [hy]

/-- Stability of the sort: each score level keeps the original order. -/
theorem sortByScoreDesc_filter (sc : Nat) :
    ∀ l : List ScoredChunk,
      (sortByScoreDesc l).filter (fun c => c.score == sc) =
        l.filter (fun c => c.score == sc) := by
  intro l
  induction l with
  | nil => rfl
  | cons x xs ih =>
      show (insertDesc x (sortByScoreDesc xs)).filter _ = _
      rw [insertDesc_filter, ih, List.filter_cons]
      by_cases hx : x.score == sc <;> simp [hx]

/-- A filter of an initial segment is an initial segment of the
filter. -/
theorem filter_take_prefix (p : ScoredChunk → Bool) (k : Nat)
    (l : List ScoredChunk) : (l.take k).filter p <+: l.filter p := by
  conv_rhs => rw [← List.take_append_drop k l]
  rw [List.filter_append]
  exact List.prefix_append _ _

/-! ### C10: only the first five candidate documents are consulted -/

/-- C10: the scorer never looks past the first five candidate
documents: its result is unchanged when the candidate list is
truncated to five entries, and every returned chunk belongs to one of
the first five documents (among its first ten stored chunks). -/
theorem C10_only_first_five_sources (query : Str)
    (sources : List (Nat × List ChunkRow)) :
    searchRelevantChunks query sources =
      searchRelevantChunks query (sources.take 5) ∧
    ∀ c ∈ searchRelevantChunks query sources,
      ∃ p ∈ sources.take 5, c.row ∈ p.2.take MAX_CHUNKS := by
  constructor
  · cases sources with
    | nil => rfl
    | cons s ss =>
        show searchRelevantChunks query (s :: ss) =
          searchRelevantChunks query ((s :: ss).take 5)
        unfold searchRelevantChunks gatherScored
        rw [List.take_take]
        rfl
  · intro c hc
    unfold searchRelevantChunks at hc
    by_cases hempty : sources.isEmpty
    · rw [if_pos hempty] at hc
      exact absurd hc (List.not_mem_nil c)
    · rw [if_neg hempty] at hc
      by_cases hkw : (queryKeywords query).isEmpty
      · rw [if_pos hkw] at hc
        exact absurd hc (List.not_mem_nil c)
      · rw [if_neg hkw] at hc
        rcases greedyGo_subset c _ _ _ hc with h | h
        · exact absurd h (List.not_mem_nil c)
        · exact (gatherScored_mem _ _ _ ((mem_sortByScoreDesc c _).mp h)).1

/-- Witness for C10: six one-chunk documents, all matching the query;
the result is invariant under dropping the sixth candidate, and a
concrete returned chunk is located among the first five documents. -/
theorem C10_only_first_five_sources_witness :
    (searchRelevantChunks (("alpha").toList)
        ((List.range 6).map (fun j =>
          (j + 1, [⟨("alpha text").toList, 0, j + 1, ("doc").toList⟩]))) =
      searchRelevantChunks (("alpha").toList)
        (((List.range 6).map (fun j =>
          (j + 1, [⟨("alpha text").toList, 0, j + 1, ("doc").toList⟩]))).take 5)) ∧
    ∃ p ∈ ((List.range 6).map (fun j =>
        (j + 1, [⟨("alpha text").toList, 0, j + 1, ("doc").toList⟩]))).take 5,
      (⟨("alpha text").toList, 0, 1, ("doc").toList⟩ : ChunkRow) ∈
        p.2.take MAX_CHUNKS := by
  have h := C10_only_first_five_sources (("alpha").toList)
    ((List.range 6).map (fun j =>
      (j + 1, [⟨("alpha text").toList, 0, j + 1, ("doc").toList⟩])))
  exact ⟨h.1,
    h.2 ⟨⟨("alpha text").toList, 0, 1, ("doc").toList⟩, 1⟩ (by decide)⟩

/-! ### C9: retrieval scoring pipeline -/

/-- C9: properties of `searchRelevantChunks` for every query and
candidate chunk set.  The result is an initial segment of the stable
descending sort of the gathered candidates (the greedy loop never
skips); it contains at most `MAX_CHUNKS` chunks and at most
`MAX_CONTEXT_CHARS` cumulative content characters; every returned
chunk carries a positive score equal to the number of query keywords
(lower-cased alphanumeric words longer than 2 characters) occurring as
substrings of its lower-cased content; the scores are non-increasing
along the result; and within one score level the original gathering
order (candidate order, then chunk order) is preserved — ties keep the
original retrieval order. -/
theorem C9_retrieval_scoring (query : Str) (sources : List (Nat × List ChunkRow)) :
    (∃ k, searchRelevantChunks query sources =
      (sortByScoreDesc (gatherScored (queryKeywords query) sources)).take k) ∧
    (searchRelevantChunks query sources).length ≤ MAX_CHUNKS ∧
    ((searchRelevantChunks query sources).map
      (fun c => c.row.content.length)).sum ≤ MAX_CONTEXT_CHARS ∧
    (∀ c ∈ searchRelevantChunks query sources,
      0 < c.score ∧ c.score = chunkScore (queryKeywords query) c.row.content) ∧
    (searchRelevantChunks query sources).Pairwise (fun a b => b.score ≤ a.score) ∧
    (∀ sc : Nat,
      (searchRelevantChunks query sources).filter (fun c => c.score == sc) <+:
        (gatherScored (queryKeywords query) sources).filter
          (fun c => c.score == sc)) := by
  by_cases hguard : sources.isEmpty = true ∨ (queryKeywords query).isEmpty = true
  · have hres : searchRelevantChunks query sources = [] := by
      unfold searchRelevantChunks
      rcases hguard with h | h
      · rw [if_pos h]
      · by_cases h2 : sources.isEmpty
        · rw [if_pos h2]
        · rw [if_neg h2, if_pos h]
    rw [hres]
    refine ⟨⟨0, rfl⟩, by decide, by decide, ?_, List.Pairwise.nil, ?_⟩
    · intro c hc; exact absurd hc (List.not_mem_nil c)
    · intro sc; exact List.nil_prefix
  · push_neg at hguard
    have hempty : ¬ sources.isEmpty = true := hguard.1
    have hkw : ¬ (queryKeywords query).isEmpty = true := hguard.2
    have hres : searchRelevantChunks query sources =
        greedyGo 0 [] (sortByScoreDesc (gatherScored (queryKeywords query) sources)) := by
      unfold searchRelevantChunks
      rw [if_neg hempty, if_neg hkw]
    obtain ⟨k, hk⟩ := greedyGo_take
      (sortByScoreDesc (gatherScored (queryKeywords query) sources)) 0 []
    have hktrunc : searchRelevantChunks query sources =
        (sortByScoreDesc (gatherScored (queryKeywords query) sources)).take k := by
      rw [hres, hk]; rfl
    refine ⟨⟨k, hktrunc⟩, ?_, ?_, ?_, ?_, ?_⟩
    · rw [hres]
      exact greedyGo_length _ 0 [] (by decide)
    · rw [hres]
      exact greedyGo_sum _ 0 [] rfl (by decide)
    · intro c hc
      rw [hres] at hc
      rcases greedyGo_subset c _ _ _ hc with h | h
      · exact absurd h (List.not_mem_nil c)
      · exact (gatherScored_mem _ _ _ ((mem_sortByScoreDesc c _).mp h)).2
    · rw [hktrunc]
      exact (sortByScoreDesc_pairwise _).sublist (List.take_sublist _ _)
    · intro sc
      rw [hktrunc]
      have h1 := filter_take_prefix (fun c => c.score == sc) k
        (sortByScoreDesc (gatherScored (queryKeywords query) sources))
      rw [sortByScoreDesc_filter] at h1
      exact h1

/-- Sources of the C9 witness. -/
def c9sources : List (Nat × List ChunkRow) :=
  [(1, [⟨("Our refund policy is simple").toList, 0, 1, ("d1").toList⟩,
        ⟨("nothing relevant here").toList, 1, 1, ("d1").toList⟩]),
   (2, [⟨("the policy document").toList, 0, 2, ("d2").toList⟩])]

/-- Witness for C9 at the query `refund policy!`: the double-keyword
chunk is returned with its genuine score 2, the bounds hold, and the
score-2 level of the result is an initial segment of the gathered
candidates of score 2. -/
theorem C9_retrieval_scoring_witness :
    (searchRelevantChunks (("refund policy!").toList) c9sources).length ≤
      MAX_CHUNKS ∧
    (0 < (ScoredChunk.mk ⟨("Our refund policy is simple").toList, 0, 1,
        ("d1").toList⟩ 2).score ∧
      (ScoredChunk.mk ⟨("Our refund policy is simple").toList, 0, 1,
        ("d1").toList⟩ 2).score =
        chunkScore (queryKeywords (("refund policy!").toList))
          (ScoredChunk.mk ⟨("Our refund policy is simple").toList, 0, 1,
            ("d1").toList⟩ 2).row.content) ∧
    ((searchRelevantChunks (("refund policy!").toList) c9sources).filter
        (fun c => c.score == 2) <+:
      (gatherScored (queryKeywords (("refund policy!").toList)) c9sources).filter
        (fun c => c.score == 2)) := by
  have h := C9_retrieval_scoring (("refund policy!").toList) c9sources
  exact ⟨h.2.1,
    h.2.2.2.1 (ScoredChunk.mk ⟨("Our refund policy is simple").toList, 0, 1,
      ("d1").toList⟩ 2) (by decide),
    h.2.2.2.2.2 2⟩

/-! ### C2: chunk size bound -/

/-- Trimming never lengthens a string. -/
theorem length_jsTrim_le (l : Str) : (jsTrim l).length ≤ l.length := by
  have h1 : (l.dropWhile isWsJs).length ≤ l.length :=
    (List.dropWhile_sublist isWsJs).length_le
  have h2 : ((l.dropWhile isWsJs).reverse.dropWhile isWsJs).length ≤
      (l.dropWhile isWsJs).reverse.length :=
    (List.dropWhile_sublist isWsJs).length_le
  simp only [jsTrim, List.length_reverse] at *
  omega

/-- The overlap slice has at most `n` characters. -/
theorem length_takeRight_le (n : Nat) (l : Str) : (takeRight n l).length ≤ n := by
  simp only [takeRight, List.length_drop]
  omega

/-- Size invariant of the chunk accumulation loop: when every incoming
sentence fits in the target size, every produced chunk has at most
`targetChunkSize + overlapSize + 1` characters. -/
theorem chunkLoop_length_bound :
    ∀ (sents : List Str) (current overlap : Str) (chunks : List Str),
      (∀ s ∈ sents, s.length ≤ targetChunkSize) →
      current.length ≤ targetChunkSize + overlapSize + 1 →
      overlap.length ≤ overlapSize →
      (∀ c ∈ chunks, c.length ≤ targetChunkSize + overlapSize + 1) →
      ∀ c ∈ chunkLoop sents current overlap chunks,
        c.length ≤ targetChunkSize + overlapSize + 1 := by
  intro sents
  induction sents with
  | nil =>
      intro current overlap chunks _ hcur _ hchunks c hc
      unfold chunkLoop at hc
      rcases List.mem_append.mp hc with h | h
      · exact hchunks c h
      · by_cases hemp : (jsTrim current).isEmpty
        · rw [if_pos hemp] at h
          exact absurd h (List.not_mem_nil c)
        · rw [if_neg hemp] at h
          rw [List.mem_singleton] at h
          subst h
          exact Nat.le_trans (length_jsTrim_le current) hcur
  | cons s rest ih =>
      intro current overlap chunks hs hcur hov hchunks c hc
      have ht : (jsTrim s).length ≤ targetChunkSize :=
        Nat.le_trans (length_jsTrim_le s) (hs s (List.mem_cons_self s rest))
      have hrest : ∀ x ∈ rest, x.length ≤ targetChunkSize :=
        fun x hx => hs x (List.mem_cons_of_mem s hx)
      unfold chunkLoop at hc
      by_cases htemp : (jsTrim s).isEmpty
      · rw [if_pos htemp] at hc
        exact ih current overlap chunks hrest hcur hov hchunks c hc
      · rw [if_neg htemp] at hc
        simp only [] at hc
        set t := jsTrim s with hteq
        set close := (decide (targetChunkSize < current.length + t.length) &&
          decide (0 < current.length)) with hclose_def
        have hover : (if overlapSize < (overlap ++ ' ' :: t).length then
            jsTrim (takeRight overlapSize (overlap ++ ' ' :: t))
          else jsTrim (overlap ++ ' ' :: t)).length ≤ overlapSize := by
          by_cases hcomb : overlapSize < (overlap ++ ' ' :: t).length
          · rw [if_pos hcomb]
            exact Nat.le_trans (length_jsTrim_le _) (length_takeRight_le _ _)
          · rw [if_neg hcomb]
            exact Nat.le_trans (length_jsTrim_le _) (Nat.le_of_not_lt hcomb)
        by_cases hcl : close = true
        · rw [if_pos hcl, if_pos hcl] at hc
          refine ih _ _ _ hrest ?_ hover ?_ c hc
          · simp only [List.length_append, List.length_cons]
            unfold overlapSize CHUNK_OVERLAP_TOKENS CHARS_PER_TOKEN at *
            unfold targetChunkSize CHUNK_SIZE_TOKENS at *
            omega
          · intro x hx
            rcases List.mem_append.mp hx with h | h
            · exact hchunks x h
            · rw [List.mem_singleton] at h
              subst h
              exact Nat.le_trans (length_jsTrim_le current) hcur
        · rw [if_neg hcl, if_neg hcl] at hc
          refine ih _ _ _ hrest ?_ hover hchunks c hc
          by_cases hcure : current.isEmpty
          · rw [if_pos hcure]
            omega
          · rw [if_neg hcure]
            have hcur0 : 0 < current.length := by
              rcases current with _ | ⟨a, l⟩
              · exact absurd rfl hcure
              · simp
            have hsum : ¬ (targetChunkSize < current.length + t.length) := by
              intro hlt
              exact hcl (by
                rw [hclose_def]
                simp only [Bool.and_eq_true, decide_eq_true_eq]
                exact ⟨hlt, hcur0⟩)
            simp only [List.length_append, List.length_cons]
            omega

/-- C2 amended: whenever no single sentence of the split exceeds the
target chunk size (2000 characters), every chunk produced by
`splitIntoSmartChunks` has at most
`targetChunkSize + overlapSize + 1 = 2401` characters — the target
plus the reseeded overlap buffer plus one joining space.  (The bound
2000 itself fails; see the counterexample.) -/
theorem C2_chunk_bound (text : Str)
    (h : ∀ s ∈ splitIntoSentences text, s.length ≤ targetChunkSize) :
    ∀ c ∈ splitIntoSmartChunks text,
      c.length ≤ targetChunkSize + overlapSize + 1 := by
  intro c hc
  rw [splitIntoSmartChunks] at hc
  have hc' : c ∈ preFilterChunks text := List.mem_of_mem_filter hc
  exact chunkLoop_length_bound (splitIntoSentences text) [] [] [] h
    (by simp) (by simp) (by intro x hx; exact absurd hx (List.not_mem_nil x)) c hc'

/-- Witness text for the C2 bound: one 60-character sentence. -/
def c2small : Str := List.replicate 60 'b'

/-- Witness for the C2 bound at `c2small`. -/
theorem C2_chunk_bound_witness :
    (∀ s ∈ splitIntoSentences c2small, s.length ≤ targetChunkSize) ∧
    ∀ c ∈ splitIntoSmartChunks c2small,
      c.length ≤ targetChunkSize + overlapSize + 1 :=
  ⟨by decide, C2_chunk_bound c2small (by decide)⟩

/-! ### C2: counterexample to the 2000-character bound -/

/-- A successful abbreviation-pattern match implies a dot in the
text. -/
theorem abbrevPatMatch_has_dot :
    ∀ (abbr t : Str), abbrevPatMatch abbr t = true → '.' ∈ t := by
  intro abbr
  induction abbr with
  | nil =>
      intro t h
      cases t with
      | nil => exact absurd h (by decide)
      | cons c cs =>
          have hc : c = '.' := by simpa [abbrevPatMatch] using h
          rw [hc]
          exact List.mem_cons_self _ _
  | cons p ps ih =>
      intro t h
      cases t with
      | nil => exact absurd h (by simp [abbrevPatMatch])
      | cons c cs =>
          simp only [abbrevPatMatch, Bool.and_eq_true] at h
          exact List.mem_cons_of_mem c (ih cs h.2)

/-- An abbreviation pass leaves a dot-free text unchanged. -/
theorem abbrevScan_no_dot (abbr : Str) :
    ∀ fuel prev t, '.' ∉ t → abbrevScan abbr fuel prev t = t := by
  intro fuel
  induction fuel with
  | zero => intro prev t _; rfl
  | succ fuel ih =>
      intro prev t h
      cases t with
      | nil => rfl
      | cons c cs =>
          have hm : ¬ ((boundaryOk prev && abbrevPatMatch abbr (c :: cs)) = true) := by
            intro hb
            exact h (abbrevPatMatch_has_dot abbr (c :: cs)
              ((Bool.and_eq_true _ _).mp hb).2)
          simp only [abbrevScan]
          rw [if_neg hm, ih (some c) cs (fun hc => h (List.mem_cons_of_mem c hc))]

/-- The whole abbreviation masking leaves a dot-free text unchanged. -/
theorem maskAbbreviations_no_dot (t : Str) (h : '.' ∉ t) :
    maskAbbreviations t = t := by
  unfold maskAbbreviations
  generalize abbreviations = l
  induction l with
  | nil => rfl
  | cons a l ih =>
      rw [List.foldl_cons]
      rw [show abbrevPass a t = t from abbrevScan_no_dot a t.length none t h]
      exact ih

/-- A literal replace whose pattern head does not occur in the text
leaves it unchanged. -/
theorem litScan_head_notin (p : Char) (ps rep : Str) :
    ∀ fuel t, p ∉ t → litScan (p :: ps) rep fuel t = t := by
  intro fuel
  induction fuel with
  | zero => intro t _; rfl
  | succ fuel ih =>
      intro t h
      cases t with
      | nil => rfl
      | cons c cs =>
          have hm : ¬ ((p :: ps).isPrefixOf (c :: cs) = true) := by
            intro hb
            rw [List.isPrefixOf_cons₂] at hb
            have hpc : p = c := by
              have := ((Bool.and_eq_true _ _).mp hb).1
              exact beq_iff_eq.mp this
            exact h (by rw [hpc]; exact List.mem_cons_self _ _)
          simp only [litScan]
          rw [if_neg hm, ih cs (fun hc => h (List.mem_cons_of_mem c hc))]

/-- Wrapper of `litScan_head_notin` at full fuel. -/
theorem replaceAllL_head_notin (p : Char) (ps rep t : Str) (h : p ∉ t) :
    replaceAllL (p :: ps) rep t = t :=
  litScan_head_notin p ps rep t.length t h

/-- Splitting a text that contains no white space yields one piece. -/
theorem splitGo_no_ws :
    ∀ fuel acc prev t, (∀ c ∈ t, isWsJs c = false) →
      splitGo fuel acc prev t = [acc.reverse ++ t] := by
  intro fuel
  induction fuel with
  | zero => intro acc prev t _; rfl
  | succ fuel ih =>
      intro acc prev t h
      cases t with
      | nil => simp [splitGo]
      | cons c cs =>
          have hcws : isWsJs c = false := h c (List.mem_cons_self _ _)
          have hcond : ¬ ((isPunctSB prev && isWsJs c) = true) := by
            rw [hcws, Bool.and_false]
            exact Bool.false_ne_true
          simp only [splitGo]
          rw [if_neg hcond, ih (c :: acc) (some c) cs
            (fun x hx => h x (List.mem_cons_of_mem c hx))]
          simp

/-- A list whose predicate is false everywhere is untouched by
`dropWhile`. -/
theorem dropWhile_all_false (p : Char → Bool) (l : Str)
    (h : ∀ c ∈ l, p c = false) : l.dropWhile p = l := by
  cases l with
  | nil => rfl
  | cons a l' =>
      rw [List.dropWhile_cons, h a (List.mem_cons_self _ _)]
      simp

/-- Trimming is the identity on texts with no white space at either
end. -/
theorem jsTrim_eq_self (l : Str) (h1 : ∀ c, l.head? = some c → isWsJs c = false)
    (h2 : ∀ c, l.getLast? = some c → isWsJs c = false) : jsTrim l = l := by
  unfold jsTrim
  have e1 : l.dropWhile isWsJs = l := by
    cases l with
    | nil => rfl
    | cons a l' =>
        rw [List.dropWhile_cons, h1 a rfl]
        simp
  rw [e1]
  have e2 : l.reverse.dropWhile isWsJs = l.reverse := by
    cases hr : l.reverse with
    | nil => rfl
    | cons b r' =>
        have hb : l.getLast? = some b := by
          rw [← List.head?_reverse, hr]
          rfl
        rw [List.dropWhile_cons, h2 b hb]
        simp
  rw [e2, List.reverse_reverse]

/-- Trimming is the identity on texts with no white space at all. -/
theorem jsTrim_no_ws (l : Str) (h : ∀ c ∈ l, isWsJs c = false) : jsTrim l = l := by
  unfold jsTrim
  rw [dropWhile_all_false _ _ h,
    dropWhile_all_false _ _ (fun c hc => h c (List.mem_reverse.mp hc)),
    List.reverse_reverse]

/-- Text of the C2 counterexample: the sentence `A!` followed by a
1998-character sentence, total length 2001. -/
def c2big : Str := 'A' :: '!' :: ' ' :: 'B' :: List.replicate 1997 'b'

/-- Character inventory of `c2big`. -/
theorem c2big_chars : ∀ c ∈ c2big,
    c = 'A' ∨ c = '!' ∨ c = ' ' ∨ c = 'B' ∨ c = 'b' := by
  intro c hc
  simp only [c2big, List.mem_cons] at hc
  rcases hc with h | h | h | h | h
  · exact Or.inl h
  · exact Or.inr (Or.inl h)
  · exact Or.inr (Or.inr (Or.inl h))
  · exact Or.inr (Or.inr (Or.inr (Or.inl h)))
  · exact Or.inr (Or.inr (Or.inr (Or.inr (List.eq_of_mem_replicate h))))

/-- The tail sentence of `c2big` has no white space. -/
theorem c2big_tail_no_ws : ∀ c ∈ 'B' :: List.replicate 1997 'b', isWsJs c = false := by
  intro c hc
  rcases List.mem_cons.mp hc with h | h
  · rw [h]; decide
  · rw [List.eq_of_mem_replicate h]; decide

/-- Sentence split of `c2big`: the splitter produces exactly the two
sentences `A!` and `B` followed by 1997 letters. -/
theorem c2big_sentences :
    splitIntoSentences c2big = [['A', '!'], 'B' :: List.replicate 1997 'b'] := by
  have hnodot : '.' ∉ c2big := by
    intro hc
    rcases c2big_chars '.' hc with h | h | h | h | h <;> exact absurd h (by decide)
  have hnoeq : '=' ∉ c2big := by
    intro hc
    rcases c2big_chars '=' hc with h | h | h | h | h <;> exact absurd h (by decide)
  have hnolt : '<' ∉ ('B' :: List.replicate 1997 'b') := by
    intro hc
    rcases List.mem_cons.mp hc with h | h
    · exact absurd h (by decide)
    · exact absurd (List.eq_of_mem_replicate h) (by decide)
  unfold splitIntoSentences
  rw [maskAbbreviations_no_dot c2big hnodot]
  rw [show maskPageMarkers c2big = c2big from
    replaceAllL_head_notin '=' (("== PDF PAGE").toList) pmTok c2big hnoeq]
  have hlen : c2big.length = 1998 + 3 := by
    simp only [c2big, List.length_cons, List.length_replicate]
  have hstep : splitGo (1998 + 3) [] none c2big =
      ['A', '!'] :: splitGo 1998 [] (some ' ') ('B' :: List.replicate 1997 'b') := rfl
  rw [show splitPieces c2big = splitGo c2big.length [] none c2big from rfl, hlen,
    hstep, splitGo_no_ws 1998 [] (some ' ') _ c2big_tail_no_ws]
  simp only [List.reverse_nil, List.nil_append, List.map_cons, List.map_nil]
  rw [show restoreSentence ['A', '!'] = ['A', '!'] from by decide]
  rw [show restoreSentence ('B' :: List.replicate 1997 'b') =
      'B' :: List.replicate 1997 'b' from by
    unfold restoreSentence
    rw [show replaceAllL dotTok ['.'] ('B' :: List.replicate 1997 'b') =
        'B' :: List.replicate 1997 'b' from
      replaceAllL_head_notin '<' (("<DOT>>").toList) ['.'] _ hnolt]
    exact replaceAllL_head_notin '<' (("<PAGE_MARKER>>").toList) pmPat _ hnolt]

/-- Step computation of the chunk loop on a two-sentence input
`[A!, s2]` with a white-space-free 1998-character second sentence: the
size check `2 + 1998 > 2000` fails (the joining space is not counted),
so both sentences land in one chunk of 2001 characters. -/
theorem chunkLoop_c2 (s2 : Str) (hjt2 : jsTrim s2 = s2) (hne : s2.isEmpty = false)
    (hlen2 : s2.length = 1998)
    (hjt3 : jsTrim ('A' :: '!' :: ' ' :: s2) = 'A' :: '!' :: ' ' :: s2) :
    chunkLoop [['A', '!'], s2] [] [] [] = ['A' :: '!' :: ' ' :: s2] := by
  simp only [chunkLoop, hjt2, hne, hlen2, hjt3,
    show jsTrim ['A', '!'] = ['A', '!'] from rfl,
    List.isEmpty_cons, List.isEmpty_nil, List.length_nil, List.length_cons,
    List.cons_append, List.nil_append,
    targetChunkSize, overlapSize, CHUNK_SIZE_TOKENS, CHUNK_OVERLAP_TOKENS,
    CHARS_PER_TOKEN]
  norm_num
  rw [hjt3]
  simp

/-- Chunking of `c2big`: one chunk, namely the whole text (2001
characters). -/
theorem c2big_chunks : splitIntoSmartChunks c2big = [c2big] := by
  have hlast : c2big.getLast? = some 'b' := by
    have hshape : c2big = ('A' :: '!' :: ' ' :: 'B' :: List.replicate 1996 'b') ++ ['b'] := by
      show 'A' :: '!' :: ' ' :: 'B' :: List.replicate 1997 'b' = _
      rw [show (1997 : Nat) = 1996 + 1 from rfl, List.replicate_succ']
      simp only [List.cons_append]
    rw [hshape, List.getLast?_concat]
  have hjt3 : jsTrim ('A' :: '!' :: ' ' :: ('B' :: List.replicate 1997 'b')) =
      'A' :: '!' :: ' ' :: ('B' :: List.replicate 1997 'b') := by
    refine jsTrim_eq_self _ ?_ ?_
    · intro c hc
      cases hc
      decide
    · intro c hc
      rw [show ('A' :: '!' :: ' ' :: ('B' :: List.replicate 1997 'b')).getLast? =
        c2big.getLast? from rfl, hlast] at hc
      cases hc
      decide
  have hjt2 : jsTrim ('B' :: List.replicate 1997 'b') = 'B' :: List.replicate 1997 'b' :=
    jsTrim_no_ws _ c2big_tail_no_ws
  have hlen2 : ('B' :: List.replicate 1997 'b').length = 1998 := by
    simp only [List.length_cons, List.length_replicate]
  unfold splitIntoSmartChunks preFilterChunks
  rw [c2big_sentences,
    chunkLoop_c2 ('B' :: List.replicate 1997 'b') hjt2 rfl hlen2 hjt3]
  have hdec : decide (50 < ('A' :: '!' :: ' ' :: ('B' :: List.replicate 1997 'b')).length) =
      true := by
    rw [show ('A' :: '!' :: ' ' :: ('B' :: List.replicate 1997 'b')).length = 2001 from by
      simp only [List.length_cons, List.length_replicate]]
    decide
  rw [List.filter_cons, hdec]
  rfl

/-- C2 counterexample: in `c2big` no sentence exceeds the target chunk
size of 2000 characters, yet the chunker produces a chunk longer than
2000 characters (the whole 2001-character text), because the size
check ignores the joining space.  The claimed bound `≤ 2000 unless a
single sentence exceeds it` is therefore false. -/
theorem C2_bound_counterexample :
    (∀ s ∈ splitIntoSentences c2big, s.length ≤ targetChunkSize) ∧
    ∃ c ∈ splitIntoSmartChunks c2big, targetChunkSize < c.length := by
  constructor
  · rw [c2big_sentences]
    intro s hs
    rcases List.mem_cons.mp hs with h | hs2
    · subst h; decide
    · rcases List.mem_cons.mp hs2 with h | hs3
      · subst h
        show ('B' :: List.replicate 1997 'b').length ≤ targetChunkSize
        simp only [List.length_cons, List.length_replicate]
        decide
      · exact absurd hs3 (List.not_mem_nil s)
  · refine ⟨c2big, ?_, ?_⟩
    · rw [c2big_chunks]
      exact List.mem_singleton.mpr rfl
    · show targetChunkSize < c2big.length
      have hL : c2big.length = 2001 := by
        simp only [c2big, List.length_cons, List.length_replicate]
      rw [hL]
      decide

/-! ## C3: page markers through the chunker

The wire formats of the page markers are `=== PDF PAGE <n> of <total> ===`
(AI extraction, `process-document/index.ts`) and
`=== PAGE <n> of <total> ===` (the client-side extractor `pdfParser.ts`),
with `<n>` and `<total>` nonempty digit strings. -/

/-- Character class `[a-z]`. -/
def isLowAZ (c : Char) : Bool := 'a' ≤ c && c ≤ 'z'

/-- The `<n> of <total>` middle part of a page marker. -/
def markerMid (ns ts : Str) : Str := ns ++ (" of ").toList ++ ts

/-- A client marker minus its closing `===`. -/
def clientBase (ns ts : Str) : Str :=
  ("=== PAGE ").toList ++ markerMid ns ts ++ [' ']

/-- The part of an AI marker between the maskable prefix `=== PDF PAGE`
and the closing `===`. -/
def aiMid (ns ts : Str) : Str := ' ' :: (markerMid ns ts ++ [' '])

/-- A page marker in one of the two wire formats (`true` selects the AI
format `=== PDF PAGE … ===`, `false` the client format `=== PAGE … ===`). -/
def pageMarker (fmt : Bool) (ns ts : Str) : Str :=
  if fmt then pmPat ++ aiMid ns ts ++ ['=', '=', '=']
  else clientBase ns ts ++ ['=', '=', '=']

/-- Possible fates of a marker's closing `===` under `maskPageMarkers`:
left unchanged, or — when the text after the marker happens to begin with
a suitable suffix of ` PDF PAGE` — absorbed into a `<<PAGE_MARKER>>`
token together with 0, 1 or 2 of its equals signs kept literal. -/
def carrierTail (T : Str) : Prop :=
  T = ['=', '=', '='] ∨ T = pmTok ∨ T = '=' :: pmTok ∨ T = '=' :: '=' :: pmTok

/-- Shape of the text region that carries a page marker after
`maskPageMarkers`: the client format is never masked (only its closing
`===` may be absorbed by a match reaching into the following text); the
AI format has its `=== PDF PAGE` prefix replaced by the token unless the
scanner's fuel ran out exactly there (in which case nothing after it
changed either, first disjunct). -/
def pmCarrier (fmt : Bool) (ns ts g : Str) : Prop :=
  if fmt then
    g = pageMarker true ns ts ∨
    ∃ T, carrierTail T ∧ g = pmTok ++ aiMid ns ts ++ T
  else ∃ T, carrierTail T ∧ g = clientBase ns ts ++ T

/-- No match of the literal pattern `pat` can begin at any position
inside `s`, whatever text follows `s`. -/
def noStartIn (pat s : Str) : Prop :=
  ∀ i, i < s.length → ∀ v, pat.isPrefixOf (s.drop i ++ v) = false

/-- No match of `pat` that began strictly before `s` can reach into `s`:
every proper suffix of `pat` fails to match at `s`'s start. -/
def noCrossInto (pat s : Str) : Prop :=
  ∀ j, 0 < j → j < pat.length → ∀ v, (pat.drop j).isPrefixOf (s ++ v) = false

/-- Structural side conditions on an abbreviation pattern, shared by all
22 entries of `abbreviations`: nonempty, starts with a lower-case
letter, made of lower-case letters and wildcard dots, and without two
adjacent wildcard dots. -/
def abbrevOk (abbr : Str) : Prop :=
  abbr ≠ [] ∧ isLowAZ (abbr.headD ' ') = true ∧
  (∀ c ∈ abbr, isLowAZ c = true ∨ c = '.') ∧
  (∀ i, i < abbr.length →
    ¬(i + 1 < abbr.length ∧ abbr.getD i ' ' = '.' ∧ abbr.getD (i + 1) ' ' = '.'))

/-- All abbreviation entries satisfy the structural side conditions. -/
theorem abbreviations_ok : ∀ abbr ∈ abbreviations, abbrevOk abbr := by
  unfold abbrevOk
  decide

/-- An infix occurrence survives prepending text. -/
theorem infix_extend_left (m pre l : Str) (h : m <:+: l) : m <:+: pre ++ l := by
  obtain ⟨s, t, rfl⟩ := h
  exact ⟨pre ++ s, t, by simp [List.append_assoc]⟩

/-- An infix occurrence survives appending text. -/
theorem infix_extend_right (m l post : Str) (h : m <:+: l) : m <:+: l ++ post := by
  obtain ⟨s, t, rfl⟩ := h
  exact ⟨s, t ++ post, by simp [List.append_assoc]⟩

/-- `dropWhile` over an append whose right part starts with a failing
character stops inside the left part. -/
theorem dropWhile_append_head_false (p : Char → Bool) (u : Str) {r : Str}
    (hr : ∀ c, r.head? = some c → p c = false) :
    (u ++ r).dropWhile p = u.dropWhile p ++ r := by
  induction u with
  | nil =>
      cases r with
      | nil => simp
      | cons h t => simp [List.dropWhile_cons, hr h rfl]
  | cons a u ih =>
      by_cases hpa : p a = true
      · simp [List.dropWhile_cons, hpa, ih]
      · simp [List.dropWhile_cons, hpa]

/-- A list is a `isPrefixOf`-prefix of itself followed by anything. -/
theorem isPrefixOf_append_self (p r : Str) : p.isPrefixOf (p ++ r) = true := by
  induction p with
  | nil => simp
  | cons a as ih => simp [List.isPrefixOf_cons₂, ih]

/-- `noStartIn` is closed under append. -/
theorem noStartIn_append (pat s₁ s₂ : Str) (h₁ : noStartIn pat s₁)
    (h₂ : noStartIn pat s₂) : noStartIn pat (s₁ ++ s₂) := by
  intro i hi v
  rcases Nat.lt_or_ge i s₁.length with hlt | hge
  · have he : (s₁ ++ s₂).drop i ++ v = s₁.drop i ++ (s₂ ++ v) := by
      rw [List.drop_append_eq_append_drop, Nat.sub_eq_zero_of_le (Nat.le_of_lt hlt)]
      simp [List.append_assoc]
    rw [he]
    exact h₁ i hlt (s₂ ++ v)
  · have hi2 : i - s₁.length < s₂.length := by
      rw [List.length_append] at hi
      omega
    have he : (s₁ ++ s₂).drop i ++ v = s₂.drop (i - s₁.length) ++ v := by
      rw [List.drop_append_eq_append_drop, List.drop_eq_nil_of_le hge,
        List.nil_append]
    rw [he]
    exact h₂ _ hi2 v

/-- A pattern starting with a character absent from `s` can start
nowhere in `s`. -/
theorem noStartIn_of_head_ne (p : Char) (ps s : Str)
    (h : ∀ c ∈ s, c ≠ p) : noStartIn (p :: ps) s := by
  intro i hi v
  rw [List.drop_eq_getElem_cons hi, List.cons_append, List.isPrefixOf_cons₂]
  have : (p == s[i]) = false :=
    beq_eq_false_iff_ne.mpr fun he => h s[i] (List.getElem_mem hi) he.symm
  rw [this, Bool.false_and]

/-- `noCrossInto` only looks at the front of `s`: it survives appending. -/
theorem noCrossInto_append_right (pat s₁ s₂ : Str) (h : noCrossInto pat s₁) :
    noCrossInto pat (s₁ ++ s₂) := by
  intro j hj hjl v
  rw [List.append_assoc]
  exact h j hj hjl (s₂ ++ v)

/-- A fueled literal scan passes over a region in which no match can
start, keeping it verbatim. -/
theorem litScan_skip (pat rep u : Str) (h : noStartIn pat u) :
    ∀ fuel v, ∃ w, litScan pat rep fuel (u ++ v) = u ++ w := by
  intro fuel
  induction fuel generalizing u with
  | zero => exact fun v => ⟨v, rfl⟩
  | succ fuel ih =>
      intro v
      cases hu : u with
      | nil => exact ⟨litScan pat rep (fuel + 1) v, by simp⟩
      | cons a u' =>
          subst hu
          have hm0 := h 0 (by simp) v
          rw [List.drop_zero, List.cons_append] at hm0
          have hm : ¬(pat.isPrefixOf (a :: (u' ++ v)) = true) := by
            rw [hm0]
            simp
          have h' : noStartIn pat u' := by
            intro i hi v'
            have hs := h (i + 1) (by simpa using Nat.succ_lt_succ hi) v'
            simpa using hs
          obtain ⟨w, hw⟩ := ih u' h' v
          refine ⟨w, ?_⟩
          simp only [List.cons_append, litScan, List.append_eq]
          rw [if_neg hm, hw]

/-- Exact-fuel version of `litScan_skip`: with enough fuel the scan
resumes after the skipped region with the fuel decreased by its
length. -/
theorem litScan_skip_exact (pat rep u : Str) (h : noStartIn pat u) :
    ∀ fuel v, u.length + v.length ≤ fuel →
      litScan pat rep fuel (u ++ v) = u ++ litScan pat rep (fuel - u.length) v := by
  intro fuel
  induction fuel generalizing u with
  | zero =>
      intro v hf
      have hu : u = [] := by
        have := Nat.le_zero.mp hf
        cases u with
        | nil => rfl
        | cons a u' => simp [List.length_cons] at this
      subst hu
      simp
  | succ fuel ih =>
      intro v hf
      cases hu : u with
      | nil => simp
      | cons a u' =>
          subst hu
          have hm0 := h 0 (by simp) v
          rw [List.drop_zero, List.cons_append] at hm0
          have hm : ¬(pat.isPrefixOf (a :: (u' ++ v)) = true) := by
            rw [hm0]
            simp
          have h' : noStartIn pat u' := by
            intro i hi v'
            have hs := h (i + 1) (by simpa using Nat.succ_lt_succ hi) v'
            simpa using hs
          have hf' : u'.length + v.length ≤ fuel := by
            simp only [List.length_cons] at hf
            omega
          simp only [List.cons_append, litScan, List.append_eq]
          rw [if_neg hm, ih u' h' v hf']
          simp only [List.length_cons, List.cons_append]
          have harith : fuel + 1 - (u'.length + 1) = fuel - u'.length := by omega
          rw [harith]

/-- A region in which no match can start and into which no earlier match
can cross survives a literal global replace verbatim. -/
theorem litScan_preserves (pat rep g : Str) (h1 : noStartIn pat g)
    (h2 : noCrossInto pat g) :
    ∀ fuel t, g <:+: t → g <:+: litScan pat rep fuel t := by
  intro fuel
  induction fuel with
  | zero => exact fun t h => h
  | succ fuel ih =>
      intro t hocc
      obtain ⟨x, y, rfl⟩ := hocc
      cases hx : x with
      | nil =>
          subst hx
          rw [List.nil_append]
          obtain ⟨w, hw⟩ := litScan_skip pat rep g h1 (fuel + 1) y
          rw [hw]
          exact ⟨[], w, by simp⟩
      | cons c x' =>
          subst hx
          have hshape : (c :: x') ++ g ++ y = c :: (x' ++ (g ++ y)) := by
            simp [List.append_assoc]
          rw [hshape]
          by_cases hb : pat.isPrefixOf (c :: (x' ++ (g ++ y))) = true
          · rcases Nat.lt_or_ge x'.length (pat.length - 1) with hlt | hge
            · exfalso
              have hpre : pat <+: (c :: x') ++ (g ++ y) := by
                rw [List.isPrefixOf_iff_prefix] at hb
                simpa [List.append_assoc] using hb
              obtain ⟨r, hr⟩ := hpre
              have hlen : 0 < pat.length := by
                cases hp : pat with
                | nil =>
                    subst hp
                    simp at hlt
                | cons _ _ => simp
              have hxlt : (c :: x').length < pat.length := by
                simp only [List.length_cons]
                omega
              have hdrop : pat.drop (c :: x').length ++ r = g ++ y := by
                have hca := congrArg (List.drop (c :: x').length) hr.symm
                rw [List.drop_append_eq_append_drop, Nat.sub_self,
                  List.drop_zero, List.drop_length, List.nil_append] at hca
                rw [List.drop_append_eq_append_drop,
                  Nat.sub_eq_zero_of_le (Nat.le_of_lt hxlt)] at hca
                rw [List.drop_zero] at hca
                exact hca.symm
              have hfalse := h2 (c :: x').length (by simp) hxlt y
              have hprefix : (pat.drop (c :: x').length).isPrefixOf (g ++ y) = true :=
                List.isPrefixOf_iff_prefix.mpr ⟨r, hdrop⟩
              rw [hfalse] at hprefix
              exact absurd hprefix (by simp)
            · simp only [litScan, List.append_eq]
              rw [if_pos hb]
              have hdec : List.drop (pat.length - 1) (x' ++ (g ++ y)) =
                  x'.drop (pat.length - 1) ++ (g ++ y) := by
                rw [List.drop_append_eq_append_drop,
                  Nat.sub_eq_zero_of_le hge, List.drop_zero]
              rw [hdec]
              have hrec := ih (x'.drop (pat.length - 1) ++ (g ++ y))
                ⟨x'.drop (pat.length - 1), y, by simp [List.append_assoc]⟩
              exact infix_extend_left _ rep _ hrec
          · simp only [litScan, List.append_eq]
            rw [if_neg hb]
            exact List.infix_cons (ih (x' ++ (g ++ y))
              ⟨x', y, by simp [List.append_assoc]⟩)

/-- A successful abbreviation-pattern match ends with a literal dot
right after `abbr.length` matched characters. -/
theorem abbrevPatMatch_dot : ∀ (abbr t : Str), abbrevPatMatch abbr t = true →
    ∃ u w, t = u ++ '.' :: w ∧ u.length = abbr.length := by
  intro abbr
  induction abbr with
  | nil =>
      intro t h
      cases t with
      | nil => simp [abbrevPatMatch] at h
      | cons c cs =>
          simp only [abbrevPatMatch] at h
          exact ⟨[], cs, by simp [beq_iff_eq.mp h], by rfl⟩
  | cons p ps ih =>
      intro t h
      cases t with
      | nil => simp [abbrevPatMatch] at h
      | cons c cs =>
          simp only [abbrevPatMatch, Bool.and_eq_true] at h
          obtain ⟨u, w, hw, hlen⟩ := ih cs h.2
          exact ⟨c :: u, w, by rw [hw]; rfl, by simp [hlen]⟩

/-- A successful abbreviation-pattern match splits at any point `k` of
the pattern: the first `k` text characters are consumed and the rest of
the pattern matches the rest of the text. -/
theorem abbrevPatMatch_split : ∀ (k : Nat) (abbr t : Str), k ≤ abbr.length →
    abbrevPatMatch abbr t = true →
    ∃ t₁ t₂, t = t₁ ++ t₂ ∧ t₁.length = k ∧
      abbrevPatMatch (abbr.drop k) t₂ = true := by
  intro k
  induction k with
  | zero => exact fun abbr t _ h => ⟨[], t, rfl, rfl, by simpa using h⟩
  | succ k ih =>
      intro abbr t hk h
      cases abbr with
      | nil => simp at hk
      | cons p ps =>
          cases t with
          | nil => simp [abbrevPatMatch] at h
          | cons c cs =>
              simp only [abbrevPatMatch, Bool.and_eq_true] at h
              obtain ⟨t₁, t₂, ht, hlen, hm⟩ := ih ps cs (by simpa using hk) h.2
              exact ⟨c :: t₁, t₂, by rw [ht]; rfl, by simp [hlen],
                by simpa using hm⟩

/-- A lower-case-letter pattern character never matches `'='`. -/
theorem abbrevChar_eq_false (p : Char) (h : isLowAZ p = true) :
    (if p == '.' then ('=' : Char) != '\n' else toLowerJs '=' == p) = false := by
  have hp : (p == '.') = false := by
    cases hq : p == '.' with
    | false => rfl
    | true =>
        rw [beq_iff_eq.mp hq] at h
        exact absurd h (by decide)
  rw [if_neg (by rw [hp]; simp : ¬((p == '.') = true))]
  rw [show toLowerJs '=' = '=' from rfl]
  refine beq_eq_false_iff_ne.mpr ?_
  intro he
  rw [← he] at h
  exact absurd h (by decide)

/-- If two appends agree and the marked character of the left one falls
inside the left part of the right one, it is a member of that part. -/
theorem mem_left_of_append_eq (a b z w : Str) (x : Char)
    (h : a ++ x :: b = z ++ w) (hlt : a.length < z.length) : x ∈ z := by
  have hidx2 : a.length < (a ++ x :: b).length := by
    rw [List.length_append]
    simp
  have hidx : a.length < (z ++ w).length := by
    rw [List.length_append]
    omega
  have h2 : (a ++ x :: b)[a.length] = x := by
    rw [List.getElem_append_right (Nat.le_refl a.length)]
    simp
  have h3 : (a ++ x :: b)[a.length] = (z ++ w)[a.length] :=
    List.getElem_of_eq h hidx2
  have h4 : (z ++ w)[a.length] = z[a.length] :=
    List.getElem_append_left hlt
  rw [h3, h4] at h2
  rw [← h2]
  exact List.getElem_mem hlt

/-- No abbreviation match can begin anywhere inside a dotless string
that ends in `==`, whatever follows it. -/
theorem abbrev_noStart (abbr m : Str) (hok : abbrevOk abbr)
    (hm2 : ∃ pre, m = pre ++ ['=', '=']) (hdot : '.' ∉ m) :
    ∀ i, i < m.length → ∀ v, abbrevPatMatch abbr (m.drop i ++ v) = false := by
  obtain ⟨hne, hhead, hmem, hadj⟩ := hok
  intro i hi v
  by_contra hmatch
  rw [Bool.not_eq_false] at hmatch
  rcases Nat.lt_or_ge abbr.length (m.length - i) with hlt | hge
  · obtain ⟨u, w, hw, hlen⟩ := abbrevPatMatch_dot abbr _ hmatch
    have hdotmem : '.' ∈ m.drop i := by
      apply mem_left_of_append_eq u w (m.drop i) v '.' hw.symm
      rw [hlen, List.length_drop]
      exact hlt
    exact hdot (List.mem_of_mem_drop hdotmem)
  · obtain ⟨pre, hpre⟩ := hm2
    have hmlen : m.length = pre.length + 2 := by rw [hpre]; simp
    set k := m.length - 1 - i with hk
    have hklt : k < abbr.length := by omega
    have hdrop1 : m.drop (i + k) = ['='] := by
      have hik : i + k = pre.length + 1 := by omega
      rw [hik, hpre, List.drop_append_eq_append_drop,
        List.drop_eq_nil_of_le (by omega), List.nil_append,
        show pre.length + 1 - pre.length = 1 from by omega]
      rfl
    obtain ⟨t₁, t₂, ht, hlen₁, hmk⟩ :=
      abbrevPatMatch_split k abbr _ (Nat.le_of_lt hklt) hmatch
    have ht₂ : t₂ = m.drop (i + k) ++ v := by
      have h1 : t₂ = (m.drop i ++ v).drop t₁.length := by
        rw [ht, List.drop_left]
      rw [hlen₁] at h1
      rw [h1, List.drop_append_eq_append_drop, List.drop_drop,
        show k - (m.drop i).length = 0 from by simp; omega, List.drop_zero]
    rw [ht₂, hdrop1] at hmk
    rw [List.drop_eq_getElem_cons hklt] at hmk
    rw [List.singleton_append] at hmk
    simp only [abbrevPatMatch, Bool.and_eq_true] at hmk
    rcases hmem _ (List.getElem_mem hklt) with hlow | hdotk
    · have hf := abbrevChar_eq_false _ hlow
      have hc := hmk.1
      rw [hf] at hc
      exact absurd hc (by simp)
    · rcases Nat.eq_zero_or_pos k with hk0 | hkpos
      · cases abbr with
        | nil => exact hne rfl
        | cons a as =>
            have h0 : (a :: as)[k] = a := by
              simp [hk0]
            rw [h0] at hdotk
            rw [show (a :: as).headD ' ' = a from rfl, hdotk] at hhead
            exact absurd hhead (by decide)
      · have hkm1lt : k - 1 < abbr.length := by omega
        have hgdk : abbr.getD k ' ' = abbr[k] :=
          List.getD_eq_getElem abbr ' ' hklt
        have hprev_ne : abbr.getD (k - 1) ' ' ≠ '.' := by
          intro hdd
          exact hadj (k - 1) (by omega)
            ⟨by omega, hdd, by
              rw [show k - 1 + 1 = k from by omega, hgdk]
              exact hdotk⟩
        have hprev : abbr[k - 1] ≠ '.' := by
          rw [← List.getD_eq_getElem abbr ' ' hkm1lt]
          exact hprev_ne
        have hlow' : isLowAZ (abbr[k - 1]) = true := by
          rcases hmem _ (List.getElem_mem hkm1lt) with h | h
          · exact h
          · exact absurd h hprev
        have hdrop2 : m.drop (i + (k - 1)) = ['=', '='] := by
          have hik : i + (k - 1) = pre.length := by omega
          rw [hik, hpre, List.drop_append_eq_append_drop,
            List.drop_eq_nil_of_le (Nat.le_refl _), List.nil_append,
            Nat.sub_self, List.drop_zero]
        obtain ⟨s₁, s₂, hs, hlen₂, hms⟩ :=
          abbrevPatMatch_split (k - 1) abbr _ (by omega) hmatch
    -- the match restricted to position k-1 sees the two closing equals
        have hs₂ : s₂ = m.drop (i + (k - 1)) ++ v := by
          have h1 : s₂ = (m.drop i ++ v).drop s₁.length := by
            rw [hs, List.drop_left]
          rw [hlen₂] at h1
          rw [h1, List.drop_append_eq_append_drop, List.drop_drop,
            show k - 1 - (m.drop i).length = 0 from by simp; omega,
            List.drop_zero]
        rw [hs₂, hdrop2] at hms
        rw [List.drop_eq_getElem_cons hkm1lt] at hms
        simp only [List.cons_append, abbrevPatMatch, Bool.and_eq_true] at hms
        have hf := abbrevChar_eq_false _ hlow'
        have hc := hms.1
        rw [hf] at hc
        exact absurd hc (by simp)

/-- No abbreviation match that began strictly before a string starting
with `===` can reach into it. -/
theorem abbrev_noCross (abbr m : Str) (hok : abbrevOk abbr)
    (hm3 : ∃ r, m = '=' :: '=' :: '=' :: r) :
    ∀ j, 0 < j → j ≤ abbr.length → ∀ v,
      abbrevPatMatch (abbr.drop j) (m ++ v) = false := by
  obtain ⟨hne, hhead, hmem, hadj⟩ := hok
  obtain ⟨r, hr⟩ := hm3
  intro j hj hjle v
  by_contra hmatch
  rw [Bool.not_eq_false] at hmatch
  rcases Nat.lt_or_ge j abbr.length with hjlt | hjge
  · rw [List.drop_eq_getElem_cons hjlt, hr] at hmatch
    simp only [List.cons_append, abbrevPatMatch, Bool.and_eq_true] at hmatch
    rcases hmem _ (List.getElem_mem hjlt) with hlow | hdotj
    · have hf := abbrevChar_eq_false _ hlow
      have hc := hmatch.1
      rw [hf] at hc
      exact absurd hc (by simp)
    · rcases Nat.lt_or_ge (j + 1) abbr.length with hj1 | hj1
      · have hgdj : abbr.getD j ' ' = abbr[j] :=
          List.getD_eq_getElem abbr ' ' hjlt
        have hnext_ne : abbr.getD (j + 1) ' ' ≠ '.' := by
          intro hdd
          exact hadj j (by omega) ⟨hj1, by rw [hgdj]; exact hdotj, hdd⟩
        have hnext : abbr[j + 1] ≠ '.' := by
          rw [← List.getD_eq_getElem abbr ' ' hj1]
          exact hnext_ne
        have hlow' : isLowAZ (abbr[j + 1]) = true := by
          rcases hmem _ (List.getElem_mem hj1) with h | h
          · exact h
          · exact absurd h hnext
        have hm2 := hmatch.2
        rw [List.drop_eq_getElem_cons hj1] at hm2
        simp only [abbrevPatMatch, Bool.and_eq_true] at hm2
        have hf := abbrevChar_eq_false _ hlow'
        have hc := hm2.1
        rw [hf] at hc
        exact absurd hc (by simp)
      · have hm2 := hmatch.2
        rw [List.drop_eq_nil_of_le (by omega)] at hm2
        simp only [abbrevPatMatch] at hm2
        exact absurd hm2 (by decide)
  · rw [List.drop_eq_nil_of_le hjge, hr] at hmatch
    simp only [List.cons_append, abbrevPatMatch] at hmatch
    exact absurd hmatch (by decide)

/-- One abbreviation scan passes over a region in which no match can
start, keeping it verbatim. -/
theorem abbrevScan_skip (abbr u : Str)
    (h : ∀ i, i < u.length → ∀ v', abbrevPatMatch abbr (u.drop i ++ v') = false) :
    ∀ fuel prev v, ∃ w, abbrevScan abbr fuel prev (u ++ v) = u ++ w := by
  intro fuel
  induction fuel generalizing u with
  | zero => exact fun prev v => ⟨v, rfl⟩
  | succ fuel ih =>
      intro prev v
      cases hu : u with
      | nil => exact ⟨abbrevScan abbr (fuel + 1) prev v, by simp⟩
      | cons a u' =>
          subst hu
          have hm0 := h 0 (by simp) v
          rw [List.drop_zero, List.cons_append] at hm0
          have hcond :
              ¬((boundaryOk prev && abbrevPatMatch abbr (a :: (u' ++ v))) = true) := by
            rw [hm0]
            simp
          have h' : ∀ i, i < u'.length → ∀ v',
              abbrevPatMatch abbr (u'.drop i ++ v') = false := by
            intro i hi v'
            have hs := h (i + 1) (by simpa using Nat.succ_lt_succ hi) v'
            simpa using hs
          obtain ⟨w, hw⟩ := ih u' h' (some a) v
          refine ⟨w, ?_⟩
          simp only [List.cons_append, abbrevScan, List.append_eq]
          rw [if_neg hcond, hw]

/-- A region in which no abbreviation match can start and into which no
earlier match can cross survives one abbreviation replace pass. -/
theorem abbrevScan_preserves (abbr m : Str)
    (hstart : ∀ i, i < m.length → ∀ v, abbrevPatMatch abbr (m.drop i ++ v) = false)
    (hcross : ∀ j, 0 < j → j ≤ abbr.length → ∀ v,
      abbrevPatMatch (abbr.drop j) (m ++ v) = false) :
    ∀ fuel prev t, m <:+: t → m <:+: abbrevScan abbr fuel prev t := by
  intro fuel
  induction fuel with
  | zero => exact fun prev t h => h
  | succ fuel ih =>
      intro prev t hocc
      obtain ⟨x, y, rfl⟩ := hocc
      cases hx : x with
      | nil =>
          subst hx
          rw [List.nil_append]
          obtain ⟨w, hw⟩ := abbrevScan_skip abbr m hstart (fuel + 1) prev y
          rw [hw]
          exact ⟨[], w, by simp⟩
      | cons c x' =>
          subst hx
          have hshape : (c :: x') ++ m ++ y = c :: (x' ++ (m ++ y)) := by
            simp [List.append_assoc]
          rw [hshape]
          by_cases hb :
              (boundaryOk prev && abbrevPatMatch abbr (c :: (x' ++ (m ++ y)))) = true
          · have hpm : abbrevPatMatch abbr (c :: (x' ++ (m ++ y))) = true :=
              ((Bool.and_eq_true _ _).mp hb).2
            rcases Nat.lt_or_ge x'.length abbr.length with hlt | hge
            · exfalso
              obtain ⟨t₁, t₂, ht, hlen₁, hm'⟩ :=
                abbrevPatMatch_split (x'.length + 1) abbr _ (by omega) hpm
              have ht₂ : t₂ = m ++ y := by
                have h1 : t₂ = (c :: (x' ++ (m ++ y))).drop t₁.length := by
                  rw [ht, List.drop_left]
                rw [hlen₁] at h1
                rw [h1, List.drop_succ_cons, List.drop_append_eq_append_drop,
                  List.drop_length, Nat.sub_self, List.drop_zero, List.nil_append]
              rw [ht₂] at hm'
              have hfalse := hcross (x'.length + 1) (Nat.succ_pos _) (by omega) y
              rw [hm'] at hfalse
              exact absurd hfalse (by simp)
            · simp only [abbrevScan, List.append_eq]
              rw [if_pos hb]
              have hdec : List.drop abbr.length (x' ++ (m ++ y)) =
                  x'.drop abbr.length ++ (m ++ y) := by
                rw [List.drop_append_eq_append_drop,
                  Nat.sub_eq_zero_of_le hge, List.drop_zero]
              rw [hdec]
              have hrec := ih (some '.') (x'.drop abbr.length ++ (m ++ y))
                ⟨x'.drop abbr.length, y, by simp [List.append_assoc]⟩
              first
              | exact infix_extend_left _ _ _ (infix_extend_left _ _ _ hrec)
              | exact infix_extend_left _ _ _ hrec
          · simp only [abbrevScan, List.append_eq]
            rw [if_neg hb]
            exact List.infix_cons (ih (some c) (x' ++ (m ++ y))
              ⟨x', y, by simp [List.append_assoc]⟩)

/-- A dotless string framed in equals signs (three leading, two
trailing) survives all 22 abbreviation replace passes. -/
theorem maskAbbreviations_preserves (m : Str)
    (hm3 : ∃ r, m = '=' :: '=' :: '=' :: r)
    (hm2 : ∃ pre, m = pre ++ ['=', '='])
    (hdot : '.' ∉ m) :
    ∀ t, m <:+: t → m <:+: maskAbbreviations t := by
  suffices hgen : ∀ (l : List Str), (∀ abbr ∈ l, abbrevOk abbr) → ∀ t, m <:+: t →
      m <:+: l.foldl (fun acc abbr => abbrevPass abbr acc) t by
    intro t h
    exact hgen abbreviations abbreviations_ok t h
  intro l
  induction l with
  | nil => exact fun _ t h => h
  | cons a l ih =>
      intro hl t h
      rw [List.foldl_cons]
      apply ih (fun abbr hm => hl abbr (List.mem_cons_of_mem a hm))
      exact abbrevScan_preserves a m
        (abbrev_noStart a m (hl a (List.mem_cons_self a l)) hm2 hdot)
        (abbrev_noCross a m (hl a (List.mem_cons_self a l)) hm3)
        t.length none t h

/-- A decimal digit is none of the structural characters of the
masking machinery. -/
theorem digit_facts (c : Char) (h : isDigitC c = true) :
    c ≠ '.' ∧ c ≠ '<' ∧ c ≠ '=' ∧ isWsJs c = false ∧ isPunctSB (some c) = false := by
  refine ⟨?_, ?_, ?_, ?_, ?_⟩
  · rintro rfl
    exact absurd h (by decide)
  · rintro rfl
    exact absurd h (by decide)
  · rintro rfl
    exact absurd h (by decide)
  · cases hw : isWsJs c with
    | false => rfl
    | true =>
        exfalso
        simp only [isWsJs, Bool.or_eq_true, beq_iff_eq] at hw
        rcases hw with ((((rfl | rfl) | rfl) | rfl) | rfl) | rfl <;>
          exact absurd h (by decide)
  · cases hw : isPunctSB (some c) with
    | false => rfl
    | true =>
        exfalso
        simp only [isPunctSB, Bool.or_eq_true, beq_iff_eq] at hw
        rcases hw with (rfl | rfl) | rfl <;> exact absurd h (by decide)

/-- Explicit characters of the client marker prefix. -/
theorem clientPfx_chars :
    ("=== PAGE ").toList = ['=', '=', '=', ' ', 'P', 'A', 'G', 'E', ' '] := by decide

/-- Explicit characters of the ` of ` separator. -/
theorem ofStr_chars : (" of ").toList = [' ', 'o', 'f', ' '] := by decide

/-- Explicit characters of the masking pattern. -/
theorem pmPat_chars :
    pmPat = ['=', '=', '=', ' ', 'P', 'D', 'F', ' ', 'P', 'A', 'G', 'E'] := by decide

/-- Explicit characters of the page-marker token. -/
theorem pmTok_chars :
    pmTok = ['<', '<', 'P', 'A', 'G', 'E', '_', 'M', 'A', 'R', 'K', 'E', 'R', '>', '>'] := by
  decide

/-- Explicit characters of the dot token. -/
theorem dotTok_chars : dotTok = ['<', '<', 'D', 'O', 'T', '>', '>'] := by decide

/-- Character facts for the digit middle of a marker. -/
theorem markerMid_facts (ns ts : Str)
    (hns : ∀ c ∈ ns, isDigitC c = true) (hts : ∀ c ∈ ts, isDigitC c = true) :
    ∀ c ∈ markerMid ns ts,
      c ≠ '=' ∧ c ≠ '<' ∧ c ≠ '.' ∧ isPunctSB (some c) = false := by
  intro c hc
  rw [markerMid] at hc
  rcases List.mem_append.mp hc with h | h
  · rcases List.mem_append.mp h with h2 | h2
    · obtain ⟨h1, h2, h3, _, h5⟩ := digit_facts c (hns c h2)
      exact ⟨h3, h2, h1, h5⟩
    · rw [ofStr_chars] at h2
      fin_cases h2 <;> exact ⟨by decide, by decide, by decide, by decide⟩
  · obtain ⟨h1, h2, h3, _, h5⟩ := digit_facts c (hts c h)
    exact ⟨h3, h2, h1, h5⟩

/-- Character facts for a client marker base: no token opener, no dot,
no sentence punctuation. -/
theorem clientBase_facts (ns ts : Str)
    (hns : ∀ c ∈ ns, isDigitC c = true) (hts : ∀ c ∈ ts, isDigitC c = true) :
    ∀ c ∈ clientBase ns ts,
      c ≠ '<' ∧ c ≠ '.' ∧ isPunctSB (some c) = false := by
  intro c hc
  rw [clientBase] at hc
  rcases List.mem_append.mp hc with h | h
  · rcases List.mem_append.mp h with h2 | h2
    · rw [clientPfx_chars] at h2
      fin_cases h2 <;> exact ⟨by decide, by decide, by decide⟩
    · obtain ⟨_, hb, hd, hp⟩ := markerMid_facts ns ts hns hts c h2
      exact ⟨hb, hd, hp⟩
  · rw [List.mem_singleton] at h
    subst h
    exact ⟨by decide, by decide, by decide⟩

/-- Character facts for the AI marker middle: additionally free of
equals signs. -/
theorem aiMid_facts (ns ts : Str)
    (hns : ∀ c ∈ ns, isDigitC c = true) (hts : ∀ c ∈ ts, isDigitC c = true) :
    ∀ c ∈ aiMid ns ts,
      c ≠ '=' ∧ c ≠ '<' ∧ c ≠ '.' ∧ isPunctSB (some c) = false := by
  intro c hc
  rw [aiMid] at hc
  rcases List.mem_cons.mp hc with h | h
  · subst h
    exact ⟨by decide, by decide, by decide, by decide⟩
  · rcases List.mem_append.mp h with h2 | h2
    · exact markerMid_facts ns ts hns hts c h2
    · rw [List.mem_singleton] at h2
      subst h2
      exact ⟨by decide, by decide, by decide, by decide⟩

/-- Both marker formats start with three equals signs. -/
theorem pageMarker_head3 (fmt : Bool) (ns ts : Str) :
    ∃ r, pageMarker fmt ns ts = '=' :: '=' :: '=' :: r := by
  cases fmt
  · refine ⟨(' ' :: 'P' :: 'A' :: 'G' :: 'E' :: ' ' ::
      (markerMid ns ts ++ ([' '] ++ ['=', '=', '=']))), ?_⟩
    show clientBase ns ts ++ ['=', '=', '='] = _
    rw [clientBase, clientPfx_chars]
    simp [List.append_assoc]
  · refine ⟨(' ' :: 'P' :: 'D' :: 'F' :: ' ' :: 'P' :: 'A' :: 'G' :: 'E' ::
      (aiMid ns ts ++ ['=', '=', '='])), ?_⟩
    show pmPat ++ aiMid ns ts ++ ['=', '=', '='] = _
    rw [pmPat_chars]
    simp [List.append_assoc]

/-- Both marker formats end with two equals signs. -/
theorem pageMarker_tail2 (fmt : Bool) (ns ts : Str) :
    ∃ pre, pageMarker fmt ns ts = pre ++ ['=', '='] := by
  cases fmt
  · refine ⟨clientBase ns ts ++ ['='], ?_⟩
    show clientBase ns ts ++ ['=', '=', '='] = _
    simp
  · refine ⟨pmPat ++ aiMid ns ts ++ ['='], ?_⟩
    show pmPat ++ aiMid ns ts ++ ['=', '=', '='] = _
    simp

/-- No dot occurs in a page marker. -/
theorem pageMarker_no_dot (fmt : Bool) (ns ts : Str)
    (hns : ∀ c ∈ ns, isDigitC c = true) (hts : ∀ c ∈ ts, isDigitC c = true) :
    '.' ∉ pageMarker fmt ns ts := by
  intro hmem
  cases fmt
  · have h : ('.' : Char) ∈ clientBase ns ts ++ ['=', '=', '='] := hmem
    rcases List.mem_append.mp h with h1 | h1
    · exact absurd rfl (clientBase_facts ns ts hns hts '.' h1).2.1
    · exact absurd h1 (by decide)
  · have h : ('.' : Char) ∈ pmPat ++ aiMid ns ts ++ ['=', '=', '='] := hmem
    rcases List.mem_append.mp h with h1 | h1
    · rcases List.mem_append.mp h1 with h2 | h2
      · rw [pmPat_chars] at h2
        exact absurd h2 (by decide)
      · exact absurd rfl (aiMid_facts ns ts hns hts '.' h2).2.2.1
    · exact absurd h1 (by decide)

/-- No token opener `<` occurs in a page marker. -/
theorem pageMarker_no_lt (fmt : Bool) (ns ts : Str)
    (hns : ∀ c ∈ ns, isDigitC c = true) (hts : ∀ c ∈ ts, isDigitC c = true) :
    '<' ∉ pageMarker fmt ns ts := by
  intro hmem
  cases fmt
  · have h : ('<' : Char) ∈ clientBase ns ts ++ ['=', '=', '='] := hmem
    rcases List.mem_append.mp h with h1 | h1
    · exact absurd rfl (clientBase_facts ns ts hns hts '<' h1).1
    · exact absurd h1 (by decide)
  · have h : ('<' : Char) ∈ pmPat ++ aiMid ns ts ++ ['=', '=', '='] := hmem
    rcases List.mem_append.mp h with h1 | h1
    · rcases List.mem_append.mp h1 with h2 | h2
      · rw [pmPat_chars] at h2
        exact absurd h2 (by decide)
      · exact absurd rfl (aiMid_facts ns ts hns hts '<' h2).2.1
    · exact absurd h1 (by decide)

/-- Variant of `litScan_skip` that resumes the scan after the skipped
region (with some leftover fuel). -/
theorem litScan_skip_run (pat rep u : Str) (h : noStartIn pat u) :
    ∀ fuel v, ∃ fuel2, litScan pat rep fuel (u ++ v) = u ++ litScan pat rep fuel2 v := by
  intro fuel
  induction fuel generalizing u with
  | zero => exact fun v => ⟨0, rfl⟩
  | succ fuel ih =>
      intro v
      cases hu : u with
      | nil => exact ⟨fuel + 1, by simp⟩
      | cons a u' =>
          subst hu
          have hm0 := h 0 (by simp) v
          rw [List.drop_zero, List.cons_append] at hm0
          have hm : ¬(pat.isPrefixOf (a :: (u' ++ v)) = true) := by
            rw [hm0]
            simp
          have h' : noStartIn pat u' := by
            intro i hi v'
            have hs := h (i + 1) (by simpa using Nat.succ_lt_succ hi) v'
            simpa using hs
          obtain ⟨fuel2, hw⟩ := ih u' h' v
          refine ⟨fuel2, ?_⟩
          simp only [List.cons_append, litScan, List.append_eq]
          rw [if_neg hm, hw]

/-- No `=== PDF PAGE` match can begin inside the client prefix
`=== PAGE `, whatever follows. -/
theorem noStart_pmPat_clientPfx : noStartIn pmPat (("=== PAGE ").toList) := by
  rw [clientPfx_chars]
  intro i hi v
  have h9 : i < 9 := by simpa using hi
  interval_cases i <;> rfl

/-- No proper suffix of `=== PDF PAGE` matches at three equals signs. -/
theorem noCross_pmPat_eqs : ∀ j, 0 < j → j < pmPat.length → ∀ v,
    (pmPat.drop j).isPrefixOf ('=' :: '=' :: '=' :: v) = false := by
  intro j hj hjl v
  have h12 : j < 12 := by
    rw [pmPat_chars] at hjl
    simpa using hjl
  rw [pmPat_chars]
  interval_cases j <;> rfl

/-- `=== PDF PAGE` can start nowhere in an equals-free string. -/
theorem noStart_pmPat_of_ne (s : Str) (h : ∀ c ∈ s, c ≠ '=') : noStartIn pmPat s := by
  have h2 := noStartIn_of_head_ne '='
    ['=', '=', ' ', 'P', 'D', 'F', ' ', 'P', 'A', 'G', 'E'] s h
  rwa [show ('=' :: ['=', '=', ' ', 'P', 'D', 'F', ' ', 'P', 'A', 'G', 'E']) = pmPat
    from by rw [pmPat_chars]] at h2

/-- No `=== PDF PAGE` match can begin inside a client marker base. -/
theorem noStart_pmPat_clientBase (ns ts : Str)
    (hns : ∀ c ∈ ns, isDigitC c = true) (hts : ∀ c ∈ ts, isDigitC c = true) :
    noStartIn pmPat (clientBase ns ts) := by
  rw [clientBase]
  refine noStartIn_append _ _ _ (noStartIn_append _ _ _ ?_ ?_) ?_
  · exact noStart_pmPat_clientPfx
  · exact noStart_pmPat_of_ne _ (fun c hc => (markerMid_facts ns ts hns hts c hc).1)
  · refine noStart_pmPat_of_ne _ ?_
    intro c hc
    rw [List.mem_singleton] at hc
    subst hc
    decide

/-- No `=== PDF PAGE` match can begin inside an AI marker middle. -/
theorem noStart_pmPat_aiMid (ns ts : Str)
    (hns : ∀ c ∈ ns, isDigitC c = true) (hts : ∀ c ∈ ts, isDigitC c = true) :
    noStartIn pmPat (aiMid ns ts) := by
  apply noStart_pmPat_of_ne
  intro c hc
  exact (aiMid_facts ns ts hns hts c hc).1

/-- Fate of a single trailing equals sign under the masking scan. -/
theorem pmTail1 : ∀ fuel y, ∃ T w,
    litScan pmPat pmTok fuel ('=' :: y) = T ++ w ∧ (T = ['='] ∨ T = pmTok) := by
  intro fuel y
  cases fuel with
  | zero => exact ⟨['='], y, rfl, Or.inl rfl⟩
  | succ f =>
      by_cases hb : pmPat.isPrefixOf ('=' :: y) = true
      · refine ⟨pmTok, litScan pmPat pmTok f (List.drop (pmPat.length - 1) y),
          ?_, Or.inr rfl⟩
        simp only [litScan]
        rw [if_pos hb]
      · refine ⟨['='], litScan pmPat pmTok f y, ?_, Or.inl rfl⟩
        simp only [litScan]
        rw [if_neg hb]
        rfl

/-- Fate of two trailing equals signs under the masking scan. -/
theorem pmTail2 : ∀ fuel y, ∃ T w,
    litScan pmPat pmTok fuel ('=' :: '=' :: y) = T ++ w ∧
    (T = ['=', '='] ∨ T = pmTok ∨ T = '=' :: pmTok) := by
  intro fuel y
  cases fuel with
  | zero => exact ⟨['=', '='], y, rfl, Or.inl rfl⟩
  | succ f =>
      by_cases hb : pmPat.isPrefixOf ('=' :: '=' :: y) = true
      · exact ⟨pmTok, litScan pmPat pmTok f (List.drop (pmPat.length - 1) ('=' :: y)),
          by simp only [litScan]; rw [if_pos hb], Or.inr (Or.inl rfl)⟩
      · obtain ⟨T, w, hw, hT⟩ := pmTail1 f y
        refine ⟨'=' :: T, w, ?_, ?_⟩
        · simp only [litScan]
          rw [if_neg hb, hw]
          rfl
        · rcases hT with h | h
          · rw [h]
            exact Or.inl rfl
          · rw [h]
            exact Or.inr (Or.inr rfl)

/-- Fate of a marker's closing `===` under the masking scan: one of the
four `carrierTail` shapes. -/
theorem pmTail3 : ∀ fuel y, ∃ T w,
    litScan pmPat pmTok fuel ('=' :: '=' :: '=' :: y) = T ++ w ∧ carrierTail T := by
  intro fuel y
  cases fuel with
  | zero => exact ⟨['=', '=', '='], y, rfl, Or.inl rfl⟩
  | succ f =>
      by_cases hb : pmPat.isPrefixOf ('=' :: '=' :: '=' :: y) = true
      · exact ⟨pmTok,
          litScan pmPat pmTok f (List.drop (pmPat.length - 1) ('=' :: '=' :: y)),
          by simp only [litScan]; rw [if_pos hb], Or.inr (Or.inl rfl)⟩
      · obtain ⟨T, w, hw, hT⟩ := pmTail2 f y
        refine ⟨'=' :: T, w, ?_, ?_⟩
        · simp only [litScan]
          rw [if_neg hb, hw]
          rfl
        · rcases hT with h | h | h
          · rw [h]
            exact Or.inl rfl
          · rw [h]
            exact Or.inr (Or.inr (Or.inl rfl))
          · rw [h]
            exact Or.inr (Or.inr (Or.inr rfl))

/-- Client-format carrier introduction. -/
theorem pmCarrier_client_intro (ns ts T : Str) (hT : carrierTail T) :
    pmCarrier false ns ts (clientBase ns ts ++ T) := by
  unfold pmCarrier
  rw [if_neg (by simp : ¬(false = true))]
  exact ⟨T, hT, rfl⟩

/-- AI-format carrier introduction (masked head). -/
theorem pmCarrier_ai_intro (ns ts T : Str) (hT : carrierTail T) :
    pmCarrier true ns ts (pmTok ++ aiMid ns ts ++ T) := by
  unfold pmCarrier
  rw [if_pos rfl]
  exact Or.inr ⟨T, hT, rfl⟩

/-- AI-format carrier introduction (untouched marker). -/
theorem pmCarrier_ai_self (ns ts : Str) :
    pmCarrier true ns ts (pageMarker true ns ts) := by
  unfold pmCarrier
  rw [if_pos rfl]
  exact Or.inl rfl

/-- An untouched marker is a carrier in either format. -/
theorem pmCarrier_self (fmt : Bool) (ns ts : Str) :
    pmCarrier fmt ns ts (pageMarker fmt ns ts) := by
  cases fmt
  · have h : pageMarker false ns ts = clientBase ns ts ++ ['=', '=', '='] := rfl
    rw [h]
    exact pmCarrier_client_intro ns ts _ (Or.inl rfl)
  · exact pmCarrier_ai_self ns ts

/-- Masking scan over a client marker at the head of the text. -/
theorem maskHead_client (ns ts : Str)
    (hns : ∀ c ∈ ns, isDigitC c = true) (hts : ∀ c ∈ ts, isDigitC c = true) :
    ∀ fuel y, ∃ g w,
      litScan pmPat pmTok fuel (pageMarker false ns ts ++ y) = g ++ w ∧
      pmCarrier false ns ts g := by
  intro fuel y
  have hshape : pageMarker false ns ts ++ y =
      clientBase ns ts ++ ('=' :: '=' :: '=' :: y) := by
    show (clientBase ns ts ++ ['=', '=', '=']) ++ y = _
    rw [List.append_assoc]
    rfl
  rw [hshape]
  obtain ⟨fuel2, hsk⟩ := litScan_skip_run pmPat pmTok (clientBase ns ts)
    (noStart_pmPat_clientBase ns ts hns hts) fuel ('=' :: '=' :: '=' :: y)
  rw [hsk]
  obtain ⟨T, w, hw, hT⟩ := pmTail3 fuel2 y
  rw [hw]
  exact ⟨clientBase ns ts ++ T, w, by rw [List.append_assoc],
    pmCarrier_client_intro ns ts T hT⟩

/-- Masking scan over an AI marker at the head of the text. -/
theorem maskHead_ai (ns ts : Str)
    (hns : ∀ c ∈ ns, isDigitC c = true) (hts : ∀ c ∈ ts, isDigitC c = true) :
    ∀ fuel y, ∃ g w,
      litScan pmPat pmTok fuel (pageMarker true ns ts ++ y) = g ++ w ∧
      pmCarrier true ns ts g := by
  intro fuel y
  cases fuel with
  | zero => exact ⟨pageMarker true ns ts, y, rfl, pmCarrier_ai_self ns ts⟩
  | succ f =>
      have hshape : pageMarker true ns ts ++ y =
          '=' :: ('=' :: '=' :: ' ' :: 'P' :: 'D' :: 'F' :: ' ' :: 'P' :: 'A' :: 'G' :: 'E' ::
            (aiMid ns ts ++ ('=' :: '=' :: '=' :: y))) := by
        show (pmPat ++ aiMid ns ts ++ ['=', '=', '=']) ++ y = _
        rw [pmPat_chars]
        simp [List.append_assoc]
      rw [hshape]
      have h2 : ('=' :: ('=' :: '=' :: ' ' :: 'P' :: 'D' :: 'F' :: ' ' :: 'P' :: 'A' ::
          'G' :: 'E' :: (aiMid ns ts ++ ('=' :: '=' :: '=' :: y)))) =
          pmPat ++ (aiMid ns ts ++ ('=' :: '=' :: '=' :: y)) := by
        rw [pmPat_chars]
        rfl
      have hb : pmPat.isPrefixOf ('=' :: ('=' :: '=' :: ' ' :: 'P' :: 'D' :: 'F' :: ' ' ::
          'P' :: 'A' :: 'G' :: 'E' :: (aiMid ns ts ++ ('=' :: '=' :: '=' :: y)))) = true := by
        rw [h2]
        exact isPrefixOf_append_self _ _
      simp only [litScan]
      rw [if_pos hb]
      have hdrop : List.drop (pmPat.length - 1)
          ('=' :: '=' :: ' ' :: 'P' :: 'D' :: 'F' :: ' ' :: 'P' :: 'A' :: 'G' :: 'E' ::
            (aiMid ns ts ++ ('=' :: '=' :: '=' :: y))) =
          aiMid ns ts ++ ('=' :: '=' :: '=' :: y) := by
        rw [show pmPat.length - 1 = 11 from by decide]
        rfl
      rw [hdrop]
      obtain ⟨fuel2, hsk⟩ := litScan_skip_run pmPat pmTok (aiMid ns ts)
        (noStart_pmPat_aiMid ns ts hns hts) f ('=' :: '=' :: '=' :: y)
      rw [hsk]
      obtain ⟨T, w, hw, hT⟩ := pmTail3 fuel2 y
      rw [hw]
      refine ⟨pmTok ++ aiMid ns ts ++ T, w, ?_, pmCarrier_ai_intro ns ts T hT⟩
      simp [List.append_assoc]

/-- Masking scan over a marker at the head of the text, either format. -/
theorem maskHead (fmt : Bool) (ns ts : Str)
    (hns : ∀ c ∈ ns, isDigitC c = true) (hts : ∀ c ∈ ts, isDigitC c = true) :
    ∀ fuel y, ∃ g w,
      litScan pmPat pmTok fuel (pageMarker fmt ns ts ++ y) = g ++ w ∧
      pmCarrier fmt ns ts g := by
  cases fmt
  · exact maskHead_client ns ts hns hts
  · exact maskHead_ai ns ts hns hts

/-- Main lemma of the masking stage: a text containing a page marker
scans to a text containing one of the carrier shapes. -/
theorem maskScan_carrier (fmt : Bool) (ns ts : Str)
    (hns : ∀ c ∈ ns, isDigitC c = true) (hts : ∀ c ∈ ts, isDigitC c = true) :
    ∀ fuel t, pageMarker fmt ns ts <:+: t →
      ∃ g, pmCarrier fmt ns ts g ∧ g <:+: litScan pmPat pmTok fuel t := by
  intro fuel
  induction fuel with
  | zero => exact fun t h => ⟨pageMarker fmt ns ts, pmCarrier_self fmt ns ts, h⟩
  | succ fuel ih =>
      intro t hocc
      obtain ⟨x, y, rfl⟩ := hocc
      cases hx : x with
      | nil =>
          subst hx
          rw [List.nil_append]
          obtain ⟨g, w, hw, hg⟩ := maskHead fmt ns ts hns hts (fuel + 1) y
          exact ⟨g, hg, by rw [hw]; exact (List.prefix_append g w).isInfix⟩
      | cons c x' =>
          subst hx
          have hshape : (c :: x') ++ pageMarker fmt ns ts ++ y =
              c :: (x' ++ (pageMarker fmt ns ts ++ y)) := by
            simp [List.append_assoc]
          rw [hshape]
          by_cases hb :
              pmPat.isPrefixOf (c :: (x' ++ (pageMarker fmt ns ts ++ y))) = true
          · rcases Nat.lt_or_ge x'.length (pmPat.length - 1) with hlt | hge
            · exfalso
              have hpre : pmPat <+: (c :: x') ++ (pageMarker fmt ns ts ++ y) := by
                rw [List.isPrefixOf_iff_prefix] at hb
                simpa [List.append_assoc] using hb
              obtain ⟨r, hr⟩ := hpre
              have hxlt : (c :: x').length < pmPat.length := by
                have hpl : 0 < pmPat.length := by rw [pmPat_chars]; simp
                simp only [List.length_cons]
                omega
              have hdrop : pmPat.drop (c :: x').length ++ r =
                  pageMarker fmt ns ts ++ y := by
                have hca := congrArg (List.drop (c :: x').length) hr.symm
                rw [List.drop_append_eq_append_drop, Nat.sub_self, List.drop_zero,
                  List.drop_length, List.nil_append] at hca
                rw [List.drop_append_eq_append_drop,
                  Nat.sub_eq_zero_of_le (Nat.le_of_lt hxlt), List.drop_zero] at hca
                exact hca.symm
              obtain ⟨mr, hmr⟩ := pageMarker_head3 fmt ns ts
              have hfalse :=
                noCross_pmPat_eqs (c :: x').length (by simp) hxlt (mr ++ y)
              have hpp : (pmPat.drop (c :: x').length).isPrefixOf
                  ('=' :: '=' :: '=' :: (mr ++ y)) = true := by
                rw [List.isPrefixOf_iff_prefix]
                refine ⟨r, ?_⟩
                rw [hdrop, hmr]
                rfl
              rw [hfalse] at hpp
              exact absurd hpp (by simp)
            · simp only [litScan, List.append_eq]
              rw [if_pos hb]
              have hdec : List.drop (pmPat.length - 1) (x' ++ (pageMarker fmt ns ts ++ y)) =
                  x'.drop (pmPat.length - 1) ++ (pageMarker fmt ns ts ++ y) := by
                rw [List.drop_append_eq_append_drop,
                  Nat.sub_eq_zero_of_le hge, List.drop_zero]
              rw [hdec]
              obtain ⟨g, hg, hocc2⟩ :=
                ih (x'.drop (pmPat.length - 1) ++ (pageMarker fmt ns ts ++ y))
                  ⟨x'.drop (pmPat.length - 1), y, by simp [List.append_assoc]⟩
              exact ⟨g, hg, infix_extend_left _ _ _ hocc2⟩
          · simp only [litScan, List.append_eq]
            rw [if_neg hb]
            obtain ⟨g, hg, hocc2⟩ := ih (x' ++ (pageMarker fmt ns ts ++ y))
              ⟨x', y, by simp [List.append_assoc]⟩
            exact ⟨g, hg, List.infix_cons hocc2⟩

/-- A text containing a page marker masks to a text containing one of
the carrier shapes. -/
theorem maskPageMarkers_carrier (fmt : Bool) (ns ts t : Str)
    (hns : ∀ c ∈ ns, isDigitC c = true) (hts : ∀ c ∈ ts, isDigitC c = true)
    (hocc : pageMarker fmt ns ts <:+: t) :
    ∃ g, pmCarrier fmt ns ts g ∧ g <:+: maskPageMarkers t :=
  maskScan_carrier fmt ns ts hns hts t.length t hocc

/-- Unfolding of the client-format carrier. -/
theorem pmCarrier_client_elim (ns ts g : Str) (hg : pmCarrier false ns ts g) :
    ∃ T, carrierTail T ∧ g = clientBase ns ts ++ T := by
  unfold pmCarrier at hg
  rwa [if_neg (by simp : ¬(false = true))] at hg

/-- Unfolding of the AI-format carrier. -/
theorem pmCarrier_ai_elim (ns ts g : Str) (hg : pmCarrier true ns ts g) :
    g = pageMarker true ns ts ∨
      ∃ T, carrierTail T ∧ g = pmTok ++ aiMid ns ts ++ T := by
  unfold pmCarrier at hg
  rwa [if_pos rfl] at hg

/-- A client marker base starts with an equals sign. -/
theorem clientBase_cons (ns ts : Str) :
    ∃ r, clientBase ns ts = '=' :: r := by
  refine ⟨['=', '=', ' ', 'P', 'A', 'G', 'E', ' '] ++ markerMid ns ts ++ [' '], ?_⟩
  rw [clientBase, clientPfx_chars]
  simp [List.append_assoc]

/-- A masked AI carrier starts with `<<P`. -/
theorem aiMasked_cons (ns ts T : Str) :
    ∃ r, pmTok ++ aiMid ns ts ++ T = '<' :: '<' :: 'P' :: r := by
  refine ⟨['A', 'G', 'E', '_', 'M', 'A', 'R', 'K', 'E', 'R', '>', '>'] ++
    aiMid ns ts ++ T, ?_⟩
  rw [pmTok_chars]
  simp [List.append_assoc]

/-- Every carrier is nonempty and starts with a non-white-space
character. -/
theorem carrier_shape (fmt : Bool) (ns ts g : Str) (hg : pmCarrier fmt ns ts g) :
    ∃ g0 gr, g = g0 :: gr ∧ isWsJs g0 = false := by
  cases fmt
  · obtain ⟨T, hT, rfl⟩ := pmCarrier_client_elim ns ts g hg
    obtain ⟨r, hr⟩ := clientBase_cons ns ts
    exact ⟨'=', r ++ T, by rw [hr]; rfl, by decide⟩
  · rcases pmCarrier_ai_elim ns ts g hg with h | ⟨T, hT, rfl⟩
    · obtain ⟨mr, hmr⟩ := pageMarker_head3 true ns ts
      exact ⟨'=', '=' :: '=' :: mr, by rw [h, hmr], by decide⟩
    · obtain ⟨r, hr⟩ := aiMasked_cons ns ts T
      exact ⟨'<', '<' :: 'P' :: r, by rw [hr], by decide⟩

/-- The tail shapes contain no sentence punctuation. -/
theorem carrierTail_no_punct (T : Str) (hT : carrierTail T) :
    ∀ c ∈ T, isPunctSB (some c) = false := by
  rcases hT with h | h | h | h <;> subst h <;> decide

/-- The marker pattern contains no sentence punctuation. -/
theorem pmPat_no_punct : ∀ c ∈ pmPat, isPunctSB (some c) = false := by decide

/-- The page-marker token contains no sentence punctuation. -/
theorem pmTok_no_punct : ∀ c ∈ pmTok, isPunctSB (some c) = false := by decide

/-- No character of a carrier is sentence punctuation (`.`, `!`, `?`). -/
theorem carrier_no_punct (fmt : Bool) (ns ts g : Str)
    (hns : ∀ c ∈ ns, isDigitC c = true) (hts : ∀ c ∈ ts, isDigitC c = true)
    (hg : pmCarrier fmt ns ts g) :
    ∀ c ∈ g, isPunctSB (some c) = false := by
  cases fmt
  · obtain ⟨T, hT, rfl⟩ := pmCarrier_client_elim ns ts g hg
    intro c hc
    rcases List.mem_append.mp hc with h | h
    · exact (clientBase_facts ns ts hns hts c h).2.2
    · exact carrierTail_no_punct T hT c h
  · rcases pmCarrier_ai_elim ns ts g hg with h | ⟨T, hT, rfl⟩
    · subst h
      intro c hc
      have hc2 : c ∈ pmPat ++ aiMid ns ts ++ ['=', '=', '='] := hc
      rcases List.mem_append.mp hc2 with h1 | h1
      · rcases List.mem_append.mp h1 with h2 | h2
        · exact pmPat_no_punct c h2
        · exact (aiMid_facts ns ts hns hts c h2).2.2.2
      · rcases List.mem_cons.mp h1 with h2 | h2
        · subst h2
          decide
        · rcases List.mem_cons.mp h2 with h3 | h3
          · subst h3
            decide
          · rw [List.mem_singleton] at h3
            subst h3
            decide
    · intro c hc
      rcases List.mem_append.mp hc with h1 | h1
      · rcases List.mem_append.mp h1 with h2 | h2
        · exact pmTok_no_punct c h2
        · exact (aiMid_facts ns ts hns hts c h2).2.2.2
      · exact carrierTail_no_punct T hT c h1

/-- No suffix of the dot token matches at an equals sign. -/
theorem noCross_dotTok_eq : ∀ j, 0 < j → j < dotTok.length → ∀ v,
    (dotTok.drop j).isPrefixOf ('=' :: v) = false := by
  intro j hj hjl v
  have h7 : j < 7 := by
    rw [dotTok_chars] at hjl
    simpa using hjl
  rw [dotTok_chars]
  interval_cases j <;> rfl

/-- No suffix of the dot token matches at `<<P`. -/
theorem noCross_dotTok_ltlt : ∀ j, 0 < j → j < dotTok.length → ∀ v,
    (dotTok.drop j).isPrefixOf ('<' :: '<' :: 'P' :: v) = false := by
  intro j hj hjl v
  have h7 : j < 7 := by
    rw [dotTok_chars] at hjl
    simpa using hjl
  rw [dotTok_chars]
  interval_cases j <;> rfl

/-- No suffix of the page-marker token matches at an equals sign. -/
theorem noCross_pmTok_eq : ∀ j, 0 < j → j < pmTok.length → ∀ v,
    (pmTok.drop j).isPrefixOf ('=' :: v) = false := by
  intro j hj hjl v
  have h15 : j < 15 := by
    rw [pmTok_chars] at hjl
    simpa using hjl
  rw [pmTok_chars]
  interval_cases j <;> rfl

/-- No suffix of the page-marker token matches at `<<P`. -/
theorem noCross_pmTok_ltlt : ∀ j, 0 < j → j < pmTok.length → ∀ v,
    (pmTok.drop j).isPrefixOf ('<' :: '<' :: 'P' :: v) = false := by
  intro j hj hjl v
  have h15 : j < 15 := by
    rw [pmTok_chars] at hjl
    simpa using hjl
  rw [pmTok_chars]
  interval_cases j <;> rfl

/-- `noCrossInto` from a fact about the first character. -/
theorem noCrossInto_of_cons (pat : Str) (c : Char) (s : Str)
    (h : ∀ j, 0 < j → j < pat.length → ∀ v, (pat.drop j).isPrefixOf (c :: v) = false) :
    noCrossInto pat (c :: s) := by
  intro j hj hjl v
  rw [List.cons_append]
  exact h j hj hjl (s ++ v)

/-- `noCrossInto` from a fact about the first three characters. -/
theorem noCrossInto_of_cons3 (pat : Str) (c1 c2 c3 : Char) (s : Str)
    (h : ∀ j, 0 < j → j < pat.length → ∀ v,
      (pat.drop j).isPrefixOf (c1 :: c2 :: c3 :: v) = false) :
    noCrossInto pat (c1 :: c2 :: c3 :: s) := by
  intro j hj hjl v
  rw [List.cons_append, List.cons_append, List.cons_append]
  exact h j hj hjl (s ++ v)

/-- A pattern starting with `<` can start nowhere in a `<`-free string. -/
theorem noStart_dotTok_of_ne (s : Str) (h : ∀ c ∈ s, c ≠ '<') : noStartIn dotTok s := by
  have h2 := noStartIn_of_head_ne '<' ['<', 'D', 'O', 'T', '>', '>'] s h
  rwa [show ('<' :: ['<', 'D', 'O', 'T', '>', '>']) = dotTok
    from by rw [dotTok_chars]] at h2

/-- The dot token can start nowhere inside the page-marker token. -/
theorem noStart_dotTok_pmTok : noStartIn dotTok pmTok := by
  rw [pmTok_chars]
  intro i hi v
  have h15 : i < 15 := by simpa using hi
  interval_cases i <;> rfl

/-- The dot token can start nowhere inside a tail shape. -/
theorem noStart_dotTok_carrierTail (T : Str) (hT : carrierTail T) :
    noStartIn dotTok T := by
  rcases hT with h | h | h | h <;> subst h
  · exact noStart_dotTok_of_ne _ (by decide)
  · exact noStart_dotTok_pmTok
  · rw [show '=' :: pmTok = ['='] ++ pmTok from rfl]
    exact noStartIn_append _ _ _ (noStart_dotTok_of_ne _ (by decide)) noStart_dotTok_pmTok
  · rw [show '=' :: '=' :: pmTok = ['=', '='] ++ pmTok from rfl]
    exact noStartIn_append _ _ _ (noStart_dotTok_of_ne _ (by decide)) noStart_dotTok_pmTok

/-- The dot token can start nowhere inside a carrier. -/
theorem noStart_dotTok_carrier (fmt : Bool) (ns ts g : Str)
    (hns : ∀ c ∈ ns, isDigitC c = true) (hts : ∀ c ∈ ts, isDigitC c = true)
    (hg : pmCarrier fmt ns ts g) : noStartIn dotTok g := by
  cases fmt
  · obtain ⟨T, hT, rfl⟩ := pmCarrier_client_elim ns ts g hg
    exact noStartIn_append _ _ _
      (noStart_dotTok_of_ne _ (fun c hc => (clientBase_facts ns ts hns hts c hc).1))
      (noStart_dotTok_carrierTail T hT)
  · rcases pmCarrier_ai_elim ns ts g hg with h | ⟨T, hT, rfl⟩
    · subst h
      exact noStart_dotTok_of_ne _
        (fun c hc he => pageMarker_no_lt true ns ts hns hts (he ▸ hc))
    · refine noStartIn_append _ _ _ (noStartIn_append _ _ _ ?_ ?_) ?_
      · exact noStart_dotTok_pmTok
      · exact noStart_dotTok_of_ne _ (fun c hc => (aiMid_facts ns ts hns hts c hc).2.1)
      · exact noStart_dotTok_carrierTail T hT

/-- No dot-token match from before a carrier can cross into it. -/
theorem noCross_dotTok_carrier (fmt : Bool) (ns ts g : Str)
    (hg : pmCarrier fmt ns ts g) : noCrossInto dotTok g := by
  cases fmt
  · obtain ⟨T, hT, rfl⟩ := pmCarrier_client_elim ns ts g hg
    obtain ⟨r, hr⟩ := clientBase_cons ns ts
    rw [show clientBase ns ts ++ T = '=' :: (r ++ T) from by rw [hr]; rfl]
    exact noCrossInto_of_cons dotTok '=' _ noCross_dotTok_eq
  · rcases pmCarrier_ai_elim ns ts g hg with h | ⟨T, hT, rfl⟩
    · obtain ⟨mr, hmr⟩ := pageMarker_head3 true ns ts
      rw [h, hmr]
      exact noCrossInto_of_cons dotTok '=' _ noCross_dotTok_eq
    · obtain ⟨r, hr⟩ := aiMasked_cons ns ts T
      rw [hr]
      exact noCrossInto_of_cons3 dotTok '<' '<' 'P' _ noCross_dotTok_ltlt

/-- No page-marker-token match from before a carrier can cross into it. -/
theorem noCross_pmTok_carrier (fmt : Bool) (ns ts g : Str)
    (hg : pmCarrier fmt ns ts g) : noCrossInto pmTok g := by
  cases fmt
  · obtain ⟨T, hT, rfl⟩ := pmCarrier_client_elim ns ts g hg
    obtain ⟨r, hr⟩ := clientBase_cons ns ts
    rw [show clientBase ns ts ++ T = '=' :: (r ++ T) from by rw [hr]; rfl]
    exact noCrossInto_of_cons pmTok '=' _ noCross_pmTok_eq
  · rcases pmCarrier_ai_elim ns ts g hg with h | ⟨T, hT, rfl⟩
    · obtain ⟨mr, hmr⟩ := pageMarker_head3 true ns ts
      rw [h, hmr]
      exact noCrossInto_of_cons pmTok '=' _ noCross_pmTok_eq
    · obtain ⟨r, hr⟩ := aiMasked_cons ns ts T
      rw [hr]
      exact noCrossInto_of_cons3 pmTok '<' '<' 'P' _ noCross_pmTok_ltlt

/-- The first piece produced by the splitting scan extends the current
accumulator. -/
theorem splitGo_first_piece : ∀ (fuel : Nat) (acc : Str) (prev : Option Char) (t : Str),
    ∃ u rest, splitGo fuel acc prev t = (acc.reverse ++ u) :: rest := by
  intro fuel
  induction fuel with
  | zero => exact fun acc prev t => ⟨t, [], rfl⟩
  | succ fuel ih =>
      intro acc prev t
      cases t with
      | nil => exact ⟨[], [], by simp [splitGo]⟩
      | cons c cs =>
          simp only [splitGo]
          split
          · split
            · exact ⟨[], _, by rw [List.append_nil]⟩
            · split
              · exact ⟨[], _, by rw [List.append_nil]⟩
              · obtain ⟨u, rest, hu⟩ := ih (c :: acc) (some c) cs
                exact ⟨[c] ++ u, rest,
                  by rw [hu, List.reverse_cons, List.append_assoc]⟩
          · obtain ⟨u, rest, hu⟩ := ih (c :: acc) (some c) cs
            exact ⟨[c] ++ u, rest,
              by rw [hu, List.reverse_cons, List.append_assoc]⟩

/-- Walking the splitting scan through a punctuation-free region with a
non-white-space head: the region ends up inside a single piece. -/
theorem splitGo_walk (g : Str) (hb : ∀ c ∈ g, isPunctSB (some c) = false)
    (hh : ∀ c, g.head? = some c → isWsJs c = false) :
    ∀ fuel gdone grest acc0 prev y, g = gdone ++ grest →
      (gdone = [] ∨ ∃ c0, prev = some c0 ∧ c0 ∈ g) →
      ∃ p ∈ splitGo fuel (gdone.reverse ++ acc0) prev (grest ++ y), g <:+: p := by
  intro fuel
  induction fuel with
  | zero =>
      intro gdone grest acc0 prev y hsplit _
      refine ⟨(gdone.reverse ++ acc0).reverse ++ (grest ++ y), ?_, ?_⟩
      · simp [splitGo]
      · rw [List.reverse_append, List.reverse_reverse]
        subst hsplit
        exact ⟨acc0.reverse, y, by simp [List.append_assoc]⟩
  | succ fuel ih =>
      intro gdone grest acc0 prev y hsplit hprev
      cases hgr : grest with
      | nil =>
          subst hgr
          rw [List.append_nil] at hsplit
          rw [List.nil_append]
          obtain ⟨u, rest, hu⟩ :=
            splitGo_first_piece (fuel + 1) (gdone.reverse ++ acc0) prev y
          refine ⟨(gdone.reverse ++ acc0).reverse ++ u, ?_, ?_⟩
          · rw [hu]
            rw [List.reverse_append, List.reverse_reverse]
            exact List.mem_cons_self _ _
          · rw [List.reverse_append, List.reverse_reverse]
            subst hsplit
            exact ⟨acc0.reverse, u, by simp [List.append_assoc]⟩
      | cons h grest2 =>
          subst hgr
          have hcondF : (isPunctSB prev && isWsJs h) = false := by
            rcases hprev with hnil | ⟨c0, hp, hc0⟩
            · subst hnil
              rw [List.nil_append] at hsplit
              have hw := hh h (by rw [hsplit]; rfl)
              rw [hw, Bool.and_false]
            · rw [hp, hb c0 hc0, Bool.false_and]
          rw [show (h :: grest2) ++ y = h :: (grest2 ++ y) from rfl]
          simp only [splitGo]
          rw [if_neg (by rw [hcondF]; simp : ¬((isPunctSB prev && isWsJs h) = true))]
          have hsplit2 : g = (gdone ++ [h]) ++ grest2 := by
            rw [hsplit]
            simp [List.append_assoc]
          have hprev2 : (gdone ++ [h] = [] ∨ ∃ c0, some h = some c0 ∧ c0 ∈ g) :=
            Or.inr ⟨h, rfl,
              by rw [hsplit]; exact List.mem_append.mpr (Or.inr (List.mem_cons_self _ _))⟩
          have hacc : h :: (gdone.reverse ++ acc0) = (gdone ++ [h]).reverse ++ acc0 := by
            rw [List.reverse_append]
            simp
          rw [hacc]
          exact ih (gdone ++ [h]) grest2 acc0 (some h) y hsplit2 hprev2

/-- Main lemma of the splitting stage: a punctuation-free region with a
non-white-space head lands inside a single piece of the splitting scan. -/
theorem splitGo_preserves (g : Str) (hb : ∀ c ∈ g, isPunctSB (some c) = false)
    (hg : ∃ g0 gr, g = g0 :: gr ∧ isWsJs g0 = false) :
    ∀ fuel acc prev x y, ∃ p ∈ splitGo fuel acc prev (x ++ (g ++ y)), g <:+: p := by
  have hh : ∀ c, g.head? = some c → isWsJs c = false := by
    obtain ⟨g0, gr, hgeq, hw⟩ := hg
    intro c hc
    rw [hgeq] at hc
    cases hc
    exact hw
  have hhy : ∀ y : Str, ∀ c, (g ++ y).head? = some c → isWsJs c = false := by
    obtain ⟨g0, gr, hgeq, hw⟩ := hg
    intro y c hc
    rw [hgeq] at hc
    cases hc
    exact hw
  intro fuel
  induction fuel with
  | zero =>
      intro acc prev x y
      refine ⟨acc.reverse ++ (x ++ (g ++ y)), ?_, ?_⟩
      · simp [splitGo]
      · exact ⟨acc.reverse ++ x, y, by simp [List.append_assoc]⟩
  | succ fuel ih =>
      intro acc prev x y
      cases hx : x with
      | nil =>
          subst hx
          rw [List.nil_append]
          have hwalk := splitGo_walk g hb hh (fuel + 1) [] g acc prev y rfl (Or.inl rfl)
          simpa using hwalk
      | cons c cs =>
          subst hx
          rw [show (c :: cs) ++ (g ++ y) = c :: (cs ++ (g ++ y)) from rfl]
          simp only [splitGo]
          have hdw : (cs ++ (g ++ y)).dropWhile isWsJs =
              cs.dropWhile isWsJs ++ (g ++ y) :=
            dropWhile_append_head_false isWsJs cs (hhy y)
          split
          · split
            · -- first alternative: the white-space run is dropped
              rw [hdw]
              obtain ⟨p, hp, hocc⟩ := ih [] _ (cs.dropWhile isWsJs) y
              exact ⟨p, List.mem_cons_of_mem _ hp, hocc⟩
            · split
              · -- second alternative: cut after the last newline of the run
                rename_i k hk
                have harg :
                    (c :: (cs ++ (g ++ y)).takeWhile isWsJs).drop (k + 1) ++
                      (cs ++ (g ++ y)).dropWhile isWsJs =
                    ((c :: (cs ++ (g ++ y)).takeWhile isWsJs).drop (k + 1) ++
                      cs.dropWhile isWsJs) ++ (g ++ y) := by
                  rw [hdw, List.append_assoc]
                rw [harg]
                obtain ⟨p, hp, hocc⟩ :=
                  ih [] _ ((c :: (cs ++ (g ++ y)).takeWhile isWsJs).drop (k + 1) ++
                    cs.dropWhile isWsJs) y
                exact ⟨p, List.mem_cons_of_mem _ hp, hocc⟩
              · -- no separator after all
                obtain ⟨p, hp, hocc⟩ := ih (c :: acc) (some c) cs y
                exact ⟨p, hp, hocc⟩
          · obtain ⟨p, hp, hocc⟩ := ih (c :: acc) (some c) cs y
            exact ⟨p, hp, hocc⟩

/-- A punctuation-free region with a non-white-space head lands inside
a single piece of `splitPieces`. -/
theorem splitPieces_preserves (g : Str) (hb : ∀ c ∈ g, isPunctSB (some c) = false)
    (hg : ∃ g0 gr, g = g0 :: gr ∧ isWsJs g0 = false) (t : Str) (hocc : g <:+: t) :
    ∃ p ∈ splitPieces t, g <:+: p := by
  obtain ⟨x, y, rfl⟩ := hocc
  rw [splitPieces, List.append_assoc]
  exact splitGo_preserves g hb hg _ [] none x y

/-- A carrier survives the dot-restoring pass verbatim. -/
theorem dotUnmask_carrier (fmt : Bool) (ns ts g p : Str)
    (hns : ∀ c ∈ ns, isDigitC c = true) (hts : ∀ c ∈ ts, isDigitC c = true)
    (hg : pmCarrier fmt ns ts g) (hocc : g <:+: p) :
    g <:+: replaceAllL dotTok ['.'] p :=
  litScan_preserves dotTok ['.'] g
    (noStart_dotTok_carrier fmt ns ts g hns hts hg)
    (noCross_dotTok_carrier fmt ns ts g hg) p.length p hocc

/-- The page-marker token can start nowhere in a `<`-free string. -/
theorem noStart_pmTok_of_ne (s : Str) (h : ∀ c ∈ s, c ≠ '<') : noStartIn pmTok s := by
  have h2 := noStartIn_of_head_ne '<'
    ['<', 'P', 'A', 'G', 'E', '_', 'M', 'A', 'R', 'K', 'E', 'R', '>', '>'] s h
  rwa [show ('<' :: ['<', 'P', 'A', 'G', 'E', '_', 'M', 'A', 'R', 'K', 'E', 'R', '>', '>'])
    = pmTok from by rw [pmTok_chars]] at h2

/-- With enough fuel, the restoring scan rewrites a leading
`<<PAGE_MARKER>>` token back into `=== PDF PAGE`. -/
theorem restore_tok : ∀ fuel y, 15 + y.length ≤ fuel →
    ∃ w, litScan pmTok pmPat fuel (pmTok ++ y) = '=' :: '=' :: '=' :: w := by
  intro fuel y hf
  cases fuel with
  | zero => omega
  | succ f =>
      have hshape : pmTok ++ y = '<' :: ('<' :: 'P' :: 'A' :: 'G' :: 'E' :: '_' :: 'M' ::
          'A' :: 'R' :: 'K' :: 'E' :: 'R' :: '>' :: '>' :: y) := by
        rw [pmTok_chars]
        rfl
      have hb : pmTok.isPrefixOf ('<' :: ('<' :: 'P' :: 'A' :: 'G' :: 'E' :: '_' :: 'M' ::
          'A' :: 'R' :: 'K' :: 'E' :: 'R' :: '>' :: '>' :: y)) = true := by
        rw [← hshape]
        exact isPrefixOf_append_self _ _
      rw [hshape]
      simp only [litScan]
      rw [if_pos hb]
      refine ⟨' ' :: 'P' :: 'D' :: 'F' :: ' ' :: 'P' :: 'A' :: 'G' :: 'E' ::
        litScan pmTok pmPat f
          (List.drop (pmTok.length - 1)
            ('<' :: 'P' :: 'A' :: 'G' :: 'E' :: '_' :: 'M' :: 'A' :: 'R' :: 'K' :: 'E' ::
              'R' :: '>' :: '>' :: y)), ?_⟩
      rw [pmPat_chars]
      rfl

/-- Leading `=<<PAGE_MARKER>>`: the stray equals sign is kept and the
token restored. -/
theorem restore_tok1 : ∀ fuel y, 16 + y.length ≤ fuel →
    ∃ w, litScan pmTok pmPat fuel (('=' :: pmTok) ++ y) = '=' :: '=' :: '=' :: w := by
  intro fuel y hf
  cases fuel with
  | zero => omega
  | succ f =>
      have hb : pmTok.isPrefixOf ('=' :: (pmTok ++ y)) = false := by
        rw [pmTok_chars]
        rfl
      rw [show ('=' :: pmTok) ++ y = '=' :: (pmTok ++ y) from rfl]
      simp only [litScan]
      rw [if_neg (by rw [hb]; simp : ¬(pmTok.isPrefixOf ('=' :: (pmTok ++ y)) = true))]
      obtain ⟨w, hw⟩ := restore_tok f y (by omega)
      refine ⟨'=' :: w, ?_⟩
      rw [hw]

/-- Leading `==<<PAGE_MARKER>>`: both stray equals signs are kept and
the token restored. -/
theorem restore_tok2 : ∀ fuel y, 17 + y.length ≤ fuel →
    ∃ w, litScan pmTok pmPat fuel (('=' :: '=' :: pmTok) ++ y) =
      '=' :: '=' :: '=' :: w := by
  intro fuel y hf
  cases fuel with
  | zero => omega
  | succ f =>
      have hb : pmTok.isPrefixOf ('=' :: (('=' :: pmTok) ++ y)) = false := by
        rw [pmTok_chars]
        rfl
      rw [show ('=' :: '=' :: pmTok) ++ y = '=' :: (('=' :: pmTok) ++ y) from rfl]
      simp only [litScan]
      rw [if_neg (by
        rw [hb]; simp : ¬(pmTok.isPrefixOf ('=' :: (('=' :: pmTok) ++ y)) = true))]
      obtain ⟨w, hw⟩ := restore_tok1 f y (by omega)
      refine ⟨'=' :: w, ?_⟩
      rw [hw]

/-- Every tail shape restores to text beginning with `===`. -/
theorem restore_tail (T : Str) (hT : carrierTail T) :
    ∀ fuel y, T.length + y.length ≤ fuel →
      ∃ w, litScan pmTok pmPat fuel (T ++ y) = '=' :: '=' :: '=' :: w := by
  rcases hT with h | h | h | h <;> subst h
  · intro fuel y _
    obtain ⟨w, hw⟩ := litScan_skip pmTok pmPat ['=', '=', '=']
      (noStart_pmTok_of_ne _ (by decide)) fuel y
    exact ⟨w, hw⟩
  · intro fuel y hf
    refine restore_tok fuel y ?_
    rw [show pmTok.length = 15 from by decide] at hf
    omega
  · intro fuel y hf
    refine restore_tok1 fuel y ?_
    simp only [List.length_cons, show pmTok.length = 15 from by decide] at hf
    omega
  · intro fuel y hf
    refine restore_tok2 fuel y ?_
    simp only [List.length_cons, show pmTok.length = 15 from by decide] at hf
    omega

/-- Restoring scan over a carrier at the head of the text: the marker
reappears. -/
theorem restore_at_head (fmt : Bool) (ns ts g : Str)
    (hns : ∀ c ∈ ns, isDigitC c = true) (hts : ∀ c ∈ ts, isDigitC c = true)
    (hg : pmCarrier fmt ns ts g) :
    ∀ fuel y, g.length + y.length ≤ fuel →
      pageMarker fmt ns ts <:+: litScan pmTok pmPat fuel (g ++ y) := by
  cases fmt
  · obtain ⟨T, hT, rfl⟩ := pmCarrier_client_elim ns ts g hg
    intro fuel y hf
    simp only [List.length_append] at hf
    rw [List.append_assoc]
    rw [litScan_skip_exact pmTok pmPat (clientBase ns ts)
      (noStart_pmTok_of_ne _ (fun c hc => (clientBase_facts ns ts hns hts c hc).1))
      fuel (T ++ y) (by simp only [List.length_append]; omega)]
    obtain ⟨w, hw⟩ := restore_tail T hT (fuel - (clientBase ns ts).length) y (by omega)
    rw [hw]
    refine ⟨[], w, ?_⟩
    have hkey : ([] : Str) ++ pageMarker false ns ts ++ w =
        clientBase ns ts ++ ('=' :: '=' :: '=' :: w) := by
      rw [List.nil_append]
      show (clientBase ns ts ++ ['=', '=', '=']) ++ w = _
      rw [List.append_assoc]
      rfl
    exact hkey
  · rcases pmCarrier_ai_elim ns ts g hg with h | ⟨T, hT, rfl⟩
    · subst h
      intro fuel y _
      have hstart : noStartIn pmTok (pageMarker true ns ts) :=
        noStart_pmTok_of_ne _
          (fun c hc he => pageMarker_no_lt true ns ts hns hts (he ▸ hc))
      have hcross : noCrossInto pmTok (pageMarker true ns ts) := by
        obtain ⟨mr, hmr⟩ := pageMarker_head3 true ns ts
        rw [hmr]
        exact noCrossInto_of_cons pmTok '=' _ noCross_pmTok_eq
      exact litScan_preserves pmTok pmPat _ hstart hcross fuel _ ⟨[], y, by simp⟩
    · intro fuel y hf
      simp only [List.length_append,
        show pmTok.length = 15 from by decide] at hf
      cases fuel with
      | zero => omega
      | succ f =>
          have hshape : (pmTok ++ aiMid ns ts ++ T) ++ y =
              '<' :: ('<' :: 'P' :: 'A' :: 'G' :: 'E' :: '_' :: 'M' :: 'A' :: 'R' ::
                'K' :: 'E' :: 'R' :: '>' :: '>' :: (aiMid ns ts ++ (T ++ y))) := by
            rw [pmTok_chars]
            simp [List.append_assoc]
          have hb : pmTok.isPrefixOf
              ('<' :: ('<' :: 'P' :: 'A' :: 'G' :: 'E' :: '_' :: 'M' :: 'A' :: 'R' ::
                'K' :: 'E' :: 'R' :: '>' :: '>' :: (aiMid ns ts ++ (T ++ y)))) = true := by
            rw [show ('<' :: ('<' :: 'P' :: 'A' :: 'G' :: 'E' :: '_' :: 'M' :: 'A' :: 'R' ::
              'K' :: 'E' :: 'R' :: '>' :: '>' :: (aiMid ns ts ++ (T ++ y)))) =
              pmTok ++ (aiMid ns ts ++ (T ++ y)) from by rw [pmTok_chars]; rfl]
            exact isPrefixOf_append_self _ _
          rw [hshape]
          simp only [litScan]
          rw [if_pos hb]
          have hdrop : List.drop (pmTok.length - 1)
              ('<' :: 'P' :: 'A' :: 'G' :: 'E' :: '_' :: 'M' :: 'A' :: 'R' :: 'K' :: 'E' ::
                'R' :: '>' :: '>' :: (aiMid ns ts ++ (T ++ y))) =
              aiMid ns ts ++ (T ++ y) := by
            rw [show pmTok.length - 1 = 14 from by decide]
            rfl
          rw [hdrop]
          rw [litScan_skip_exact pmTok pmPat (aiMid ns ts)
            (noStart_pmTok_of_ne _ (fun c hc => (aiMid_facts ns ts hns hts c hc).2.1))
            f (T ++ y) (by simp only [List.length_append]; omega)]
          obtain ⟨w, hw⟩ := restore_tail T hT (f - (aiMid ns ts).length) y (by omega)
          rw [hw]
          refine ⟨[], w, ?_⟩
          have hkey : ([] : Str) ++ pageMarker true ns ts ++ w =
              pmPat ++ (aiMid ns ts ++ ('=' :: '=' :: '=' :: w)) := by
            rw [List.nil_append]
            show (pmPat ++ aiMid ns ts ++ ['=', '=', '=']) ++ w = _
            rw [List.append_assoc, List.append_assoc]
            rfl
          exact hkey

/-- Main lemma of the restoring stage: unmasking a text that contains a
carrier produces a text that contains the marker itself. -/
theorem pmUnmask_restores (fmt : Bool) (ns ts g : Str)
    (hns : ∀ c ∈ ns, isDigitC c = true) (hts : ∀ c ∈ ts, isDigitC c = true)
    (hg : pmCarrier fmt ns ts g) :
    ∀ fuel t, g <:+: t → t.length ≤ fuel →
      pageMarker fmt ns ts <:+: litScan pmTok pmPat fuel t := by
  intro fuel
  induction fuel with
  | zero =>
      intro t hocc hlen
      obtain ⟨g0, gr, hgeq, _⟩ := carrier_shape fmt ns ts g hg
      have ht : t = [] := by
        cases t with
        | nil => rfl
        | cons a b => simp at hlen
      subst ht
      rw [List.infix_nil] at hocc
      rw [hocc] at hgeq
      exact absurd hgeq (by simp)
  | succ fuel ih =>
      intro t hocc hlen
      obtain ⟨x, y, rfl⟩ := hocc
      cases hx : x with
      | nil =>
          subst hx
          rw [List.nil_append]
          rw [List.nil_append, List.length_append] at hlen
          exact restore_at_head fmt ns ts g hns hts hg (fuel + 1) y hlen
      | cons c x' =>
          subst hx
          have hshape : (c :: x') ++ g ++ y = c :: (x' ++ (g ++ y)) := by
            simp [List.append_assoc]
          rw [hshape] at hlen ⊢
          have hlen' : (x' ++ (g ++ y)).length ≤ fuel := by
            rw [List.length_cons] at hlen
            omega
          by_cases hb : pmTok.isPrefixOf (c :: (x' ++ (g ++ y))) = true
          · rcases Nat.lt_or_ge x'.length (pmTok.length - 1) with hlt | hge
            · exfalso
              have hpre : pmTok <+: (c :: x') ++ (g ++ y) := by
                rw [List.isPrefixOf_iff_prefix] at hb
                simpa [List.append_assoc] using hb
              obtain ⟨r, hr⟩ := hpre
              have hxlt : (c :: x').length < pmTok.length := by
                have hpl : 0 < pmTok.length := by rw [pmTok_chars]; simp
                simp only [List.length_cons]
                omega
              have hdrop : pmTok.drop (c :: x').length ++ r = g ++ y := by
                have hca := congrArg (List.drop (c :: x').length) hr.symm
                rw [List.drop_append_eq_append_drop, Nat.sub_self, List.drop_zero,
                  List.drop_length, List.nil_append] at hca
                rw [List.drop_append_eq_append_drop,
                  Nat.sub_eq_zero_of_le (Nat.le_of_lt hxlt), List.drop_zero] at hca
                exact hca.symm
              have hfalse := noCross_pmTok_carrier fmt ns ts g hg
                (c :: x').length (by simp) hxlt y
              have hpp : (pmTok.drop (c :: x').length).isPrefixOf (g ++ y) = true := by
                rw [List.isPrefixOf_iff_prefix]
                exact ⟨r, hdrop⟩
              rw [hfalse] at hpp
              exact absurd hpp (by simp)
            · simp only [litScan, List.append_eq]
              rw [if_pos hb]
              have hdec : List.drop (pmTok.length - 1) (x' ++ (g ++ y)) =
                  x'.drop (pmTok.length - 1) ++ (g ++ y) := by
                rw [List.drop_append_eq_append_drop,
                  Nat.sub_eq_zero_of_le hge, List.drop_zero]
              rw [hdec]
              have hrec := ih (x'.drop (pmTok.length - 1) ++ (g ++ y))
                ⟨x'.drop (pmTok.length - 1), y, by simp [List.append_assoc]⟩
                (by
                  simp only [List.length_append, List.length_drop]
                  rw [List.length_append, List.length_append] at hlen'
                  omega)
              exact infix_extend_left _ _ _ hrec
          · simp only [litScan, List.append_eq]
            rw [if_neg hb]
            exact List.infix_cons (ih (x' ++ (g ++ y))
              ⟨x', y, by simp [List.append_assoc]⟩ hlen')

/-- Restoring a sentence that contains a carrier yields a sentence that
contains the marker itself. -/
theorem restoreSentence_restores (fmt : Bool) (ns ts g p : Str)
    (hns : ∀ c ∈ ns, isDigitC c = true) (hts : ∀ c ∈ ts, isDigitC c = true)
    (hg : pmCarrier fmt ns ts g) (hocc : g <:+: p) :
    pageMarker fmt ns ts <:+: restoreSentence p := by
  have h1 : g <:+: replaceAllL dotTok ['.'] p :=
    dotUnmask_carrier fmt ns ts g p hns hts hg hocc
  exact pmUnmask_restores fmt ns ts g hns hts hg
    (replaceAllL dotTok ['.'] p).length _ h1 (Nat.le_refl _)

/-- A region with non-white-space first and last characters survives
JavaScript `trim`. -/
theorem jsTrim_preserves (m : Str)
    (hhead : ∃ c r, m = c :: r ∧ isWsJs c = false)
    (hlast : ∃ pre c, m = pre ++ [c] ∧ isWsJs c = false) :
    ∀ l, m <:+: l → m <:+: jsTrim l := by
  intro l hocc
  obtain ⟨x, y, rfl⟩ := hocc
  obtain ⟨c0, r0, hm0, hw0⟩ := hhead
  obtain ⟨pre, cl, hml, hwl⟩ := hlast
  have h1 : ((x ++ m ++ y).dropWhile isWsJs) = x.dropWhile isWsJs ++ (m ++ y) := by
    rw [List.append_assoc]
    refine dropWhile_append_head_false isWsJs x ?_
    intro c hc
    rw [hm0, List.cons_append] at hc
    cases hc
    exact hw0
  have h2 : m <:+: (x ++ m ++ y).dropWhile isWsJs := by
    rw [h1]
    exact ⟨x.dropWhile isWsJs, y, by simp [List.append_assoc]⟩
  have h3 : m.reverse <:+: ((x ++ m ++ y).dropWhile isWsJs).reverse :=
    List.reverse_infix.mpr h2
  obtain ⟨x2, y2, hxy2⟩ := h3
  have hmrev : m.reverse = cl :: pre.reverse := by
    rw [hml]
    simp
  have h4 : (((x ++ m ++ y).dropWhile isWsJs).reverse).dropWhile isWsJs =
      x2.dropWhile isWsJs ++ (m.reverse ++ y2) := by
    rw [← hxy2, List.append_assoc]
    refine dropWhile_append_head_false isWsJs x2 ?_
    intro c hc
    rw [hmrev, List.cons_append] at hc
    cases hc
    exact hwl
  have h5 : m.reverse <:+: (((x ++ m ++ y).dropWhile isWsJs).reverse).dropWhile isWsJs := by
    rw [h4]
    exact ⟨x2.dropWhile isWsJs, y2, by simp [List.append_assoc]⟩
  have h6 := List.reverse_infix.mpr h5
  rw [List.reverse_reverse] at h6
  exact h6

/-- A region with non-white-space ends that sits inside a sentence, the
current chunk or a completed chunk ends up inside a chunk produced by
the accumulation loop. -/
theorem chunkLoop_preserves (m : Str)
    (hhead : ∃ c r, m = c :: r ∧ isWsJs c = false)
    (hlast : ∃ pre c, m = pre ++ [c] ∧ isWsJs c = false) :
    ∀ sents current overlap chunks,
      ((∃ s ∈ sents, m <:+: s) ∨ m <:+: current ∨ ∃ c ∈ chunks, m <:+: c) →
      ∃ c ∈ chunkLoop sents current overlap chunks, m <:+: c := by
  intro sents
  induction sents with
  | nil =>
      intro current overlap chunks hdisj
      rcases hdisj with ⟨s, hs, _⟩ | hcur | ⟨c, hc, hmc⟩
      · exact absurd hs (List.not_mem_nil s)
      · have htrim := jsTrim_preserves m hhead hlast current hcur
        have hne : (jsTrim current).isEmpty = false := by
          cases hjt : jsTrim current with
          | nil =>
              rw [hjt, List.infix_nil] at htrim
              obtain ⟨c0, r0, hm0, _⟩ := hhead
              rw [htrim] at hm0
              exact absurd hm0 (by simp)
          | cons a b => rfl
        refine ⟨jsTrim current, ?_, htrim⟩
        simp only [chunkLoop]
        rw [if_neg (by rw [hne]; simp : ¬((jsTrim current).isEmpty = true))]
        exact List.mem_append_right _ (List.mem_singleton.mpr rfl)
      · refine ⟨c, ?_, hmc⟩
        simp only [chunkLoop]
        exact List.mem_append_left _ hc
  | cons s rest ih =>
      intro current overlap chunks hdisj
      simp only [chunkLoop]
      by_cases ht : (jsTrim s).isEmpty = true
      · rw [if_pos ht]
        apply ih
        rcases hdisj with ⟨s2, hs2, hms2⟩ | hcur | hchunks
        · rcases List.mem_cons.mp hs2 with h | h
          · exfalso
            subst h
            have htrim := jsTrim_preserves m hhead hlast s2 hms2
            rw [List.isEmpty_iff] at ht
            rw [ht, List.infix_nil] at htrim
            obtain ⟨c0, r0, hm0, _⟩ := hhead
            rw [htrim] at hm0
            exact absurd hm0 (by simp)
          · exact Or.inl ⟨s2, h, hms2⟩
        · exact Or.inr (Or.inl hcur)
        · exact Or.inr (Or.inr hchunks)
      · rw [if_neg ht]
        by_cases hclose :
            (decide (targetChunkSize < current.length + (jsTrim s).length) &&
              decide (0 < current.length)) = true
        · rw [if_pos hclose, if_pos hclose]
          apply ih
          rcases hdisj with ⟨s2, hs2, hms2⟩ | hcur | hchunks
          · rcases List.mem_cons.mp hs2 with h | h
            · subst h
              refine Or.inr (Or.inl ?_)
              have htrim := jsTrim_preserves m hhead hlast s2 hms2
              exact infix_extend_left _ _ _ (List.infix_cons htrim)
            · exact Or.inl ⟨s2, h, hms2⟩
          · refine Or.inr (Or.inr ?_)
            exact ⟨jsTrim current, List.mem_append_right _ (List.mem_singleton.mpr rfl),
              jsTrim_preserves m hhead hlast current hcur⟩
          · refine Or.inr (Or.inr ?_)
            obtain ⟨c, hc, hmc⟩ := hchunks
            exact ⟨c, List.mem_append_left _ hc, hmc⟩
        · rw [if_neg hclose, if_neg hclose]
          apply ih
          rcases hdisj with ⟨s2, hs2, hms2⟩ | hcur | hchunks
          · rcases List.mem_cons.mp hs2 with h | h
            · subst h
              refine Or.inr (Or.inl ?_)
              have htrim := jsTrim_preserves m hhead hlast s2 hms2
              by_cases hce : current.isEmpty = true
              · rw [if_pos hce]
                exact htrim
              · rw [if_neg hce]
                exact infix_extend_left _ _ _ (List.infix_cons htrim)
            · exact Or.inl ⟨s2, h, hms2⟩
          · refine Or.inr (Or.inl ?_)
            by_cases hce : current.isEmpty = true
            · exfalso
              rw [List.isEmpty_iff] at hce
              rw [hce, List.infix_nil] at hcur
              obtain ⟨c0, r0, hm0, _⟩ := hhead
              rw [hcur] at hm0
              exact absurd hm0 (by simp)
            · rw [if_neg hce]
              exact infix_extend_right _ _ _ hcur
          · exact Or.inr (Or.inr hchunks)

/-- Full pipeline: a page marker in the input text survives,
character for character, inside a single chunk of the pre-filter chunk
sequence. -/
theorem preFilterChunks_marker (fmt : Bool) (ns ts t : Str)
    (hns : ∀ c ∈ ns, isDigitC c = true) (hts : ∀ c ∈ ts, isDigitC c = true)
    (hocc : pageMarker fmt ns ts <:+: t) :
    ∃ c ∈ preFilterChunks t, pageMarker fmt ns ts <:+: c := by
  have hA : pageMarker fmt ns ts <:+: maskAbbreviations t :=
    maskAbbreviations_preserves _ (pageMarker_head3 fmt ns ts)
      (pageMarker_tail2 fmt ns ts) (pageMarker_no_dot fmt ns ts hns hts) t hocc
  obtain ⟨g, hg, hgocc⟩ :=
    maskPageMarkers_carrier fmt ns ts (maskAbbreviations t) hns hts hA
  obtain ⟨p, hp, hpocc⟩ := splitPieces_preserves g
    (carrier_no_punct fmt ns ts g hns hts hg)
    (carrier_shape fmt ns ts g hg) _ hgocc
  have hD : pageMarker fmt ns ts <:+: restoreSentence p :=
    restoreSentence_restores fmt ns ts g p hns hts hg hpocc
  have hsent : restoreSentence p ∈ splitIntoSentences t := by
    rw [splitIntoSentences]
    exact List.mem_map_of_mem restoreSentence hp
  have hhead : ∃ c r, pageMarker fmt ns ts = c :: r ∧ isWsJs c = false := by
    obtain ⟨r, hr⟩ := pageMarker_head3 fmt ns ts
    exact ⟨'=', '=' :: '=' :: r, hr, by decide⟩
  have hlast : ∃ pre c, pageMarker fmt ns ts = pre ++ [c] ∧ isWsJs c = false := by
    obtain ⟨pre, hpre⟩ := pageMarker_tail2 fmt ns ts
    exact ⟨pre ++ ['='], '=', by rw [hpre]; simp, by decide⟩
  exact chunkLoop_preserves (pageMarker fmt ns ts) hhead hlast
    (splitIntoSentences t) [] [] [] (Or.inl ⟨restoreSentence p, hsent, hD⟩)

/-- C3 (counterexample to the round-trip claim as stated): a text that
is exactly the marker `=== PDF PAGE 1 of 2 ===` reaches the pre-filter
chunk list intact (as its single chunk), but `splitIntoSmartChunks`
returns no chunk at all — the 23-character chunk is discarded by the
final `length > 50` filter, so the marker does not survive chunking. -/
theorem C3_marker_dropped_counterexample :
    pageMarker true ['1'] ['2'] <:+: ("=== PDF PAGE 1 of 2 ===").toList ∧
    preFilterChunks (("=== PDF PAGE 1 of 2 ===").toList) =
      [("=== PDF PAGE 1 of 2 ===").toList] ∧
    splitIntoSmartChunks (("=== PDF PAGE 1 of 2 ===").toList) = [] := by
  refine ⟨?_, ?_, ?_⟩ <;> decide

/-- C3 (amended): for every text containing a page marker in either
wire format (`=== PDF PAGE <n> of <total> ===` or
`=== PAGE <n> of <total> ===`, with nonempty digit strings), the marker
survives the masking, sentence splitting and restoration character for
character inside a single chunk of the pre-filter chunk sequence; the
final output keeps exactly the pre-filter chunks longer than 50
characters, so the marker reaches the output if and only if its
carrying chunk does. -/
theorem C3_marker_in_one_chunk (fmt : Bool) (ns ts t : Str)
    (hns : ns ≠ []) (hnsd : ∀ c ∈ ns, isDigitC c = true)
    (hts : ts ≠ []) (htsd : ∀ c ∈ ts, isDigitC c = true)
    (hocc : pageMarker fmt ns ts <:+: t) :
    (∃ c ∈ preFilterChunks t, pageMarker fmt ns ts <:+: c) ∧
    splitIntoSmartChunks t =
      (preFilterChunks t).filter (fun c => decide (50 < c.length)) :=
  ⟨preFilterChunks_marker fmt ns ts t hnsd htsd hocc, rfl⟩

/-- Closed instance of `C3_marker_in_one_chunk` at a concrete text. -/
theorem C3_marker_in_one_chunk_witness :
    ((['2'] : Str) ≠ [] ∧ (∀ c ∈ (['2'] : Str), isDigitC c = true) ∧
      (['9'] : Str) ≠ [] ∧ (∀ c ∈ (['9'] : Str), isDigitC c = true) ∧
      pageMarker true ['2'] ['9'] <:+:
        ("Alpha beta. === PDF PAGE 2 of 9 === The body of the page continues well beyond fifty characters.").toList) ∧
    ((∃ c ∈ preFilterChunks
        ("Alpha beta. === PDF PAGE 2 of 9 === The body of the page continues well beyond fifty characters.").toList,
        pageMarker true ['2'] ['9'] <:+: c) ∧
      splitIntoSmartChunks
        ("Alpha beta. === PDF PAGE 2 of 9 === The body of the page continues well beyond fifty characters.").toList =
        (preFilterChunks
          ("Alpha beta. === PDF PAGE 2 of 9 === The body of the page continues well beyond fifty characters.").toList).filter
          (fun c => decide (50 < c.length))) :=
  ⟨⟨by decide, by decide, by decide, by decide, by decide⟩,
    C3_marker_in_one_chunk true ['2'] ['9'] _
      (by decide) (by decide) (by decide) (by decide) (by decide)⟩

end SecureDocAI
